import Mathlib

/-!
# holddb radix tree: insertion

A shallow embedding of `tree/tree.go` (package `holddb`): the node / edge / leaf
data model, the sorted edge directory (`getEdge`, `addEdge`), `commonPrefix`,
the traversal `longestPath` and `Insert`.

Modelling conventions.

* A Go byte is a `Fin 256`; a `[]byte` and a `string` are a `List Byte`. A nil
  slice and an empty slice are both the empty list (the code never stores an
  empty non-nil slice in a tree).
* The tree is single-owner and acyclic, so a `*node` is modelled by the node
  value together with the list of edge indices that leads to it from the root;
  a write through such a pointer is `replaceAt` on the root.
* `Insert` keeps the key, and slices of it, as node prefixes without copying
  them, so a prefix shares memory with the caller. `cnode`, `InsertC` and `Run`
  keep the prefixes as slices of memory cells (`Cell`) and let the caller write
  to its memory between calls. `Insert`, `Reachable` and the definitions around
  them work on the bytes as they stand: `Insert` is each single call
  (`Insert_view`), and `Reachable` holds the trees of a program that overwrites
  no byte that the tree holds (`safeRun_reachable`). What does not depend on
  the bytes of the prefixes (`Shaped`, `Compressed`) holds on every tree of
  `Run` (`run_shaped`).
* A run-time panic is an `Except.error`: `Fault.indexOutOfRange` for `s[i]`
  with `i` out of range, `Fault.sliceBounds` for `s[a:b]` out of range.
  `Fault.fuel` is the model running out of recursion fuel; it is shown never to
  happen.
-/

namespace holddb

/-- A Go `byte`. -/
abbrev Byte := Fin 256

/-- Run-time faults of the Go program, plus the exhaustion of the model's fuel. -/
inductive Fault where
  | indexOutOfRange
  | sliceBounds
  | fuel
  deriving DecidableEq, Repr

/-- The `leaf` struct: the full key and the caller's value. -/
structure leaf (V : Type) where
  key : List Byte
  value : V
  deriving DecidableEq, Repr

/-- The `edge` struct, over the type `N` of the node it points to. -/
structure edge (N : Type) where
  label : Byte
  node : N

/-- The `node` struct: compressed prefix, optional leaf, outgoing edges. -/
inductive node (V : Type) where
  | mk (pfx : List Byte) (leaf : Option (leaf V)) (edges : List (edge (node V)))

/-- An edge of a tree with values in `V`. -/
abbrev Edge (V : Type) := edge (node V)

variable {V : Type}

/-- Field `prefix` of a node. -/
def node.pfx : node V → List Byte
  | node.mk p _ _ => p

/-- Field `leaf` of a node. -/
def node.leaf : node V → Option (leaf V)
  | node.mk _ l _ => l

/-- Field `edges` of a node. -/
def node.edges : node V → List (Edge V)
  | node.mk _ _ es => es

/-- The `Tree` struct. -/
structure Tree (V : Type) where
  root : node V

/-- The loop of Go's `sort.Search`: binary search for the least index in
`[i, j)` at which `f` holds, `j` if there is none. The first argument bounds
the number of iterations. -/
def sortSearchLoop (f : Nat → Bool) : Nat → Nat → Nat → Nat
  | 0, i, _ => i
  | fuel + 1, i, j =>
    if i < j then
      let h := (i + j) / 2
      if !f h then sortSearchLoop f fuel (h + 1) j
      else sortSearchLoop f fuel i h
    else i

/-- Go's `sort.Search(n, f)`. The loop halves `j - i` each round, so `n` rounds
are enough. -/
def sortSearch (n : Nat) (f : Nat → Bool) : Nat :=
  sortSearchLoop f n 0 n

/-- `node.getEdge`: binary search among the edges for the label `prefix[0]`.
Returns the edge (or `none` for Go's `nil`) and the index found by the search.
The closure given to `sort.Search` is only called inside `[0, l)`. -/
def getEdge (n : node V) (pre : List Byte) : Except Fault (Option (Edge V) × Nat) :=
  match pre with
  | [] => .error .indexOutOfRange
  | p :: _ =>
    let l := n.edges.length
    let idx := sortSearch l (fun i =>
      match n.edges[i]? with
      | some e => decide (e.label ≥ p)
      | none => true)
    if idx ≥ l then .ok (none, idx)
    else
      match n.edges[idx]? with
      | none => .error .indexOutOfRange
      | some e => if e.label ≠ p then .ok (none, idx) else .ok (some e, idx)

/-- `node.addEdge`: splice the edge in at the index given by `getEdge`. -/
def addEdge (n : node V) (e : Edge V) : Except Fault (node V) :=
  match getEdge n [e.label] with
  | .error f => .error f
  | .ok (_, idx) =>
    if idx > n.edges.length then .error .sliceBounds
    else .ok (node.mk n.pfx n.leaf (n.edges.take idx ++ e :: n.edges.drop idx))

/-- `New`: a tree whose root has no prefix, no leaf and no edges. -/
def New : Tree V := ⟨node.mk [] none []⟩

/-- The loop of `commonPrefix`: `c` grows while the bytes agree. -/
def commonPrefixLoop : List Byte → List Byte → List Byte
  | [], _ => []
  | _ :: _, [] => []
  | x :: a, y :: b => if x ≠ y then [] else x :: commonPrefixLoop a b

/-- `commonPrefix(a, b)`. -/
def commonPrefix (a b : List Byte) : List Byte := commonPrefixLoop a b

/-- Go's `s[a:b]` on a slice whose capacity is its length. -/
def slice {α : Type} (s : List α) (a b : Nat) : Except Fault (List α) :=
  if a ≤ b ∧ b ≤ s.length then .ok ((s.take b).drop a) else .error .sliceBounds

/-- Go's `s[i]`. -/
def index {α : Type} (s : List α) (i : Nat) : Except Fault α :=
  match s[i]? with
  | some x => .ok x
  | none => .error .indexOutOfRange

mutual
/-- Number of nodes on the longest downward chain from a node. -/
def node.height : node V → Nat
  | node.mk _ _ es => edgesHeight es + 1
/-- Largest height among the children reached by a list of edges. -/
def edgesHeight : List (Edge V) → Nat
  | [] => 0
  | ⟨_, c⟩ :: es => max c.height (edgesHeight es)
end

/-- The loop of `Tree.longestPath`, from node `n` with `p` left of the key.
Returns the traversed nodes and, for each node after the first, the index of
the edge through which it was reached. -/
def longestPathLoop : Nat → node V → List Byte → Except Fault (List (node V) × List Nat)
  | 0, _, _ => .error .fuel
  | fuel + 1, n, p =>
    if p.length = 0 then .ok ([n], [])
    else
      match getEdge n p with
      | .error f => .error f
      | .ok (none, _) => .ok ([n], [])
      | .ok (some e, idx) =>
        match slice p e.node.pfx.length p.length with
        | .error f => .error f
        | .ok p' =>
          match longestPathLoop fuel e.node p' with
          | .error f => .error f
          | .ok (ns, is) => .ok (n :: ns, idx :: is)

/-- `Tree.longestPath`. Each round of the loop moves one level down, so the
height of the root bounds the number of rounds. -/
def longestPath (t : Tree V) (key : List Byte) : Except Fault (List (node V) × List Nat) :=
  longestPathLoop t.root.height t.root key

/-- The node reached from `n` through the edges with the given indices. -/
def nodeAt : node V → List Nat → Option (node V)
  | n, [] => some n
  | n, i :: is =>
    match n.edges[i]? with
    | some e => nodeAt e.node is
    | none => none

/-- The tree `n` after the node at the given path has been overwritten by `m`
(the edges on the way keep their labels). -/
def replaceAt : node V → List Nat → node V → node V
  | _, [], m => m
  | n, i :: is, m =>
    match n.edges[i]? with
    | some e => node.mk n.pfx n.leaf (n.edges.set i ⟨e.label, replaceAt e.node is m⟩)
    | none => n

/-- `Tree.Insert`. The pointer `nodes[l-1]` is the node at the path `idxs` and
`nodes[l-2]` the node at `idxs.dropLast`; the writes `farthest.leaf = newLeaf`,
`farthest.addEdge(..)` and `farthestParent.edges[idx] = ..` are `replaceAt` at
these paths, and the write in `nodes[0].addEdge(..)` is at the root. -/
def Insert (t : Tree V) (key : List Byte) (val : V) : Except Fault (Tree V) :=
  let newLeaf : leaf V := ⟨key, val⟩
  match longestPath t key with
  | .error f => .error f
  | .ok (nodes, idxs) =>
    let l := nodes.length
    if l = 1 then
      match key with
      | [] => .error .indexOutOfRange
      | k0 :: _ =>
        match index nodes 0 with
        | .error f => .error f
        | .ok n0 =>
          match addEdge n0 ⟨k0, node.mk key (some newLeaf) []⟩ with
          | .error f => .error f
          | .ok n0' => .ok ⟨replaceAt t.root [] n0'⟩
    else
      match index nodes (l - 1), index nodes (l - 2) with
      | .error f, _ => .error f
      | _, .error f => .error f
      | .ok farthest, .ok farthestParent =>
        let matched := ((nodes.take (l - 1)).map node.pfx).flatten
        match slice key matched.length key.length with
        | .error f => .error f
        | .ok remaining =>
          if remaining = farthest.pfx then
            .ok ⟨replaceAt t.root idxs (node.mk farthest.pfx (some newLeaf) farthest.edges)⟩
          else
            let cp := commonPrefix remaining farthest.pfx
            match slice remaining cp.length remaining.length,
                  slice farthest.pfx cp.length farthest.pfx.length with
            | .error f, _ => .error f
            | _, .error f => .error f
            | .ok leafPrefix, .ok oldPrefix =>
              if oldPrefix.length = 0 then
                match leafPrefix with
                | [] => .error .indexOutOfRange
                | b :: _ =>
                  match addEdge farthest ⟨b, node.mk leafPrefix (some newLeaf) []⟩ with
                  | .error f => .error f
                  | .ok farthest' => .ok ⟨replaceAt t.root idxs farthest'⟩
              else
                let splitNode : node V := node.mk cp none []
                match leafPrefix with
                | [] => .error .indexOutOfRange
                | b :: _ =>
                  match addEdge splitNode ⟨b, node.mk leafPrefix (some newLeaf) []⟩ with
                  | .error f => .error f
                  | .ok splitNode1 =>
                    match oldPrefix with
                    | [] => .error .indexOutOfRange
                    | o :: _ =>
                      match addEdge splitNode1
                          ⟨o, node.mk oldPrefix farthest.leaf farthest.edges⟩ with
                      | .error f => .error f
                      | .ok splitNode2 =>
                        match getEdge farthestParent cp with
                        | .error f => .error f
                        | .ok (_, idx) =>
                          match cp with
                          | [] => .error .indexOutOfRange
                          | c0 :: _ =>
                            if idx < farthestParent.edges.length then
                              .ok ⟨replaceAt t.root idxs.dropLast
                                (node.mk farthestParent.pfx farthestParent.leaf
                                  (farthestParent.edges.set idx ⟨c0, splitNode2⟩))⟩
                            else .error .indexOutOfRange

/-- What a call that works on the tree in place leaves behind: the tree as it
stands when the call returns or panics, and the fault if it panicked. -/
structure Outcome (V : Type) where
  tree : Tree V
  fault : Option Fault

/-- `Tree.Insert` with the tree it leaves behind. The statements of `Insert`
before its first write only read the tree (`longestPath`, `commonPrefix`, the
slice and index expressions, `getEdge`) or build fresh nodes (`splitNode` and
its two edges), so a fault there leaves `t`; nothing can fault after the writes
`farthest.leaf = newLeaf` and `farthestParent.edges[idx] = ..`. In `addEdge`
the only fault site after `append` is a slice expression that needs an index
beyond the length, which `sort.Search` does not return: `addEdge` never faults
(`addEdge_ne_error`), so the tree given in its fault branches is immaterial. -/
def InsertInPlace (t : Tree V) (key : List Byte) (val : V) : Outcome V :=
  let newLeaf : leaf V := ⟨key, val⟩
  match longestPath t key with
  | .error f => ⟨t, some f⟩
  | .ok (nodes, idxs) =>
    let l := nodes.length
    if l = 1 then
      match key with
      | [] => ⟨t, some .indexOutOfRange⟩
      | k0 :: _ =>
        match index nodes 0 with
        | .error f => ⟨t, some f⟩
        | .ok n0 =>
          match addEdge n0 ⟨k0, node.mk key (some newLeaf) []⟩ with
          | .error f => ⟨t, some f⟩
          | .ok n0' => ⟨⟨replaceAt t.root [] n0'⟩, none⟩
    else
      match index nodes (l - 1), index nodes (l - 2) with
      | .error f, _ => ⟨t, some f⟩
      | _, .error f => ⟨t, some f⟩
      | .ok farthest, .ok farthestParent =>
        let matched := ((nodes.take (l - 1)).map node.pfx).flatten
        match slice key matched.length key.length with
        | .error f => ⟨t, some f⟩
        | .ok remaining =>
          if remaining = farthest.pfx then
            ⟨⟨replaceAt t.root idxs (node.mk farthest.pfx (some newLeaf) farthest.edges)⟩,
              none⟩
          else
            let cp := commonPrefix remaining farthest.pfx
            match slice remaining cp.length remaining.length,
                  slice farthest.pfx cp.length farthest.pfx.length with
            | .error f, _ => ⟨t, some f⟩
            | _, .error f => ⟨t, some f⟩
            | .ok leafPrefix, .ok oldPrefix =>
              if oldPrefix.length = 0 then
                match leafPrefix with
                | [] => ⟨t, some .indexOutOfRange⟩
                | b :: _ =>
                  match addEdge farthest ⟨b, node.mk leafPrefix (some newLeaf) []⟩ with
                  | .error f => ⟨t, some f⟩
                  | .ok farthest' => ⟨⟨replaceAt t.root idxs farthest'⟩, none⟩
              else
                let splitNode : node V := node.mk cp none []
                match leafPrefix with
                | [] => ⟨t, some .indexOutOfRange⟩
                | b :: _ =>
                  match addEdge splitNode ⟨b, node.mk leafPrefix (some newLeaf) []⟩ with
                  | .error f => ⟨t, some f⟩
                  | .ok splitNode1 =>
                    match oldPrefix with
                    | [] => ⟨t, some .indexOutOfRange⟩
                    | o :: _ =>
                      match addEdge splitNode1
                          ⟨o, node.mk oldPrefix farthest.leaf farthest.edges⟩ with
                      | .error f => ⟨t, some f⟩
                      | .ok splitNode2 =>
                        match getEdge farthestParent cp with
                        | .error f => ⟨t, some f⟩
                        | .ok (_, idx) =>
                          match cp with
                          | [] => ⟨t, some .indexOutOfRange⟩
                          | c0 :: _ =>
                            if idx < farthestParent.edges.length then
                              ⟨⟨replaceAt t.root idxs.dropLast
                                (node.mk farthestParent.pfx farthestParent.leaf
                                  (farthestParent.edges.set idx ⟨c0, splitNode2⟩))⟩, none⟩
                            else ⟨t, some .indexOutOfRange⟩

/-- `Insert` applied to a list of key-value pairs in turn, stopping at the
first fault. -/
def insertAll (t : Tree V) : List (List Byte × V) → Except Fault (Tree V)
  | [] => .ok t
  | kv :: rest =>
    match Insert t kv.1 kv.2 with
    | .error f => .error f
    | .ok t' => insertAll t' rest

/-- The trees obtained from `New` by a finite sequence of completed `Insert`
calls. -/
inductive Reachable : Tree V → Prop
  | new : Reachable New
  | insert {t t' : Tree V} (key : List Byte) (val : V) :
      Reachable t → Insert t key val = .ok t' → Reachable t'

/-- The concatenation of the prefixes of the nodes on a path, from the first
node to the node the path ends at (both included). -/
def pathPrefix : node V → List Nat → Option (List Byte)
  | n, [] => some n.pfx
  | n, i :: is =>
    match n.edges[i]? with
    | some e => (pathPrefix e.node is).map (fun s => n.pfx ++ s)
    | none => none

mutual
/-- The leaves stored in a subtree, in depth-first order. -/
def node.leaves : node V → List (leaf V)
  | node.mk _ l es => l.toList ++ edgesLeaves es
/-- The leaves stored below a list of edges. -/
def edgesLeaves : List (Edge V) → List (leaf V)
  | [] => []
  | ⟨_, c⟩ :: es => c.leaves ++ edgesLeaves es
end

/-- The edge list is strictly ascending by label. -/
def SortedEdges (es : List (Edge V)) : Prop :=
  es.Pairwise (fun a b => a.label < b.label)

/-- The closure handed to `sort.Search` by `getEdge`. -/
def geLabel (es : List (Edge V)) (p : Byte) (i : Nat) : Bool :=
  match es[i]? with
  | some e => decide (e.label ≥ p)
  | none => true

/-- The edge invariants at one node: edges strictly ascending by label, and each
label is the first byte of the (hence non-empty) prefix of the child. -/
def GoodNode (n : node V) : Prop :=
  SortedEdges n.edges ∧ ∀ e ∈ n.edges, e.node.pfx.head? = some e.label

/-- The edge invariants at every node of a subtree. -/
def Inv (n : node V) : Prop :=
  ∀ (path : List Nat) (m : node V), nodeAt n path = some m → GoodNode m

/-- The part of the edge invariants that does not depend on the bytes of the
prefixes, at one node: edges strictly ascending by label, and every child has a
non-empty prefix. -/
def ShapedNode (n : node V) : Prop :=
  SortedEdges n.edges ∧ ∀ e ∈ n.edges, e.node.pfx ≠ []

/-- `ShapedNode` at every node of a subtree. -/
def Shaped (n : node V) : Prop :=
  ∀ (path : List Nat) (m : node V), nodeAt n path = some m → ShapedNode m

/-- The traversal loop stops at node `m` with `q` left of the key. -/
def Stop (m : node V) (q : List Byte) : Prop :=
  q = [] ∨ ∃ j, getEdge m q = .ok (none, j)

/-- `Hops n p ns is m q`: the traversal loop started at `n` with `p` left of the
key moves, through the edges with indices `is` and over the nodes `ns`, to the
node `m` with `q` left of the key. -/
inductive Hops : node V → List Byte → List (node V) → List Nat → node V → List Byte → Prop
  | nil (n : node V) (p : List Byte) : Hops n p [] [] n p
  | cons {n : node V} {p : List Byte} {e : Edge V} {i : Nat} {ns : List (node V)}
      {is : List Nat} {m : node V} {q : List Byte} :
      getEdge n p = .ok (some e, i) → e.node.pfx.length ≤ p.length →
      Hops e.node (p.drop e.node.pfx.length) ns is m q →
      Hops n p (n :: ns) (i :: is) m q

/-- The edge `Insert` makes for a key attached directly to the root: labelled
with the first byte of the key, leading to a node with the whole key as prefix,
the leaf for the key and no edges. -/
def leafEdge (kv : List Byte × V) : Edge V :=
  ⟨kv.1.headD 0, node.mk kv.1 (some ⟨kv.1, kv.2⟩) []⟩

/-- The bytes of "foobar". -/
def foobar : List Byte := [102, 111, 111, 98, 97, 114]

/-- The bytes of "foobaz". -/
def foobaz : List Byte := [102, 111, 111, 98, 97, 122]

/-- The bytes of "foobaar". -/
def foobaar : List Byte := [102, 111, 111, 98, 97, 97, 114]

/-- The bytes of "fooba". -/
def fooba : List Byte := [102, 111, 111, 98, 97]

/-- The bytes of "casbar". -/
def casbar : List Byte := [99, 97, 115, 98, 97, 114]

/-- The bytes of "honk". -/
def honk : List Byte := [104, 111, 110, 107]

/-- The bytes of "foo". -/
def foo : List Byte := [102, 111, 111]

/-- The bytes of "fooz". -/
def fooz : List Byte := [102, 111, 111, 122]

/-- The bytes of "ab". -/
def keyAB : List Byte := [97, 98]

/-- The bytes of "abc". -/
def keyABC : List Byte := [97, 98, 99]

/-- The bytes of "axc". -/
def keyAXC : List Byte := [97, 120, 99]

/-- The tree expected by `TestInsert_AddsEdgeToRoot`. -/
def wantedAddsEdgeToRoot : Tree String :=
  ⟨node.mk [] none [⟨102, node.mk foobar (some ⟨foobar, "myval"⟩) []⟩]⟩

/-- The tree expected by `TestInsert_UpdatesLeaf`. -/
def wantedUpdatesLeaf : Tree String :=
  ⟨node.mk [] none [⟨102, node.mk foobar (some ⟨foobar, "myval2"⟩) []⟩]⟩

/-- The tree expected by `TestInsert_AddsSortedEdges`. -/
def wantedAddsSortedEdges : Tree String :=
  ⟨node.mk [] none
    [⟨99, node.mk casbar (some ⟨casbar, "myval2"⟩) []⟩,
     ⟨102, node.mk foobar (some ⟨foobar, "myval"⟩) []⟩,
     ⟨104, node.mk honk (some ⟨honk, "myval3"⟩) []⟩]⟩

/-- The tree expected by `TestInsert_SplitsNode`. -/
def wantedSplitsNode : Tree String :=
  ⟨node.mk [] none
    [⟨102, node.mk fooba none
      [⟨114, node.mk [114] (some ⟨foobar, "myval"⟩) []⟩,
       ⟨122, node.mk [122] (some ⟨foobaz, "myval2"⟩) []⟩]⟩]⟩

/-- The tree expected by `TestInsert_SplitsNodeMore`. -/
def wantedSplitsNodeMore : Tree String :=
  ⟨node.mk [] none
    [⟨102, node.mk fooba none
      [⟨97, node.mk [97, 114] (some ⟨foobaar, "myval3"⟩) []⟩,
       ⟨114, node.mk [114] (some ⟨foobar, "myval"⟩) []⟩,
       ⟨122, node.mk [122] (some ⟨foobaz, "myval2"⟩) []⟩]⟩]⟩

/-- The tree after "ab" and "abc" have been inserted with values "v1", "v2". -/
def treeAbAbc : Tree String :=
  ⟨node.mk [] none
    [⟨97, node.mk keyAB (some ⟨keyAB, "v1"⟩)
      [⟨99, node.mk [99] (some ⟨keyABC, "v2"⟩) []⟩]⟩]⟩

/-- The tree `treeAbAbc` after `Insert("axc", "v3")`. -/
def treeAbAxc : Tree String :=
  ⟨node.mk [] none
    [⟨97, node.mk keyAB (some ⟨keyAB, "v1"⟩)
      [⟨99, node.mk [99] (some ⟨keyAXC, "v3"⟩) []⟩]⟩]⟩

/-- The tree of `TestInsert_AddsSortedEdges` after `Insert("foobaz", "myval4")`. -/
def sortedEdgesThenSplit : Tree String :=
  ⟨node.mk [] none
    [⟨99, node.mk casbar (some ⟨casbar, "myval2"⟩) []⟩,
     ⟨102, node.mk fooba none
      [⟨114, node.mk [114] (some ⟨foobar, "myval"⟩) []⟩,
       ⟨122, node.mk [122] (some ⟨foobaz, "myval4"⟩) []⟩]⟩,
     ⟨104, node.mk honk (some ⟨honk, "myval3"⟩) []⟩]⟩

/-- `Chain key n off nodes`: `nodes` is a chain of nodes that starts at `n`,
where `off` is the sum of the prefix lengths of the nodes visited so far; each
next node is the child of an edge of the current node whose label is the key
byte at the current offset, and the chain ends at a node where the offset has
reached the length of the key or no edge carries the key byte at the offset. -/
inductive Chain (key : List Byte) : node V → Nat → List (node V) → Prop
  | last (m : node V) (off : Nat) :
      (off = key.length ∨ (off < key.length ∧ ∀ e ∈ m.edges, some e.label ≠ key[off]?)) →
      Chain key m off [m]
  | step (n : node V) (off : Nat) (e : Edge V) (rest : List (node V)) :
      e ∈ n.edges → key[off]? = some e.label →
      Chain key e.node (off + e.node.pfx.length) rest →
      Chain key n off (n :: rest)

/-- A node without a leaf has at least two outgoing edges. -/
def Packed (m : node V) : Prop := m.leaf = none → 2 ≤ m.edges.length

/-- Every node strictly below `n` is `Packed`. -/
def Compressed (n : node V) : Prop :=
  ∀ (path : List Nat) (m : node V), path ≠ [] → nodeAt n path = some m → Packed m

/-- The traversal of `key` reaches a node `m`, with `q` left of the key, that
has an edge labelled with the next byte `q[0]` whose child has a prefix longer
than `q`. -/
def Overrun (t : Tree V) (key : List Byte) : Prop :=
  ∃ (ns : List (node V)) (is : List Nat) (m : node V) (q : List Byte) (e : Edge V),
    Hops t.root key ns is m q ∧ e ∈ m.edges ∧ q.head? = some e.label ∧
      q.length < e.node.pfx.length

/-- The traversal of `key` ends at the child of an edge `e` of a node `m`, taken
with `q` left of the key because its label is the next byte `q[0]`, and the
prefix of that child begins with a byte other than the label of the edge. -/
def Clash (t : Tree V) (key : List Byte) : Prop :=
  ∃ (ns : List (node V)) (is : List Nat) (m : node V) (q : List Byte) (e : Edge V),
    Hops t.root key ns is m q ∧ e ∈ m.edges ∧ q.head? = some e.label ∧
      e.node.pfx.length ≤ q.length ∧ Stop e.node (q.drop e.node.pfx.length) ∧
      ∃ o, e.node.pfx.head? = some o ∧ o ≠ e.label

/-! ### Slices that share memory with the caller -/

/-- One byte of a slice held by the tree. `Insert` stores the key, and slices of
it and of older prefixes, without copying them (`prefix: key`,
`prefix: leafPrefix`, `prefix: oldPrefix`), so such a byte is a cell of memory
that the caller can still write: `caller addr`. The result of `commonPrefix` is
a buffer that `commonPrefix` allocates and only the tree ever refers to; its
bytes are `owned b`. -/
inductive Cell where
  | caller (addr : Nat)
  | owned (b : Byte)
  deriving DecidableEq, Repr

/-- The memory of the caller: the byte stored at each address. -/
abbrev Mem := Nat → Byte

/-- The byte a cell holds in a given state of the caller's memory. -/
def Cell.read (mem : Mem) : Cell → Byte
  | .caller a => mem a
  | .owned b => b

/-- The caller stores the byte `b` at the address `a`. -/
def Mem.write (mem : Mem) (a : Nat) (b : Byte) : Mem :=
  fun x => if x = a then b else mem x

/-- The slice of `len` bytes of caller memory that starts at the address `base`. -/
def keyCells (base len : Nat) : List Cell :=
  (List.range' base len).map Cell.caller

/-- The `node` struct with its prefix as a slice of memory cells. -/
inductive cnode (V : Type) where
  | mk (pfx : List Cell) (leaf : Option (leaf V)) (edges : List (edge (cnode V)))

/-- An edge of a tree whose prefixes are slices of memory cells. -/
abbrev CEdge (V : Type) := edge (cnode V)

/-- Field `prefix` of a node. -/
def cnode.pfx : cnode V → List Cell
  | cnode.mk p _ _ => p

/-- Field `leaf` of a node. -/
def cnode.leaf : cnode V → Option (leaf V)
  | cnode.mk _ l _ => l

/-- Field `edges` of a node. -/
def cnode.edges : cnode V → List (CEdge V)
  | cnode.mk _ _ es => es

/-- The `Tree` struct, with prefixes as slices of memory cells. -/
structure CTree (V : Type) where
  root : cnode V

mutual
/-- The bytes of a subtree in a given state of the caller's memory. -/
def cnode.view (mem : Mem) : cnode V → node V
  | cnode.mk p l es => node.mk (p.map (Cell.read mem)) l (viewEdges mem es)
/-- The bytes of the subtrees below a list of edges. -/
def viewEdges (mem : Mem) : List (CEdge V) → List (Edge V)
  | [] => []
  | ⟨b, c⟩ :: es => ⟨b, c.view mem⟩ :: viewEdges mem es
end

/-- The bytes of a tree in a given state of the caller's memory. -/
def CTree.view (mem : Mem) (t : CTree V) : Tree V := ⟨t.root.view mem⟩

/-- The bytes of the subtree below an edge. -/
def viewEdge (mem : Mem) (e : CEdge V) : Edge V := ⟨e.label, e.node.view mem⟩

/-- `node.getEdge` on a node with cell prefixes; `prefix[0]` is read from memory. -/
def cgetEdge (mem : Mem) (n : cnode V) (pre : List Cell) :
    Except Fault (Option (CEdge V) × Nat) :=
  match pre with
  | [] => .error .indexOutOfRange
  | c :: _ =>
    let p := c.read mem
    let l := n.edges.length
    let idx := sortSearch l (fun i =>
      match n.edges[i]? with
      | some e => decide (e.label ≥ p)
      | none => true)
    if idx ≥ l then .ok (none, idx)
    else
      match n.edges[idx]? with
      | none => .error .indexOutOfRange
      | some e => if e.label ≠ p then .ok (none, idx) else .ok (some e, idx)

/-- `node.addEdge` on a node with cell prefixes; the argument of `getEdge` is the
fresh one-byte slice `[]byte{e.label}`. -/
def caddEdge (mem : Mem) (n : cnode V) (e : CEdge V) : Except Fault (cnode V) :=
  match cgetEdge mem n [Cell.owned e.label] with
  | .error f => .error f
  | .ok (_, idx) =>
    if idx > n.edges.length then .error .sliceBounds
    else .ok (cnode.mk n.pfx n.leaf (n.edges.take idx ++ e :: n.edges.drop idx))

/-- `New` for a tree with cell prefixes. -/
def CNew : CTree V := ⟨cnode.mk [] none []⟩

/-- The loop of `Tree.longestPath` on a tree with cell prefixes. -/
def clongestPathLoop (mem : Mem) :
    Nat → cnode V → List Cell → Except Fault (List (cnode V) × List Nat)
  | 0, _, _ => .error .fuel
  | fuel + 1, n, p =>
    if p.length = 0 then .ok ([n], [])
    else
      match cgetEdge mem n p with
      | .error f => .error f
      | .ok (none, _) => .ok ([n], [])
      | .ok (some e, idx) =>
        match slice p e.node.pfx.length p.length with
        | .error f => .error f
        | .ok p' =>
          match clongestPathLoop mem fuel e.node p' with
          | .error f => .error f
          | .ok (ns, is) => .ok (n :: ns, idx :: is)

/-- `Tree.longestPath` on a tree with cell prefixes; the bound on the rounds is
the height of the tree, which does not depend on the bytes. -/
def clongestPath (mem : Mem) (t : CTree V) (key : List Cell) :
    Except Fault (List (cnode V) × List Nat) :=
  clongestPathLoop mem (t.root.view mem).height t.root key

/-- The node reached through the edges with the given indices. -/
def cnodeAt : cnode V → List Nat → Option (cnode V)
  | n, [] => some n
  | n, i :: is =>
    match n.edges[i]? with
    | some e => cnodeAt e.node is
    | none => none

/-- The tree after the node at the given path has been overwritten. -/
def creplaceAt : cnode V → List Nat → cnode V → cnode V
  | _, [], m => m
  | n, i :: is, m =>
    match n.edges[i]? with
    | some e => cnode.mk n.pfx n.leaf (n.edges.set i ⟨e.label, creplaceAt e.node is m⟩)
    | none => n

/-- `Tree.Insert` with the slices it retains. The key is a slice of caller
memory; the leaf gets a copy of its bytes (`string(key)`); the prefixes of the
new nodes are the slices `key`, `leafPrefix` and `oldPrefix` themselves, and
`cp` is the buffer built by `commonPrefix`. Bytes are compared as they stand in
memory at the time of the call. -/
def InsertC (mem : Mem) (t : CTree V) (key : List Cell) (val : V) : Except Fault (CTree V) :=
  let newLeaf : leaf V := ⟨key.map (Cell.read mem), val⟩
  match clongestPath mem t key with
  | .error f => .error f
  | .ok (nodes, idxs) =>
    let l := nodes.length
    if l = 1 then
      match key with
      | [] => .error .indexOutOfRange
      | k0 :: _ =>
        match index nodes 0 with
        | .error f => .error f
        | .ok n0 =>
          match caddEdge mem n0 ⟨k0.read mem, cnode.mk key (some newLeaf) []⟩ with
          | .error f => .error f
          | .ok n0' => .ok ⟨creplaceAt t.root [] n0'⟩
    else
      match index nodes (l - 1), index nodes (l - 2) with
      | .error f, _ => .error f
      | _, .error f => .error f
      | .ok farthest, .ok farthestParent =>
        let matched := ((nodes.take (l - 1)).map cnode.pfx).flatten
        match slice key matched.length key.length with
        | .error f => .error f
        | .ok remaining =>
          if remaining.map (Cell.read mem) = farthest.pfx.map (Cell.read mem) then
            .ok ⟨creplaceAt t.root idxs (cnode.mk farthest.pfx (some newLeaf) farthest.edges)⟩
          else
            let cp := (commonPrefix (remaining.map (Cell.read mem))
              (farthest.pfx.map (Cell.read mem))).map Cell.owned
            match slice remaining cp.length remaining.length,
                  slice farthest.pfx cp.length farthest.pfx.length with
            | .error f, _ => .error f
            | _, .error f => .error f
            | .ok leafPrefix, .ok oldPrefix =>
              if oldPrefix.length = 0 then
                match leafPrefix with
                | [] => .error .indexOutOfRange
                | b :: _ =>
                  match caddEdge mem farthest
                      ⟨b.read mem, cnode.mk leafPrefix (some newLeaf) []⟩ with
                  | .error f => .error f
                  | .ok farthest' => .ok ⟨creplaceAt t.root idxs farthest'⟩
              else
                let splitNode : cnode V := cnode.mk cp none []
                match leafPrefix with
                | [] => .error .indexOutOfRange
                | b :: _ =>
                  match caddEdge mem splitNode
                      ⟨b.read mem, cnode.mk leafPrefix (some newLeaf) []⟩ with
                  | .error f => .error f
                  | .ok splitNode1 =>
                    match oldPrefix with
                    | [] => .error .indexOutOfRange
                    | o :: _ =>
                      match caddEdge mem splitNode1
                          ⟨o.read mem, cnode.mk oldPrefix farthest.leaf farthest.edges⟩ with
                      | .error f => .error f
                      | .ok splitNode2 =>
                        match cgetEdge mem farthestParent cp with
                        | .error f => .error f
                        | .ok (_, idx) =>
                          match cp with
                          | [] => .error .indexOutOfRange
                          | c0 :: _ =>
                            if idx < farthestParent.edges.length then
                              .ok ⟨creplaceAt t.root idxs.dropLast
                                (cnode.mk farthestParent.pfx farthestParent.leaf
                                  (farthestParent.edges.set idx ⟨c0.read mem, splitNode2⟩))⟩
                            else .error .indexOutOfRange

/-- The states of a program that uses the tree: the memory of the caller and the
tree. The program starts with `New()`; it calls `Insert` with a slice of its
memory as the key, and the call completes; or it stores a byte in its memory. -/
inductive Run : Mem → CTree V → Prop
  | new (mem : Mem) : Run mem CNew
  | insert {mem : Mem} {t t' : CTree V} (base len : Nat) (val : V) :
      Run mem t → InsertC mem t (keyCells base len) val = .ok t' → Run mem t'
  | write {mem : Mem} {t : CTree V} (a : Nat) (b : Byte) :
      Run mem t → Run (mem.write a b) t

/-- Caller memory that holds "foo" at the addresses 0 to 2 and "fxy" at 3 to 5. -/
def memFoo : Mem := fun a => ([102, 111, 111, 102, 120, 121] : List Byte).getD a 0

/-- The memory `memFoo` after the caller has copied "bar" over "foo". -/
def memBar : Mem := ((memFoo.write 0 98).write 1 97).write 2 114

/-- The tree after `Insert(buf, "v1")` for the buffer at the addresses 0 to 2. -/
def cellTree1 : CTree String :=
  ⟨cnode.mk [] none
    [⟨102, cnode.mk (keyCells 0 3) (some ⟨foo, "v1"⟩) []⟩]⟩

/-- The tree after a second `Insert(buf, "v2")` for the same buffer. -/
def cellTree2 : CTree String :=
  ⟨cnode.mk [] none
    [⟨98, cnode.mk (keyCells 0 3) (some ⟨[98, 97, 114], "v2"⟩) []⟩,
     ⟨102, cnode.mk (keyCells 0 3) (some ⟨foo, "v1"⟩) []⟩]⟩

/-- The tree holds the byte of caller memory at the address `a`: some node has
it in its prefix. -/
def Holds (t : CTree V) (a : Nat) : Prop :=
  ∃ (path : List Nat) (n : cnode V), cnodeAt t.root path = some n ∧ Cell.caller a ∈ n.pfx

/-- The runs of a program that never overwrites a byte that the tree holds. -/
inductive SafeRun : Mem → CTree V → Prop
  | new (mem : Mem) : SafeRun mem CNew
  | insert {mem : Mem} {t t' : CTree V} (base len : Nat) (val : V) :
      SafeRun mem t → InsertC mem t (keyCells base len) val = .ok t' → SafeRun mem t'
  | write {mem : Mem} {t : CTree V} (a : Nat) (b : Byte) :
      SafeRun mem t → ¬ Holds t a → SafeRun (mem.write a b) t

/-- The bytes of "bar". -/
def keyBar : List Byte := [98, 97, 114]

/-- The bytes of "fxy". -/
def keyFXY : List Byte := [102, 120, 121]

/-- The bytes of `cellTree2` once the buffer reads "bar": both nodes have the
prefix "bar", under the edges labelled 'b' and 'f'. -/
def treeFooBar : Tree String :=
  ⟨node.mk [] none
    [⟨98, node.mk keyBar (some ⟨keyBar, "v2"⟩) []⟩,
     ⟨102, node.mk keyBar (some ⟨foo, "v1"⟩) []⟩]⟩

/-- Caller memory that holds "foobar" at the addresses 0 to 5 and again at the
addresses 6 to 11. -/
def memTwoFoobar : Mem :=
  fun a => ([102, 111, 111, 98, 97, 114, 102, 111, 111, 98, 97, 114] : List Byte).getD a 0

/-- The tree after `Insert` of the six bytes at the addresses 0 to 5. -/
def cellTreeFoobar : CTree String :=
  ⟨cnode.mk [] none [⟨102, cnode.mk (keyCells 0 6) (some ⟨foobar, "myval"⟩) []⟩]⟩

/-- The tree after `Insert` of the three bytes at the addresses 0 to 2. -/
def cellTreeFoo : CTree String :=
  ⟨cnode.mk [] none [⟨102, cnode.mk (keyCells 0 3) (some ⟨foo, "myval"⟩) []⟩]⟩

/-- `Insert` applied in turn to slices of caller memory (start address, length)
with their values, in a memory that stays as it is meanwhile. -/
def insertAllC (mem : Mem) (t : CTree V) : List (Nat × Nat × V) → Except Fault (CTree V)
  | [] => .ok t
  | s :: rest =>
    match InsertC mem t (keyCells s.1 s.2.1) s.2.2 with
    | .error f => .error f
    | .ok t' => insertAllC mem t' rest

/-- The bytes that a slice of caller memory holds, with the value to insert. -/
def sliceBytes (mem : Mem) (s : Nat × Nat × V) : List Byte × V :=
  ((keyCells s.1 s.2.1).map (Cell.read mem), s.2.2)

/-- Caller memory that holds "foobar" at the addresses 0 to 5 and "foobaz" at
the addresses 6 to 11. -/
def memFoobarFoobaz : Mem :=
  fun a => ([102, 111, 111, 98, 97, 114, 102, 111, 111, 98, 97, 122] : List Byte).getD a 0

/-- The tree after `Insert` of the bytes at the addresses 0 to 5 and then of the
bytes at the addresses 6 to 11 of `memFoobarFoobaz`: the split node holds the
buffer that `commonPrefix` allocated, its children hold the last byte of each
key buffer. -/
def cellTreeSplit : CTree String :=
  ⟨cnode.mk [] none
    [⟨102, cnode.mk (fooba.map Cell.owned) none
      [⟨114, cnode.mk [Cell.caller 5] (some ⟨foobar, "myval"⟩) []⟩,
       ⟨122, cnode.mk [Cell.caller 11] (some ⟨foobaz, "myval2"⟩) []⟩]⟩]⟩

/-- Caller memory that holds "foobar" at the addresses 0 to 5, "casbar" at the
addresses 6 to 11 and "honk" at the addresses 12 to 15. -/
def memThreeKeys : Mem :=
  fun a => ([102, 111, 111, 98, 97, 114, 99, 97, 115, 98, 97, 114, 104, 111, 110, 107] :
    List Byte).getD a 0

/-- The three keys of `TestInsert_AddsSortedEdges` as slices of `memThreeKeys`,
with their values. -/
def threeSlices : List (Nat × Nat × String) :=
  [(0, 6, "myval"), (6, 6, "myval2"), (12, 4, "myval3")]

/-! ## Theorems -/

theorem sortSearchLoop_spec (f : Nat → Bool) (n : Nat)
    (hmono : ∀ a b, a ≤ b → b < n → f a = true → f b = true) :
    ∀ fuel i j, i ≤ j → j ≤ n → j - i ≤ fuel →
      (∀ k, k < i → f k = false) → (∀ k, j ≤ k → k < n → f k = true) →
      i ≤ sortSearchLoop f fuel i j ∧ sortSearchLoop f fuel i j ≤ j ∧
      (∀ k, k < sortSearchLoop f fuel i j → f k = false) ∧
      (∀ k, sortSearchLoop f fuel i j ≤ k → k < n → f k = true) := by
  intro fuel
  induction fuel with
  | zero =>
    intro i j hij hjn hfuel hlo hhi
    have : i = j := by omega
    subst this
    simp only [sortSearchLoop]
    exact ⟨le_refl _, le_refl _, hlo, hhi⟩
  | succ fuel ih =>
    intro i j hij hjn hfuel hlo hhi
    simp only [sortSearchLoop]
    by_cases hlt : i < j
    · simp only [hlt, if_true]
      have hh1 : i ≤ (i + j) / 2 := by omega
      have hh2 : (i + j) / 2 < j := by omega
      cases hf : f ((i + j) / 2) with
      | false =>
        simp only [Bool.not_false, if_true]
        have hlo' : ∀ k, k < (i + j) / 2 + 1 → f k = false := by
          intro k hk
          cases hfk : f k with
          | false => rfl
          | true =>
            have := hmono k ((i + j) / 2) (by omega) (by omega) hfk
            rw [hf] at this
            exact absurd this (by simp)
        obtain ⟨h1, h2, h3, h4⟩ := ih ((i + j) / 2 + 1) j (by omega) hjn (by omega) hlo' hhi
        exact ⟨by omega, h2, h3, h4⟩
      | true =>
        simp only [Bool.not_true, Bool.false_eq_true, if_false]
        have hhi' : ∀ k, (i + j) / 2 ≤ k → k < n → f k = true := by
          intro k hk hkn
          exact hmono _ k hk hkn hf
        obtain ⟨h1, h2, h3, h4⟩ := ih i ((i + j) / 2) hh1 (by omega) (by omega) hlo hhi'
        exact ⟨h1, by omega, h3, h4⟩
    · have : i = j := by omega
      subst this
      simp only [lt_irrefl, if_false]
      exact ⟨le_refl _, le_refl _, hlo, hhi⟩

theorem sortSearch_spec (f : Nat → Bool) (n : Nat)
    (hmono : ∀ a b, a ≤ b → b < n → f a = true → f b = true) :
    sortSearch n f ≤ n ∧ (∀ k, k < sortSearch n f → f k = false) ∧
      (∀ k, sortSearch n f ≤ k → k < n → f k = true) := by
  obtain ⟨_, h2, h3, h4⟩ := sortSearchLoop_spec f n hmono n 0 n (Nat.zero_le _) (le_refl _)
    (by omega) (by intro k hk; omega) (by intro k hk hkn; omega)
  exact ⟨h2, h3, h4⟩

theorem sortSearchLoop_le (f : Nat → Bool) :
    ∀ fuel i j, i ≤ j → i ≤ sortSearchLoop f fuel i j ∧ sortSearchLoop f fuel i j ≤ j := by
  intro fuel
  induction fuel with
  | zero => intro i j hij; simp only [sortSearchLoop]; exact ⟨le_refl _, hij⟩
  | succ fuel ih =>
    intro i j hij
    simp only [sortSearchLoop]
    by_cases hlt : i < j
    · simp only [hlt, if_true]
      split
      · have := ih ((i + j) / 2 + 1) j (by omega)
        omega
      · have := ih i ((i + j) / 2) (by omega)
        omega
    · simp only [hlt, if_false]
      exact ⟨le_refl _, hij⟩

/-- The search loop does not depend on its iteration bound once the bound
covers the interval: the bound `n` of `sortSearch` is never exhausted. -/
theorem sortSearchLoop_fuel (f : Nat → Bool) :
    ∀ fuel fuel' i j, j - i ≤ fuel → j - i ≤ fuel' →
      sortSearchLoop f fuel i j = sortSearchLoop f fuel' i j := by
  intro fuel
  induction fuel with
  | zero =>
    intro fuel' i j h _
    cases fuel' with
    | zero => rfl
    | succ k =>
      have hij : ¬ i < j := by omega
      simp only [sortSearchLoop, hij, if_false]
  | succ fuel ih =>
    intro fuel' i j h h'
    cases fuel' with
    | zero =>
      have hij : ¬ i < j := by omega
      simp only [sortSearchLoop, hij, if_false]
    | succ k =>
      simp only [sortSearchLoop]
      by_cases hlt : i < j
      · simp only [hlt, if_true]
        split
        · exact ih k _ _ (by omega) (by omega)
        · exact ih k _ _ (by omega) (by omega)
      · simp only [hlt, if_false]

theorem sortSearch_le (n : Nat) (f : Nat → Bool) : sortSearch n f ≤ n :=
  (sortSearchLoop_le f n 0 n (Nat.zero_le _)).2

theorem geLabel_mono (es : List (Edge V)) (hs : SortedEdges es) (p : Byte) :
    ∀ a b, a ≤ b → b < es.length → geLabel es p a = true → geLabel es p b = true := by
  intro a b hab hb ha
  have ha' : a < es.length := by omega
  simp only [geLabel, List.getElem?_eq_getElem ha', List.getElem?_eq_getElem hb,
    decide_eq_true_eq] at ha ⊢
  rcases Nat.eq_or_lt_of_le hab with h | h
  · subst h; exact ha
  · have := (List.pairwise_iff_getElem.mp hs) a b ha' hb h
    exact le_trans ha (le_of_lt this)

theorem getEdge_eq (n : node V) (p : Byte) (q : List Byte) :
    getEdge n (p :: q) =
      (if sortSearch n.edges.length (geLabel n.edges p) ≥ n.edges.length then
        .ok (none, sortSearch n.edges.length (geLabel n.edges p))
      else
        match n.edges[sortSearch n.edges.length (geLabel n.edges p)]? with
        | none => .error .indexOutOfRange
        | some e =>
          if e.label ≠ p then .ok (none, sortSearch n.edges.length (geLabel n.edges p))
          else .ok (some e, sortSearch n.edges.length (geLabel n.edges p))) := rfl

/-- `getEdge` looks at the first byte only. -/
theorem getEdge_head (n : node V) (p : Byte) (q q' : List Byte) :
    getEdge n (p :: q) = getEdge n (p :: q') := rfl

theorem getEdge_ok (n : node V) (p : Byte) (q : List Byte) :
    ∃ r idx, getEdge n (p :: q) = .ok (r, idx) ∧ idx ≤ n.edges.length ∧
      (∀ e, r = some e → n.edges[idx]? = some e ∧ e.label = p) ∧
      (r = none → ∀ e, n.edges[idx]? = some e → e.label ≠ p) := by
  rw [getEdge_eq]
  have hle := sortSearch_le n.edges.length (geLabel n.edges p)
  by_cases h : sortSearch n.edges.length (geLabel n.edges p) ≥ n.edges.length
  · refine ⟨none, _, by simp only [h, if_true], hle, by simp, ?_⟩
    intro _ e he
    rw [List.getElem?_eq_none h] at he
    exact absurd he (by simp)
  · simp only [h, if_false]
    have hlt : sortSearch n.edges.length (geLabel n.edges p) < n.edges.length := by omega
    rw [List.getElem?_eq_getElem hlt]
    simp only
    by_cases hl : (n.edges[sortSearch n.edges.length (geLabel n.edges p)]).label = p
    · refine ⟨some n.edges[sortSearch n.edges.length (geLabel n.edges p)], _,
        by simp only [hl, ne_eq, not_true_eq_false, if_false], hle, ?_, by simp⟩
      intro e he
      simp only [Option.some.injEq] at he
      subst he
      exact ⟨List.getElem?_eq_getElem hlt, hl⟩
    · refine ⟨none, _, by simp only [ne_eq, hl, not_false_eq_true, if_true], hle, by simp, ?_⟩
      intro _ e he
      rw [List.getElem?_eq_getElem hlt] at he
      simp only [Option.some.injEq] at he
      subst he
      exact hl

theorem getEdge_sorted (n : node V) (hs : SortedEdges n.edges) (p : Byte) (q : List Byte)
    (r : Option (Edge V)) (idx : Nat) (h : getEdge n (p :: q) = .ok (r, idx)) :
    (∀ e ∈ n.edges.take idx, e.label < p) ∧ (∀ e ∈ n.edges.drop idx, p ≤ e.label) ∧
      (r = none → ∀ e ∈ n.edges, e.label ≠ p) := by
  obtain ⟨h1, h2, h3⟩ := sortSearch_spec (geLabel n.edges p) n.edges.length
    (geLabel_mono n.edges hs p)
  obtain ⟨r', idx', h', hle, hsome, hnone⟩ := getEdge_ok n p q
  rw [h] at h'
  simp only [Except.ok.injEq, Prod.mk.injEq] at h'
  obtain ⟨hr, hidx⟩ := h'
  subst hr hidx
  have hidx : idx = sortSearch n.edges.length (geLabel n.edges p) := by
    rw [getEdge_eq] at h
    split at h
    · simp only [Except.ok.injEq, Prod.mk.injEq] at h; exact h.2.symm
    · split at h
      · exact absurd h (by simp)
      · split at h <;> simp only [Except.ok.injEq, Prod.mk.injEq] at h <;> exact h.2.symm
  have hlo : ∀ e ∈ n.edges.take idx, e.label < p := by
    intro e he
    obtain ⟨k, hk, hek⟩ := List.getElem_of_mem he
    rw [List.length_take] at hk
    have hk1 : k < idx := by omega
    have hk2 : k < n.edges.length := by omega
    have := h2 k (by omega)
    rw [List.getElem_take] at hek
    simp only [geLabel, List.getElem?_eq_getElem hk2, decide_eq_false_iff_not, not_le] at this
    rw [← hek]; exact this
  have hhi : ∀ e ∈ n.edges.drop idx, p ≤ e.label := by
    intro e he
    obtain ⟨k, hk, hek⟩ := List.getElem_of_mem he
    rw [List.length_drop] at hk
    have hk2 : idx + k < n.edges.length := by omega
    have := h3 (idx + k) (by omega) hk2
    rw [List.getElem_drop] at hek
    simp only [geLabel, List.getElem?_eq_getElem hk2, decide_eq_true_eq] at this
    rw [← hek]; exact this
  refine ⟨hlo, hhi, ?_⟩
  intro hr e he hl
  rw [← List.take_append_drop idx n.edges, List.mem_append] at he
  rcases he with he | he
  · exact absurd (hlo e he) (by rw [hl]; exact lt_irrefl _)
  · -- e is in the drop; the first element of the drop has label ≥ p, and is not p
    obtain ⟨k, hk, hek⟩ := List.getElem_of_mem he
    rw [List.length_drop] at hk
    rw [List.getElem_drop] at hek
    have hlt : idx < n.edges.length := by omega
    have h0 := hnone hr _ (List.getElem?_eq_getElem hlt)
    have h0' : p ≤ (n.edges[idx]).label :=
      hhi _ (by
        rw [List.mem_iff_getElem]
        exact ⟨0, by rw [List.length_drop]; omega, by rw [List.getElem_drop]; rfl⟩)
    have h0'' : p < (n.edges[idx]).label := lt_of_le_of_ne h0' (Ne.symm h0)
    rcases Nat.eq_zero_or_pos k with hk0 | hk0
    · subst hk0
      simp only [Nat.add_zero] at hek
      rw [hek] at h0
      exact h0 hl
    · have := (List.pairwise_iff_getElem.mp hs) idx (idx + k) hlt (by omega) (by omega)
      rw [hek, hl] at this
      exact absurd (lt_trans h0'' this) (lt_irrefl _)

theorem addEdge_ok (n : node V) (e : Edge V) :
    ∃ r idx, getEdge n [e.label] = .ok (r, idx) ∧ idx ≤ n.edges.length ∧
      addEdge n e = .ok (node.mk n.pfx n.leaf (n.edges.take idx ++ e :: n.edges.drop idx)) := by
  obtain ⟨r, idx, h, hle, -, -⟩ := getEdge_ok n e.label []
  refine ⟨r, idx, h, hle, ?_⟩
  simp only [addEdge, h, gt_iff_lt, not_lt.mpr hle, if_false]

theorem sortedEdges_insert (es : List (Edge V)) (e : Edge V) (idx : Nat)
    (hs : SortedEdges es) (hlo : ∀ x ∈ es.take idx, x.label < e.label)
    (hhi : ∀ x ∈ es.drop idx, e.label < x.label) :
    SortedEdges (es.take idx ++ e :: es.drop idx) := by
  unfold SortedEdges at hs ⊢
  rw [List.pairwise_append]
  have hs' := hs
  rw [← List.take_append_drop idx es, List.pairwise_append] at hs'
  obtain ⟨h1, h2, h3⟩ := hs'
  refine ⟨h1, List.pairwise_cons.mpr ⟨hhi, h2⟩, ?_⟩
  intro a ha b hb
  rcases List.mem_cons.mp hb with hb | hb
  · subst hb; exact hlo a ha
  · exact h3 a ha b hb

theorem addEdge_sorted (n : node V) (e : Edge V) (hs : SortedEdges n.edges)
    (hfresh : ∀ x ∈ n.edges, x.label ≠ e.label) :
    ∃ idx, idx ≤ n.edges.length ∧
      addEdge n e = .ok (node.mk n.pfx n.leaf (n.edges.take idx ++ e :: n.edges.drop idx)) ∧
      SortedEdges (n.edges.take idx ++ e :: n.edges.drop idx) := by
  obtain ⟨r, idx, h, hle, hadd⟩ := addEdge_ok n e
  obtain ⟨hlo, hhi, -⟩ := getEdge_sorted n hs e.label [] r idx h
  refine ⟨idx, hle, hadd, sortedEdges_insert _ _ _ hs hlo ?_⟩
  intro x hx
  exact lt_of_le_of_ne (hhi x hx) (Ne.symm (hfresh x (List.mem_of_mem_drop hx)))

@[simp] theorem node_pfx_mk (p : List Byte) (l : Option (leaf V)) (es : List (Edge V)) :
    (node.mk p l es).pfx = p := rfl
@[simp] theorem node_leaf_mk (p : List Byte) (l : Option (leaf V)) (es : List (Edge V)) :
    (node.mk p l es).leaf = l := rfl
@[simp] theorem node_edges_mk (p : List Byte) (l : Option (leaf V)) (es : List (Edge V)) :
    (node.mk p l es).edges = es := rfl

theorem node_eta (n : node V) : node.mk n.pfx n.leaf n.edges = n := by
  cases n; rfl

theorem nodeAt_nil (n : node V) : nodeAt n [] = some n := by
  cases n; rfl

theorem nodeAt_cons (n : node V) (i : Nat) (is : List Nat) :
    nodeAt n (i :: is) = match n.edges[i]? with
      | some e => nodeAt e.node is
      | none => none := by
  cases n; rfl

theorem nodeAt_cons_of (n : node V) (i : Nat) (is : List Nat) (e : Edge V)
    (h : n.edges[i]? = some e) : nodeAt n (i :: is) = nodeAt e.node is := by
  rw [nodeAt_cons, h]

theorem replaceAt_nil (n m : node V) : replaceAt n [] m = m := by
  cases n; rfl

theorem replaceAt_cons_of (n m : node V) (i : Nat) (is : List Nat) (e : Edge V)
    (h : n.edges[i]? = some e) :
    replaceAt n (i :: is) m =
      node.mk n.pfx n.leaf (n.edges.set i ⟨e.label, replaceAt e.node is m⟩) := by
  cases n
  simp only [replaceAt, h]

theorem inv_iff (n : node V) : Inv n ↔ GoodNode n ∧ ∀ e ∈ n.edges, Inv e.node := by
  constructor
  · intro h
    refine ⟨h [] n (nodeAt_nil n), ?_⟩
    intro e he path m hm
    obtain ⟨i, hi, hie⟩ := List.getElem_of_mem he
    have : n.edges[i]? = some e := by rw [List.getElem?_eq_getElem hi, hie]
    exact h (i :: path) m (by rw [nodeAt_cons_of n i path e this]; exact hm)
  · intro ⟨hg, hc⟩ path m hm
    cases path with
    | nil =>
      rw [nodeAt_nil] at hm
      simp only [Option.some.injEq] at hm
      subst hm; exact hg
    | cons i is =>
      rw [nodeAt_cons] at hm
      split at hm
      · rename_i e he
        exact hc e (List.getElem?_mem he) is m hm
      · exact absurd hm (by simp)

theorem sortedEdges_set (es : List (Edge V)) (i : Nat) (e e' : Edge V)
    (hs : SortedEdges es) (hi : es[i]? = some e) (hl : e'.label = e.label) :
    SortedEdges (es.set i e') := by
  unfold SortedEdges at hs ⊢
  have h1 : (es.map edge.label).Pairwise (· < ·) := List.pairwise_map.mpr hs
  have h2 : (es.set i e').map edge.label = es.map edge.label := by
    rw [List.map_set]
    apply List.ext_getElem?
    intro k
    rw [List.getElem?_set]
    split
    · rename_i hik
      subst hik
      split
      · rename_i hlt
        rw [List.length_map] at hlt
        rw [List.getElem?_map, hi, hl]; rfl
      · rename_i hlt
        rw [List.length_map] at hlt
        have := List.getElem?_eq_none (Nat.le_of_not_lt hlt)
        rw [this] at hi
        exact absurd hi (by simp)
    · rfl
  rw [← h2] at h1
  exact List.pairwise_map.mp h1

theorem replaceAt_pfx_head (n : node V) (path : List Nat) (m m' : node V)
    (hm : nodeAt n path = some m) (hp : m'.pfx.head? = m.pfx.head?) :
    (replaceAt n path m').pfx.head? = n.pfx.head? := by
  cases path with
  | nil =>
    rw [nodeAt_nil] at hm
    simp only [Option.some.injEq] at hm
    subst hm
    rw [replaceAt_nil, hp]
  | cons i is =>
    rw [nodeAt_cons] at hm
    split at hm
    · rename_i e he
      rw [replaceAt_cons_of n m' i is e he]
      rfl
    · exact absurd hm (by simp)

theorem replaceAt_inv : ∀ (path : List Nat) (n m m' : node V), Inv n →
    nodeAt n path = some m → Inv m' → m'.pfx.head? = m.pfx.head? →
    Inv (replaceAt n path m') := by
  intro path
  induction path with
  | nil =>
    intro n m m' _ _ hm' _
    rw [replaceAt_nil]; exact hm'
  | cons i is ih =>
    intro n m m' hn hm hm' hp
    rw [nodeAt_cons] at hm
    split at hm
    · rename_i e he
      rw [replaceAt_cons_of n m' i is e he]
      rw [inv_iff] at hn ⊢
      obtain ⟨⟨hs, hl⟩, hc⟩ := hn
      have hemem : e ∈ n.edges := List.getElem?_mem he
      refine ⟨⟨sortedEdges_set _ i e _ hs he rfl, ?_⟩, ?_⟩
      · intro x hx
        simp only [node_edges_mk] at hx
        rcases List.mem_or_eq_of_mem_set hx with hx | hx
        · exact hl x hx
        · subst hx
          simp only
          rw [replaceAt_pfx_head e.node is m m' hm hp]
          exact hl e hemem
      · intro x hx
        simp only [node_edges_mk] at hx
        rcases List.mem_or_eq_of_mem_set hx with hx | hx
        · exact hc x hx
        · subst hx
          exact ih e.node m m' (hc e hemem) hm hm' hp
    · exact absurd hm (by simp)

theorem inv_nodeAt (n : node V) (path : List Nat) (m : node V) (hn : Inv n)
    (hm : nodeAt n path = some m) : Inv m := by
  induction path generalizing n with
  | nil =>
    rw [nodeAt_nil] at hm
    simp only [Option.some.injEq] at hm
    subst hm; exact hn
  | cons i is ih =>
    rw [nodeAt_cons] at hm
    split at hm
    · rename_i e he
      exact ih e.node ((inv_iff n).mp hn |>.2 e (List.getElem?_mem he)) hm
    · exact absurd hm (by simp)

theorem shaped_iff (n : node V) : Shaped n ↔ ShapedNode n ∧ ∀ e ∈ n.edges, Shaped e.node := by
  constructor
  · intro h
    refine ⟨h [] n (nodeAt_nil n), ?_⟩
    intro e he path m hm
    obtain ⟨i, hi, hie⟩ := List.getElem_of_mem he
    have : n.edges[i]? = some e := by rw [List.getElem?_eq_getElem hi, hie]
    exact h (i :: path) m (by rw [nodeAt_cons_of n i path e this]; exact hm)
  · intro ⟨hg, hc⟩ path m hm
    cases path with
    | nil =>
      rw [nodeAt_nil] at hm
      simp only [Option.some.injEq] at hm
      subst hm; exact hg
    | cons i is =>
      rw [nodeAt_cons] at hm
      split at hm
      · rename_i e he
        exact hc e (List.getElem?_mem he) is m hm
      · exact absurd hm (by simp)

theorem shaped_of_inv (n : node V) (h : Inv n) : Shaped n := by
  intro path m hm
  obtain ⟨hs, hl⟩ := h path m hm
  refine ⟨hs, ?_⟩
  intro e he hnil
  have := hl e he
  rw [hnil] at this
  exact absurd this (by simp)

theorem replaceAt_pfx_ne (n : node V) (path : List Nat) (m m' : node V)
    (hm : nodeAt n path = some m) (hp : m.pfx ≠ [] → m'.pfx ≠ []) (hn : n.pfx ≠ []) :
    (replaceAt n path m').pfx ≠ [] := by
  cases path with
  | nil =>
    rw [nodeAt_nil] at hm
    simp only [Option.some.injEq] at hm
    subst hm
    rw [replaceAt_nil]; exact hp hn
  | cons i is =>
    rw [nodeAt_cons] at hm
    split at hm
    · rename_i e he
      rw [replaceAt_cons_of n m' i is e he]
      exact hn
    · exact absurd hm (by simp)

theorem replaceAt_shaped : ∀ (path : List Nat) (n m m' : node V), Shaped n →
    nodeAt n path = some m → Shaped m' → (m.pfx ≠ [] → m'.pfx ≠ []) →
    Shaped (replaceAt n path m') := by
  intro path
  induction path with
  | nil =>
    intro n m m' _ _ hm' _
    rw [replaceAt_nil]; exact hm'
  | cons i is ih =>
    intro n m m' hn hm hm' hp
    rw [nodeAt_cons] at hm
    split at hm
    · rename_i e he
      rw [replaceAt_cons_of n m' i is e he]
      rw [shaped_iff] at hn ⊢
      obtain ⟨⟨hs, hl⟩, hc⟩ := hn
      have hemem : e ∈ n.edges := List.getElem?_mem he
      refine ⟨⟨sortedEdges_set _ i e _ hs he rfl, ?_⟩, ?_⟩
      · intro x hx
        simp only [node_edges_mk] at hx
        rcases List.mem_or_eq_of_mem_set hx with hx | hx
        · exact hl x hx
        · subst hx
          exact replaceAt_pfx_ne e.node is m m' hm hp (hl e hemem)
      · intro x hx
        simp only [node_edges_mk] at hx
        rcases List.mem_or_eq_of_mem_set hx with hx | hx
        · exact hc x hx
        · subst hx
          exact ih e.node m m' (hc e hemem) hm hm' hp
    · exact absurd hm (by simp)

theorem shaped_nodeAt (n : node V) (path : List Nat) (m : node V) (hn : Shaped n)
    (hm : nodeAt n path = some m) : Shaped m := by
  induction path generalizing n with
  | nil =>
    rw [nodeAt_nil] at hm
    simp only [Option.some.injEq] at hm
    subst hm; exact hn
  | cons i is ih =>
    rw [nodeAt_cons] at hm
    split at hm
    · rename_i e he
      exact ih e.node ((shaped_iff n).mp hn |>.2 e (List.getElem?_mem he)) hm
    · exact absurd hm (by simp)

theorem edgesHeight_cons (e : Edge V) (es : List (Edge V)) :
    edgesHeight (e :: es) = max e.node.height (edgesHeight es) := by
  cases e; simp only [edgesHeight]

theorem node_height_eq (n : node V) : n.height = edgesHeight n.edges + 1 := by
  cases n; simp only [node.height, node_edges_mk]

theorem height_le_edgesHeight (es : List (Edge V)) (e : Edge V) (he : e ∈ es) :
    e.node.height ≤ edgesHeight es := by
  induction es with
  | nil => exact absurd he (by simp)
  | cons x xs ih =>
    rw [edgesHeight_cons]
    rcases List.mem_cons.mp he with h | h
    · subst h; exact le_max_left _ _
    · exact le_trans (ih h) (le_max_right _ _)

theorem height_child_lt (n : node V) (e : Edge V) (he : e ∈ n.edges) :
    e.node.height < n.height := by
  rw [node_height_eq n]
  exact Nat.lt_succ_of_le (height_le_edgesHeight _ e he)

theorem height_pos (n : node V) : 0 < n.height := by
  rw [node_height_eq]; omega

theorem slice_drop (p : List Byte) (a : Nat) (h : a ≤ p.length) :
    slice p a p.length = .ok (p.drop a) := by
  simp only [slice, h, le_refl, and_self, if_true, List.take_length]

theorem slice_fault (p : List Byte) (a : Nat) (h : p.length < a) :
    slice p a p.length = .error .sliceBounds := by
  simp only [slice, not_le.mpr h, false_and, if_false]

theorem getEdge_nil (n : node V) : getEdge n [] = .error .indexOutOfRange := rfl

theorem getEdge_some_mem (n : node V) (p : List Byte) (e : Edge V) (i : Nat)
    (h : getEdge n p = .ok (some e, i)) :
    ∃ b q, p = b :: q ∧ n.edges[i]? = some e ∧ e.label = b := by
  cases p with
  | nil => rw [getEdge_nil] at h; exact absurd h (by simp)
  | cons b q =>
    obtain ⟨r, idx, h', -, hsome, -⟩ := getEdge_ok n b q
    rw [h] at h'
    simp only [Except.ok.injEq, Prod.mk.injEq] at h'
    obtain ⟨hr, hidx⟩ := h'
    subst hr hidx
    exact ⟨b, q, rfl, hsome e rfl⟩

theorem longestPathLoop_succ (fuel : Nat) (n : node V) (p : List Byte) :
    longestPathLoop (fuel + 1) n p =
      if p.length = 0 then .ok ([n], [])
      else
        match getEdge n p with
        | .error f => .error f
        | .ok (none, _) => .ok ([n], [])
        | .ok (some e, idx) =>
          match slice p e.node.pfx.length p.length with
          | .error f => .error f
          | .ok p' =>
            match longestPathLoop fuel e.node p' with
            | .error f => .error f
            | .ok (ns, is) => .ok (n :: ns, idx :: is) := rfl

theorem hops_of_longestPathLoop : ∀ (fuel : Nat) (n : node V) (p : List Byte)
    (nodes : List (node V)) (idxs : List Nat),
    longestPathLoop fuel n p = .ok (nodes, idxs) →
    ∃ ns m q, nodes = ns ++ [m] ∧ Hops n p ns idxs m q ∧ Stop m q := by
  intro fuel
  induction fuel with
  | zero => intro n p nodes idxs h; exact absurd h (by simp [longestPathLoop])
  | succ fuel ih =>
    intro n p nodes idxs h
    rw [longestPathLoop_succ] at h
    split at h
    · rename_i hp
      simp only [Except.ok.injEq, Prod.mk.injEq] at h
      obtain ⟨h1, h2⟩ := h
      subst h1 h2
      exact ⟨[], n, p, rfl, Hops.nil n p, Or.inl (List.length_eq_zero.mp hp)⟩
    · split at h
      · exact absurd h (by simp)
      · rename_i j hg
        simp only [Except.ok.injEq, Prod.mk.injEq] at h
        obtain ⟨h1, h2⟩ := h
        subst h1 h2
        exact ⟨[], n, p, rfl, Hops.nil n p, Or.inr ⟨j, hg⟩⟩
      · rename_i e idx hg
        by_cases hlen : e.node.pfx.length ≤ p.length
        · rw [slice_drop p _ hlen] at h
          simp only at h
          split at h
          · exact absurd h (by simp)
          · rename_i ns is hrec
            simp only [Except.ok.injEq, Prod.mk.injEq] at h
            obtain ⟨h1, h2⟩ := h
            subst h1 h2
            obtain ⟨ns', m, q, hns, hh, hs⟩ := ih _ _ _ _ hrec
            subst hns
            exact ⟨n :: ns', m, q, rfl, Hops.cons hg hlen hh, hs⟩
        · rw [slice_fault p _ (by omega)] at h
          exact absurd h (by simp)

theorem longestPathLoop_of_hops {n : node V} {p : List Byte} {ns : List (node V)}
    {is : List Nat} {m : node V} {q : List Byte} (hh : Hops n p ns is m q) (hs : Stop m q) :
    ∀ fuel, n.height ≤ fuel → longestPathLoop fuel n p = .ok (ns ++ [m], is) := by
  induction hh with
  | nil n p =>
    intro fuel hf
    obtain ⟨fuel, rfl⟩ : ∃ k, fuel = k + 1 := ⟨fuel - 1, by have := height_pos n; omega⟩
    rw [longestPathLoop_succ]
    rcases hs with hs | ⟨j, hs⟩
    · subst hs; rfl
    · have hp : ¬ p.length = 0 := by
        intro h0
        rw [List.length_eq_zero.mp h0, getEdge_nil] at hs
        exact absurd hs (by simp)
      simp only [hp, if_false, hs, List.nil_append]
  | @cons n p e i ns is m q hg hlen _ ih =>
    intro fuel hf
    obtain ⟨fuel, rfl⟩ : ∃ k, fuel = k + 1 := ⟨fuel - 1, by have := height_pos n; omega⟩
    obtain ⟨b, q', hp, hmem, -⟩ := getEdge_some_mem n p e i hg
    have hlt := height_child_lt n e (List.getElem?_mem hmem)
    rw [longestPathLoop_succ]
    have hp0 : ¬ p.length = 0 := by rw [hp]; simp
    simp only [hp0, if_false, hg, slice_drop p _ hlen, ih hs fuel (by omega), List.cons_append]

theorem longestPathLoop_ne_fuel : ∀ (fuel : Nat) (n : node V) (p : List Byte),
    n.height ≤ fuel → longestPathLoop fuel n p ≠ .error .fuel := by
  intro fuel
  induction fuel with
  | zero => intro n p h; have := height_pos n; omega
  | succ fuel ih =>
    intro n p hf
    rw [longestPathLoop_succ]
    split
    · simp
    · cases p with
      | nil => simp at *
      | cons b q =>
        obtain ⟨r, idx, hg, -, hsome, -⟩ := getEdge_ok n b q
        rw [hg]
        cases r with
        | none => simp
        | some e =>
          simp only
          have hlt := height_child_lt n e (List.getElem?_mem (hsome e rfl).1)
          by_cases hlen : e.node.pfx.length ≤ (b :: q).length
          · rw [slice_drop _ _ hlen]
            simp only
            have := ih e.node ((b :: q).drop e.node.pfx.length) (by omega)
            split
            · rename_i f hrec
              intro hc
              simp only [Except.error.injEq] at hc
              subst hc
              exact this hrec
            · simp
          · rw [slice_fault _ _ (by omega)]
            simp

theorem hops_nodeAt {n : node V} {p : List Byte} {ns : List (node V)}
    {is : List Nat} {m : node V} {q : List Byte} (hh : Hops n p ns is m q) :
    nodeAt n is = some m := by
  induction hh with
  | nil n p => exact nodeAt_nil n
  | @cons n p e i ns is m q hg _ _ ih =>
    obtain ⟨b, q', -, hmem, -⟩ := getEdge_some_mem n p e i hg
    rw [nodeAt_cons_of n i is e hmem]; exact ih

theorem hops_length {n : node V} {p : List Byte} {ns : List (node V)}
    {is : List Nat} {m : node V} {q : List Byte} (hh : Hops n p ns is m q) :
    ns.length = is.length := by
  induction hh with
  | nil n p => rfl
  | cons _ _ _ ih => simp only [List.length_cons, ih]

theorem hops_consumed {n : node V} {p : List Byte} {ns : List (node V)}
    {is : List Nat} {m : node V} {q : List Byte} (hh : Hops n p ns is m q) :
    ∃ c, c ≤ p.length ∧ q = p.drop c ∧
      (((ns ++ [m]).map node.pfx).flatten).length = n.pfx.length + c := by
  induction hh with
  | nil n p =>
    refine ⟨0, Nat.zero_le _, rfl, ?_⟩
    simp
  | @cons n p e i ns is m q hg hlen _ ih =>
    obtain ⟨c, hc, hq, hsum⟩ := ih
    rw [List.length_drop] at hc
    refine ⟨e.node.pfx.length + c, by omega, ?_, ?_⟩
    · rw [hq, List.drop_drop]
    · simp only [List.cons_append, List.map_cons, List.flatten_cons, List.length_append, hsum]

theorem hops_snoc {n : node V} {p : List Byte} {ns : List (node V)}
    {is : List Nat} {m : node V} {q : List Byte} (hh : Hops n p ns is m q)
    {e : Edge V} {i : Nat} (hg : getEdge m q = .ok (some e, i))
    (hlen : e.node.pfx.length ≤ q.length) :
    Hops n p (ns ++ [m]) (is ++ [i]) e.node (q.drop e.node.pfx.length) := by
  induction hh with
  | nil n p => exact Hops.cons hg hlen (Hops.nil _ _)
  | cons hg' hlen' _ ih => exact Hops.cons hg' hlen' (ih hg hlen)

theorem hops_snoc_inv {n : node V} {p : List Byte} {ns : List (node V)}
    {is : List Nat} {m : node V} {q : List Byte} (hh : Hops n p ns is m q)
    (hne : is ≠ []) :
    ∃ ns0 is0 parent r e i, ns = ns0 ++ [parent] ∧ is = is0 ++ [i] ∧
      Hops n p ns0 is0 parent r ∧ getEdge parent r = .ok (some e, i) ∧ e.node = m ∧
      m.pfx.length ≤ r.length ∧ q = r.drop m.pfx.length := by
  induction hh with
  | nil n p => exact absurd rfl hne
  | @cons n p e i ns is m q hg hlen hrest ih =>
    cases is with
    | nil =>
      cases hrest
      exact ⟨[], [], n, p, e, i, rfl, rfl, Hops.nil n p, hg, rfl, hlen, rfl⟩
    | cons i' is' =>
      obtain ⟨ns0, is0, parent, r, e', j, h1, h2, h3, h4, h5, h6, h7⟩ := ih (by simp)
      refine ⟨n :: ns0, i :: is0, parent, r, e', j, ?_, ?_, Hops.cons hg hlen h3, h4, h5, h6, h7⟩
      · rw [h1]; rfl
      · rw [h2]; rfl

theorem hops_nil_inv {n : node V} {p : List Byte} {ns : List (node V)}
    {m : node V} {q : List Byte} (hh : Hops n p ns [] m q) :
    ns = [] ∧ m = n ∧ q = p := by
  cases hh
  exact ⟨rfl, rfl, rfl⟩

theorem index_eq {α : Type} (s : List α) (i : Nat) (x : α) (h : s[i]? = some x) :
    index s i = .ok x := by
  simp only [index, h]

theorem Insert_root (t : Tree V) (k0 : Byte) (rest : List Byte) (val : V) (n0 : node V)
    (idxs : List Nat) (h : longestPath t (k0 :: rest) = .ok ([n0], idxs)) :
    Insert t (k0 :: rest) val =
      match addEdge n0 ⟨k0, node.mk (k0 :: rest) (some ⟨k0 :: rest, val⟩) []⟩ with
      | .error f => .error f
      | .ok n0' => .ok ⟨n0'⟩ := by
  unfold Insert
  simp only [h, List.length_singleton, if_true]
  rw [index_eq [n0] 0 n0 rfl]
  simp only [replaceAt_nil]

theorem Insert_empty_key (t : Tree V) (val : V) :
    Insert t [] val = .error .indexOutOfRange := by
  have h : longestPath t [] = .ok ([t.root], []) := by
    unfold longestPath
    obtain ⟨k, hk⟩ : ∃ k, t.root.height = k + 1 := ⟨t.root.height - 1, by
      have := height_pos t.root; omega⟩
    rw [hk, longestPathLoop_succ]
    rfl
  unfold Insert
  simp only [h, List.length_singleton, if_true]

theorem Insert_deep (t : Tree V) (key : List Byte) (val : V) (ns0 : List (node V))
    (parent m : node V) (idxs : List Nat)
    (h : longestPath t key = .ok (ns0 ++ [parent, m], idxs)) :
    Insert t key val =
      match slice key (((ns0 ++ [parent]).map node.pfx).flatten).length key.length with
      | .error f => .error f
      | .ok remaining =>
        if remaining = m.pfx then
          .ok ⟨replaceAt t.root idxs (node.mk m.pfx (some ⟨key, val⟩) m.edges)⟩
        else
          match slice remaining (commonPrefix remaining m.pfx).length remaining.length,
                slice m.pfx (commonPrefix remaining m.pfx).length m.pfx.length with
          | .error f, _ => .error f
          | _, .error f => .error f
          | .ok leafPrefix, .ok oldPrefix =>
            if oldPrefix.length = 0 then
              match leafPrefix with
              | [] => .error .indexOutOfRange
              | b :: _ =>
                match addEdge m ⟨b, node.mk leafPrefix (some ⟨key, val⟩) []⟩ with
                | .error f => .error f
                | .ok farthest' => .ok ⟨replaceAt t.root idxs farthest'⟩
            else
              match leafPrefix with
              | [] => .error .indexOutOfRange
              | b :: _ =>
                match addEdge (node.mk (commonPrefix remaining m.pfx) none [])
                    ⟨b, node.mk leafPrefix (some ⟨key, val⟩) []⟩ with
                | .error f => .error f
                | .ok splitNode1 =>
                  match oldPrefix with
                  | [] => .error .indexOutOfRange
                  | o :: _ =>
                    match addEdge splitNode1 ⟨o, node.mk oldPrefix m.leaf m.edges⟩ with
                    | .error f => .error f
                    | .ok splitNode2 =>
                      match getEdge parent (commonPrefix remaining m.pfx) with
                      | .error f => .error f
                      | .ok (_, idx) =>
                        match commonPrefix remaining m.pfx with
                        | [] => .error .indexOutOfRange
                        | c0 :: _ =>
                          if idx < parent.edges.length then
                            .ok ⟨replaceAt t.root idxs.dropLast
                              (node.mk parent.pfx parent.leaf
                                (parent.edges.set idx ⟨c0, splitNode2⟩))⟩
                          else .error .indexOutOfRange := by
  unfold Insert
  have hl : (ns0 ++ [parent, m]).length = ns0.length + 2 := by simp
  have h1 : ¬ (ns0.length + 2 = 1) := by omega
  have hi1 : index (ns0 ++ [parent, m]) (ns0.length + 2 - 1) = .ok m := by
    apply index_eq
    rw [List.getElem?_append_right (by omega)]
    have : ns0.length + 2 - 1 - ns0.length = 1 := by omega
    rw [this]; rfl
  have hi2 : index (ns0 ++ [parent, m]) (ns0.length + 2 - 2) = .ok parent := by
    apply index_eq
    rw [List.getElem?_append_right (by omega)]
    have : ns0.length + 2 - 2 - ns0.length = 0 := by omega
    rw [this]; rfl
  have ht : (ns0 ++ [parent, m]).take (ns0.length + 2 - 1) = ns0 ++ [parent] := by
    rw [List.take_append_eq_append_take]
    have : ns0.length + 2 - 1 - ns0.length = 1 := by omega
    rw [this, List.take_of_length_le (by omega)]
    rfl
  simp only [h, hl, h1, if_false, hi1, hi2, ht]

theorem commonPrefix_nil_left (b : List Byte) : commonPrefix [] b = [] := rfl

theorem commonPrefix_nil_right (a : List Byte) : commonPrefix a [] = [] := by
  cases a <;> rfl

theorem commonPrefix_cons (x y : Byte) (a b : List Byte) :
    commonPrefix (x :: a) (y :: b) = if x ≠ y then [] else x :: commonPrefix a b := rfl

theorem commonPrefix_append (c a b : List Byte) :
    commonPrefix (c ++ a) (c ++ b) = c ++ commonPrefix a b := by
  induction c with
  | nil => rfl
  | cons x c ih =>
    simp only [List.cons_append, commonPrefix_cons, ne_eq, not_true_eq_false, if_false, ih]

theorem commonPrefix_diverge (c a b : List Byte) (x y : Byte) (h : x ≠ y) :
    commonPrefix (c ++ x :: a) (c ++ y :: b) = c := by
  rw [commonPrefix_append, commonPrefix_cons]
  simp only [ne_eq, h, not_false_eq_true, if_true, List.append_nil]

theorem commonPrefix_extend (c a : List Byte) : commonPrefix (c ++ a) c = c := by
  have := commonPrefix_append c a []
  rw [List.append_nil, commonPrefix_nil_right, List.append_nil] at this
  exact this

/-- The result of `commonPrefix` splits both arguments, and the rests diverge. -/
theorem commonPrefix_split (a b : List Byte) :
    ∃ x y, a = commonPrefix a b ++ x ∧ b = commonPrefix a b ++ y ∧
      (x = [] ∨ y = [] ∨ x.head? ≠ y.head?) := by
  induction a generalizing b with
  | nil => exact ⟨[], b, rfl, rfl, Or.inl rfl⟩
  | cons u a ih =>
    cases b with
    | nil => exact ⟨u :: a, [], rfl, rfl, Or.inr (Or.inl rfl)⟩
    | cons w b =>
      rw [commonPrefix_cons]
      by_cases huw : u = w
      · subst huw
        obtain ⟨x, y, h1, h2, h3⟩ := ih b
        simp only [ne_eq, not_true_eq_false, if_false, List.cons_append]
        exact ⟨x, y, by rw [← h1], by rw [← h2], h3⟩
      · simp only [ne_eq, huw, not_false_eq_true, if_true, List.nil_append]
        refine ⟨u :: a, w :: b, rfl, rfl, Or.inr (Or.inr ?_)⟩
        simp only [List.head?_cons, ne_eq, Option.some.injEq]
        exact huw

theorem addEdge_eq (n : node V) (b : Byte) (q : List Byte) (c : node V)
    (r : Option (Edge V)) (j : Nat) (h : getEdge n (b :: q) = .ok (r, j)) :
    addEdge n ⟨b, c⟩ = .ok (node.mk n.pfx n.leaf (n.edges.take j ++ ⟨b, c⟩ :: n.edges.drop j)) := by
  obtain ⟨r', idx, h', -, hadd⟩ := addEdge_ok n ⟨b, c⟩
  rw [getEdge_head n b [] q, h] at h'
  simp only [Except.ok.injEq, Prod.mk.injEq] at h'
  rw [hadd, h'.2]

theorem Insert_stop_root (t : Tree V) (k0 : Byte) (rest : List Byte) (val : V) (j : Nat)
    (hs : getEdge t.root (k0 :: rest) = .ok (none, j)) :
    Insert t (k0 :: rest) val =
      .ok ⟨node.mk t.root.pfx t.root.leaf (t.root.edges.take j ++
        ⟨k0, node.mk (k0 :: rest) (some ⟨k0 :: rest, val⟩) []⟩ :: t.root.edges.drop j)⟩ := by
  have h := longestPathLoop_of_hops (Hops.nil t.root (k0 :: rest)) (Or.inr ⟨j, hs⟩)
    t.root.height (le_refl _)
  rw [Insert_root t k0 rest val t.root [] h, addEdge_eq t.root k0 rest _ none j hs]

theorem hops_path (t : Tree V) (key : List Byte) (ns0 : List (node V)) (is0 : List Nat)
    (parent : node V) (r : List Byte) (e : Edge V) (i : Nat)
    (hh : Hops t.root key ns0 is0 parent r) (hg : getEdge parent r = .ok (some e, i))
    (hlen : e.node.pfx.length ≤ r.length) (hstop : Stop e.node (r.drop e.node.pfx.length))
    (hroot : t.root.pfx = []) :
    longestPath t key = .ok (ns0 ++ [parent, e.node], is0 ++ [i]) ∧
      slice key (((ns0 ++ [parent]).map node.pfx).flatten).length key.length = .ok r := by
  constructor
  · have := longestPathLoop_of_hops (hops_snoc hh hg hlen) hstop t.root.height (le_refl _)
    rw [List.append_assoc] at this
    exact this
  · obtain ⟨c, hc, hr, hsum⟩ := hops_consumed hh
    rw [hroot, List.length_nil, Nat.zero_add] at hsum
    rw [hsum, hr]
    exact slice_drop key c hc

theorem Insert_exact (t : Tree V) (key : List Byte) (val : V) (ns0 : List (node V))
    (is0 : List Nat) (parent : node V) (r : List Byte) (e : Edge V) (i : Nat)
    (hh : Hops t.root key ns0 is0 parent r) (hg : getEdge parent r = .ok (some e, i))
    (hroot : t.root.pfx = []) (hex : e.node.pfx = r) :
    Insert t key val =
      .ok ⟨replaceAt t.root (is0 ++ [i]) (node.mk r (some ⟨key, val⟩) e.node.edges)⟩ := by
  have hstop : Stop e.node (r.drop e.node.pfx.length) := by
    left; rw [hex]; exact List.drop_length r
  obtain ⟨h1, h2⟩ := hops_path t key ns0 is0 parent r e i hh hg (by rw [hex]) hstop hroot
  rw [Insert_deep t key val ns0 parent e.node (is0 ++ [i]) h1, h2]
  simp only [hex, if_true]

theorem Insert_extend (t : Tree V) (key : List Byte) (val : V) (ns0 : List (node V))
    (is0 : List Nat) (parent : node V) (r : List Byte) (e : Edge V) (i : Nat)
    (b : Byte) (lp : List Byte) (j : Nat)
    (hh : Hops t.root key ns0 is0 parent r) (hg : getEdge parent r = .ok (some e, i))
    (hroot : t.root.pfx = []) (hr : r = e.node.pfx ++ b :: lp)
    (hs : getEdge e.node (b :: lp) = .ok (none, j)) :
    Insert t key val =
      .ok ⟨replaceAt t.root (is0 ++ [i]) (node.mk e.node.pfx e.node.leaf
        (e.node.edges.take j ++
          ⟨b, node.mk (b :: lp) (some ⟨key, val⟩) []⟩ :: e.node.edges.drop j))⟩ := by
  have hlen : e.node.pfx.length ≤ r.length := by rw [hr, List.length_append]; omega
  have hdrop : r.drop e.node.pfx.length = b :: lp := by
    rw [hr]; exact List.drop_left _ _
  have hstop : Stop e.node (r.drop e.node.pfx.length) := by
    right; rw [hdrop]; exact ⟨j, hs⟩
  obtain ⟨h1, h2⟩ := hops_path t key ns0 is0 parent r e i hh hg hlen hstop hroot
  rw [Insert_deep t key val ns0 parent e.node (is0 ++ [i]) h1, h2]
  have hne : ¬ r = e.node.pfx := by
    intro h
    have := congrArg List.length h
    rw [hr, List.length_append, List.length_cons] at this
    omega
  have hcp : commonPrefix r e.node.pfx = e.node.pfx := by rw [hr]; exact commonPrefix_extend _ _
  simp only [hne, if_false, hcp, slice_drop r _ hlen, hdrop, slice_drop e.node.pfx _ (le_refl _),
    List.drop_length, List.length_nil, if_true,
    addEdge_eq e.node b lp _ none j hs]

theorem addEdge_nil (c : List Byte) (l : Option (leaf V)) (x : Edge V) :
    addEdge (node.mk c l []) x = .ok (node.mk c l [x]) := by
  obtain ⟨r, idx, -, hle, hadd⟩ := addEdge_ok (node.mk c l []) x
  simp only [node_edges_mk, List.length_nil, Nat.le_zero] at hle
  subst hle
  rw [hadd]; rfl

theorem addEdge_single (c : List Byte) (l : Option (leaf V)) (x y : Edge V) :
    addEdge (node.mk c l [x]) y =
      .ok (node.mk c l (if y.label ≤ x.label then [y, x] else [x, y])) := by
  by_cases h : y.label ≤ x.label
  · have hg : sortSearch 1 (geLabel [x] y.label) = 0 := by
      simp [sortSearch, sortSearchLoop, geLabel, h]
    obtain ⟨r, hr⟩ : ∃ r, getEdge (node.mk c l [x]) [y.label] = .ok (r, 0) := by
      rw [getEdge_eq]
      simp only [node_edges_mk, List.length_singleton, hg]
      by_cases hxy : x.label = y.label
      · exact ⟨some x, by simp [hxy]⟩
      · exact ⟨none, by simp [hxy]⟩
    have := addEdge_eq (node.mk c l [x]) y.label [] y.node r 0 hr
    simp only [h, if_true]
    exact this
  · have hg : sortSearch 1 (geLabel [x] y.label) = 1 := by
      simp [sortSearch, sortSearchLoop, geLabel, h]
    have hr : getEdge (node.mk c l [x]) [y.label] = .ok (none, 1) := by
      rw [getEdge_eq]
      simp only [node_edges_mk, List.length_singleton, hg, ge_iff_le, le_refl, if_true]
    have := addEdge_eq (node.mk c l [x]) y.label [] y.node none 1 hr
    simp only [h, if_false]
    exact this

theorem Insert_split (t : Tree V) (key : List Byte) (val : V) (ns0 : List (node V))
    (is0 : List Nat) (parent : node V) (r : List Byte) (e : Edge V) (i : Nat)
    (c0 b o : Byte) (cp lp op : List Byte)
    (hh : Hops t.root key ns0 is0 parent r) (hg : getEdge parent r = .ok (some e, i))
    (hroot : t.root.pfx = []) (hr : r = (c0 :: cp) ++ b :: lp)
    (hm : e.node.pfx = (c0 :: cp) ++ o :: op) (hbo : b ≠ o)
    (hlen : e.node.pfx.length ≤ r.length)
    (hstop : Stop e.node (r.drop e.node.pfx.length)) :
    Insert t key val =
      .ok ⟨replaceAt t.root is0 (node.mk parent.pfx parent.leaf
        (parent.edges.set i ⟨c0, node.mk (c0 :: cp) none
          (if o ≤ b then
            [⟨o, node.mk (o :: op) e.node.leaf e.node.edges⟩,
             ⟨b, node.mk (b :: lp) (some ⟨key, val⟩) []⟩]
          else
            [⟨b, node.mk (b :: lp) (some ⟨key, val⟩) []⟩,
             ⟨o, node.mk (o :: op) e.node.leaf e.node.edges⟩])⟩))⟩ := by
  obtain ⟨h1, h2⟩ := hops_path t key ns0 is0 parent r e i hh hg hlen hstop hroot
  rw [Insert_deep t key val ns0 parent e.node (is0 ++ [i]) h1, h2]
  have hne : ¬ r = e.node.pfx := by
    rw [hr, hm]
    intro h
    have := List.append_cancel_left h
    simp only [List.cons.injEq] at this
    exact hbo this.1
  have hcp : commonPrefix r e.node.pfx = c0 :: cp := by
    rw [hr, hm]; exact commonPrefix_diverge _ _ _ _ _ hbo
  have hl1 : (c0 :: cp).length ≤ r.length := by rw [hr, List.length_append]; omega
  have hl2 : (c0 :: cp).length ≤ e.node.pfx.length := by rw [hm, List.length_append]; omega
  have hd1 : r.drop (c0 :: cp).length = b :: lp := by rw [hr]; exact List.drop_left _ _
  have hd2 : e.node.pfx.drop (c0 :: cp).length = o :: op := by rw [hm]; exact List.drop_left _ _
  have hge : getEdge parent (c0 :: cp) = .ok (some e, i) := by
    rw [hr] at hg
    exact hg
  obtain ⟨_, _, -, hmem, -⟩ := getEdge_some_mem parent r e i hg
  have hi : i < parent.edges.length := by
    by_contra hcon
    rw [List.getElem?_eq_none (Nat.le_of_not_lt hcon)] at hmem
    exact absurd hmem (by simp)
  simp only [hne, if_false, hcp]
  rw [slice_drop r _ hl1, slice_drop e.node.pfx _ hl2, hd1, hd2]
  simp only [List.length_cons, Nat.succ_ne_zero, addEdge_nil, addEdge_single, hge, hi, if_true,
    if_false, List.dropLast_concat]

theorem Insert_ok_longestPath (t : Tree V) (key : List Byte) (val : V) (t' : Tree V)
    (h : Insert t key val = .ok t') :
    ∃ nodes idxs, longestPath t key = .ok (nodes, idxs) := by
  cases hlp : longestPath t key with
  | error f =>
    unfold Insert at h
    simp only [hlp] at h
    exact absurd h (by simp)
  | ok x => exact ⟨x.1, x.2, rfl⟩

/-- The traversal ends at a child whose prefix shares no first byte with the
rest of the key: `Insert` takes the split branch with an empty common prefix and
faults at `cp[0]` in `getEdge(parent, cp)`. -/
theorem Insert_clash (t : Tree V) (key : List Byte) (val : V) (ns0 : List (node V))
    (is0 : List Nat) (parent : node V) (r : List Byte) (e : Edge V) (i : Nat)
    (b o : Byte) (lp op : List Byte)
    (hh : Hops t.root key ns0 is0 parent r) (hg : getEdge parent r = .ok (some e, i))
    (hroot : t.root.pfx = []) (hr : r = b :: lp)
    (hm : e.node.pfx = o :: op) (hbo : b ≠ o)
    (hlen : e.node.pfx.length ≤ r.length)
    (hstop : Stop e.node (r.drop e.node.pfx.length)) :
    Insert t key val = .error .indexOutOfRange := by
  obtain ⟨h1, h2⟩ := hops_path t key ns0 is0 parent r e i hh hg hlen hstop hroot
  rw [Insert_deep t key val ns0 parent e.node (is0 ++ [i]) h1, h2]
  have hne : ¬ r = e.node.pfx := by
    rw [hr, hm]
    intro h
    simp only [List.cons.injEq] at h
    exact hbo h.1
  have hcp : commonPrefix r e.node.pfx = [] := by
    rw [hr, hm, commonPrefix_cons]
    simp only [ne_eq, hbo, not_false_eq_true, if_true]
  simp only [hne, if_false, hcp, List.length_nil]
  rw [slice_drop r 0 (Nat.zero_le _), slice_drop e.node.pfx 0 (Nat.zero_le _)]
  simp only [List.drop_zero, hr, hm, List.length_cons, Nat.succ_ne_zero, if_false, addEdge_nil,
    addEdge_single, getEdge_nil]

/-- Every completed `Insert` on a tree with an empty root prefix is one of the
four cases: new root edge, leaf overwrite, extension, split. -/
theorem Insert_cases (t : Tree V) (key : List Byte) (val : V) (t' : Tree V)
    (hroot : t.root.pfx = []) (h : Insert t key val = .ok t') :
    (∃ k0 rest j, key = k0 :: rest ∧ getEdge t.root key = .ok (none, j) ∧
      t' = ⟨node.mk t.root.pfx t.root.leaf (t.root.edges.take j ++
        ⟨k0, node.mk key (some ⟨key, val⟩) []⟩ :: t.root.edges.drop j)⟩) ∨
    (∃ ns0 is0 parent r e i, Hops t.root key ns0 is0 parent r ∧
      getEdge parent r = .ok (some e, i) ∧ e.node.pfx = r ∧
      t' = ⟨replaceAt t.root (is0 ++ [i]) (node.mk r (some ⟨key, val⟩) e.node.edges)⟩) ∨
    (∃ ns0 is0 parent r e i b lp j, Hops t.root key ns0 is0 parent r ∧
      getEdge parent r = .ok (some e, i) ∧ r = e.node.pfx ++ b :: lp ∧
      getEdge e.node (b :: lp) = .ok (none, j) ∧
      t' = ⟨replaceAt t.root (is0 ++ [i]) (node.mk e.node.pfx e.node.leaf
        (e.node.edges.take j ++
          ⟨b, node.mk (b :: lp) (some ⟨key, val⟩) []⟩ :: e.node.edges.drop j))⟩) ∨
    (∃ ns0 is0 parent r e i c0 b o cp lp op, Hops t.root key ns0 is0 parent r ∧
      getEdge parent r = .ok (some e, i) ∧ r = (c0 :: cp) ++ b :: lp ∧
      e.node.pfx = (c0 :: cp) ++ o :: op ∧ b ≠ o ∧ e.node.pfx.length ≤ r.length ∧
      Stop e.node (r.drop e.node.pfx.length) ∧
      t' = ⟨replaceAt t.root is0 (node.mk parent.pfx parent.leaf
        (parent.edges.set i ⟨c0, node.mk (c0 :: cp) none
          (if o ≤ b then
            [⟨o, node.mk (o :: op) e.node.leaf e.node.edges⟩,
             ⟨b, node.mk (b :: lp) (some ⟨key, val⟩) []⟩]
          else
            [⟨b, node.mk (b :: lp) (some ⟨key, val⟩) []⟩,
             ⟨o, node.mk (o :: op) e.node.leaf e.node.edges⟩])⟩))⟩) := by
  obtain ⟨nodes, idxs, hlp⟩ := Insert_ok_longestPath t key val t' h
  obtain ⟨ns, m, q, hns, hh, hstop⟩ := hops_of_longestPathLoop _ _ _ _ _ hlp
  have hkey : key ≠ [] := by
    intro hk
    rw [hk, Insert_empty_key] at h
    exact absurd h (by simp)
  cases idxs with
  | nil =>
    obtain ⟨-, hm, hq⟩ := hops_nil_inv hh
    subst hm
    rw [hq] at hstop
    left
    cases key with
    | nil => exact absurd rfl hkey
    | cons k0 rest =>
      rcases hstop with hs | ⟨j, hs⟩
      · exact absurd hs (by simp)
      · refine ⟨k0, rest, j, rfl, hs, ?_⟩
        rw [Insert_stop_root t k0 rest val j hs] at h
        simp only [Except.ok.injEq] at h
        exact h.symm
  | cons i0 idxs0 =>
    right
    obtain ⟨ns0, is0, parent, r, e, i, -, his, hh0, hg, hem, hlen, hq⟩ :=
      hops_snoc_inv hh (by simp)
    subst hem
    obtain ⟨x, y, hx, hy, hxy⟩ := commonPrefix_split r e.node.pfx
    generalize commonPrefix r e.node.pfx = cp at hx hy
    have hlen' : y.length ≤ x.length := by
      have h1 := congrArg List.length hx
      have h2 := congrArg List.length hy
      rw [List.length_append] at h1 h2
      omega
    cases y with
    | nil =>
      rw [List.append_nil] at hy
      cases x with
      | nil =>
        rw [List.append_nil] at hx
        left
        refine ⟨ns0, is0, parent, r, e, i, hh0, hg, by rw [hy, hx], ?_⟩
        rw [Insert_exact t key val ns0 is0 parent r e i hh0 hg hroot (by rw [hy, hx])] at h
        simp only [Except.ok.injEq] at h
        exact h.symm
      | cons b lp =>
        right; left
        have hr : r = e.node.pfx ++ b :: lp := by rw [hy]; exact hx
        have hq' : q = b :: lp := by
          rw [hq, hr]; exact List.drop_left _ _
        rcases hstop with hs | ⟨j, hs⟩
        · rw [hq'] at hs; exact absurd hs (by simp)
        · rw [hq'] at hs
          refine ⟨ns0, is0, parent, r, e, i, b, lp, j, hh0, hg, hr, hs, ?_⟩
          rw [Insert_extend t key val ns0 is0 parent r e i b lp j hh0 hg hroot hr hs] at h
          simp only [Except.ok.injEq] at h
          exact h.symm
    | cons o op =>
      right; right
      cases x with
      | nil => simp only [List.length_cons, List.length_nil] at hlen'; omega
      | cons b lp =>
        have hbo : b ≠ o := by
          rcases hxy with h1 | h1 | h1
          · exact absurd h1 (by simp)
          · exact absurd h1 (by simp)
          · simpa using h1
        rw [hq] at hstop
        cases cp with
        | nil =>
          rw [List.nil_append] at hx hy
          rw [Insert_clash t key val ns0 is0 parent r e i b o lp op hh0 hg hroot hx hy hbo hlen
            hstop] at h
          exact absurd h (by simp)
        | cons c0 cp =>
          refine ⟨ns0, is0, parent, r, e, i, c0, b, o, cp, lp, op, hh0, hg, hx, hy, hbo, hlen,
            hstop, ?_⟩
          rw [Insert_split t key val ns0 is0 parent r e i c0 b o cp lp op hh0 hg hroot hx hy hbo
            hlen hstop] at h
          simp only [Except.ok.injEq] at h
          exact h.symm

theorem inv_of_edges (n n' : node V) (h : Inv n) (he : n'.edges = n.edges) : Inv n' := by
  rw [inv_iff] at h ⊢
  unfold GoodNode at h ⊢
  rw [he]; exact h

theorem inv_no_edges (p : List Byte) (l : Option (leaf V)) : Inv (node.mk p l []) := by
  rw [inv_iff]
  refine ⟨⟨List.Pairwise.nil, ?_⟩, ?_⟩ <;> intro e he <;> exact absurd he (by simp)

theorem inv_addEdge (n : node V) (b : Byte) (q : List Byte) (j : Nat) (c : node V)
    (hn : Inv n) (hg : getEdge n (b :: q) = .ok (none, j)) (hc : Inv c)
    (hhead : c.pfx.head? = some b) :
    Inv (node.mk n.pfx n.leaf (n.edges.take j ++ ⟨b, c⟩ :: n.edges.drop j)) := by
  rw [inv_iff] at hn ⊢
  obtain ⟨⟨hs, hl⟩, hch⟩ := hn
  obtain ⟨hlo, hhi, hfresh⟩ := getEdge_sorted n hs b q none j hg
  have hmem : ∀ x ∈ n.edges.take j ++ (⟨b, c⟩ : Edge V) :: n.edges.drop j,
      x ∈ n.edges ∨ x = ⟨b, c⟩ := by
    intro x hx
    rcases List.mem_append.mp hx with hx | hx
    · exact Or.inl (List.mem_of_mem_take hx)
    · rcases List.mem_cons.mp hx with hx | hx
      · exact Or.inr hx
      · exact Or.inl (List.mem_of_mem_drop hx)
  refine ⟨⟨?_, ?_⟩, ?_⟩
  · apply sortedEdges_insert _ _ _ hs hlo
    intro x hx
    exact lt_of_le_of_ne (hhi x hx) (Ne.symm (hfresh rfl x (List.mem_of_mem_drop hx)))
  · intro x hx
    rcases hmem x hx with hx | hx
    · exact hl x hx
    · subst hx; exact hhead
  · intro x hx
    rcases hmem x hx with hx | hx
    · exact hch x hx
    · subst hx; exact hc

theorem replaceAt_pfx (n : node V) (path : List Nat) (m m' : node V)
    (hm : nodeAt n path = some m) (hp : m'.pfx = m.pfx) :
    (replaceAt n path m').pfx = n.pfx := by
  cases path with
  | nil =>
    rw [nodeAt_nil] at hm
    simp only [Option.some.injEq] at hm
    subst hm
    rw [replaceAt_nil, hp]
  | cons i is =>
    rw [nodeAt_cons] at hm
    split at hm
    · rename_i e he
      rw [replaceAt_cons_of n m' i is e he]
      rfl
    · exact absurd hm (by simp)

theorem replaceAt_leaf (n : node V) (path : List Nat) (m m' : node V)
    (hm : nodeAt n path = some m) (hp : path = [] → m'.leaf = m.leaf) :
    (replaceAt n path m').leaf = n.leaf := by
  cases path with
  | nil =>
    rw [nodeAt_nil] at hm
    simp only [Option.some.injEq] at hm
    subst hm
    rw [replaceAt_nil, hp rfl]
  | cons i is =>
    rw [nodeAt_cons] at hm
    split at hm
    · rename_i e he
      rw [replaceAt_cons_of n m' i is e he]
      rfl
    · exact absurd hm (by simp)

theorem hops_nodeAt_snoc {n : node V} {p : List Byte} {ns : List (node V)}
    {is : List Nat} {m : node V} {q : List Byte} (hh : Hops n p ns is m q)
    {e : Edge V} {i : Nat} (hg : getEdge m q = .ok (some e, i)) :
    nodeAt n (is ++ [i]) = some e.node := by
  induction hh with
  | nil n p =>
    obtain ⟨_, _, -, hmem, -⟩ := getEdge_some_mem n p e i hg
    rw [List.nil_append, nodeAt_cons_of n i [] e hmem, nodeAt_nil]
  | @cons n p e' i' ns is m q hg' _ _ ih =>
    obtain ⟨_, _, -, hmem, -⟩ := getEdge_some_mem n p e' i' hg'
    rw [List.cons_append, nodeAt_cons_of n i' _ e' hmem]
    exact ih hg

theorem inv_split (c0 b o : Byte) (cp lp op : List Byte) (l l' : Option (leaf V))
    (es : List (Edge V)) (hbo : b ≠ o) (hes : Inv (node.mk (o :: op) l' es)) :
    Inv (node.mk (c0 :: cp) none
      (if o ≤ b then
        [(⟨o, node.mk (o :: op) l' es⟩ : Edge V), ⟨b, node.mk (b :: lp) l []⟩]
      else
        [⟨b, node.mk (b :: lp) l []⟩, ⟨o, node.mk (o :: op) l' es⟩])) := by
  rw [inv_iff]
  by_cases h : o ≤ b
  · simp only [h, if_true, node_edges_mk]
    have hlt : o < b := lt_of_le_of_ne h (Ne.symm hbo)
    refine ⟨⟨?_, ?_⟩, ?_⟩
    · unfold SortedEdges
      simp [hlt]
    · intro x hx
      simp only [node_edges_mk, List.mem_cons, List.not_mem_nil, or_false] at hx
      rcases hx with hx | hx <;> subst hx <;> rfl
    · intro x hx
      simp only [node_edges_mk, List.mem_cons, List.not_mem_nil, or_false] at hx
      rcases hx with hx | hx <;> subst hx
      · exact hes
      · exact inv_no_edges _ _
  · simp only [h, if_false, node_edges_mk]
    have hlt : b < o := lt_of_not_le h
    refine ⟨⟨?_, ?_⟩, ?_⟩
    · unfold SortedEdges
      simp [hlt]
    · intro x hx
      simp only [node_edges_mk, List.mem_cons, List.not_mem_nil, or_false] at hx
      rcases hx with hx | hx <;> subst hx <;> rfl
    · intro x hx
      simp only [node_edges_mk, List.mem_cons, List.not_mem_nil, or_false] at hx
      rcases hx with hx | hx <;> subst hx
      · exact inv_no_edges _ _
      · exact hes

theorem inv_set (n : node V) (i : Nat) (e : Edge V) (c : node V) (hn : Inv n)
    (hi : n.edges[i]? = some e) (hc : Inv c) (hhead : c.pfx.head? = some e.label) :
    Inv (node.mk n.pfx n.leaf (n.edges.set i ⟨e.label, c⟩)) := by
  rw [inv_iff] at hn ⊢
  obtain ⟨⟨hs, hl⟩, hch⟩ := hn
  refine ⟨⟨sortedEdges_set _ i e _ hs hi rfl, ?_⟩, ?_⟩
  · intro x hx
    rcases List.mem_or_eq_of_mem_set hx with hx | hx
    · exact hl x hx
    · subst hx; exact hhead
  · intro x hx
    rcases List.mem_or_eq_of_mem_set hx with hx | hx
    · exact hch x hx
    · subst hx; exact hc

theorem shaped_of_edges (n n' : node V) (h : Shaped n) (he : n'.edges = n.edges) :
    Shaped n' := by
  rw [shaped_iff] at h ⊢
  unfold ShapedNode at h ⊢
  rw [he]; exact h

theorem shaped_no_edges (p : List Byte) (l : Option (leaf V)) : Shaped (node.mk p l []) := by
  rw [shaped_iff]
  refine ⟨⟨List.Pairwise.nil, ?_⟩, ?_⟩ <;> intro e he <;> exact absurd he (by simp)

theorem shaped_addEdge (n : node V) (b : Byte) (q : List Byte) (j : Nat) (c : node V)
    (hn : Shaped n) (hg : getEdge n (b :: q) = .ok (none, j)) (hc : Shaped c)
    (hne : c.pfx ≠ []) :
    Shaped (node.mk n.pfx n.leaf (n.edges.take j ++ ⟨b, c⟩ :: n.edges.drop j)) := by
  rw [shaped_iff] at hn ⊢
  obtain ⟨⟨hs, hl⟩, hch⟩ := hn
  obtain ⟨hlo, hhi, hfresh⟩ := getEdge_sorted n hs b q none j hg
  have hmem : ∀ x ∈ n.edges.take j ++ (⟨b, c⟩ : Edge V) :: n.edges.drop j,
      x ∈ n.edges ∨ x = ⟨b, c⟩ := by
    intro x hx
    rcases List.mem_append.mp hx with hx | hx
    · exact Or.inl (List.mem_of_mem_take hx)
    · rcases List.mem_cons.mp hx with hx | hx
      · exact Or.inr hx
      · exact Or.inl (List.mem_of_mem_drop hx)
  refine ⟨⟨?_, ?_⟩, ?_⟩
  · apply sortedEdges_insert _ _ _ hs hlo
    intro x hx
    exact lt_of_le_of_ne (hhi x hx) (Ne.symm (hfresh rfl x (List.mem_of_mem_drop hx)))
  · intro x hx
    rcases hmem x hx with hx | hx
    · exact hl x hx
    · subst hx; exact hne
  · intro x hx
    rcases hmem x hx with hx | hx
    · exact hch x hx
    · subst hx; exact hc

theorem shaped_split (c0 b o : Byte) (cp lp op : List Byte) (l l' : Option (leaf V))
    (es : List (Edge V)) (hbo : b ≠ o) (hes : Shaped (node.mk (o :: op) l' es)) :
    Shaped (node.mk (c0 :: cp) none
      (if o ≤ b then
        [(⟨o, node.mk (o :: op) l' es⟩ : Edge V), ⟨b, node.mk (b :: lp) l []⟩]
      else
        [⟨b, node.mk (b :: lp) l []⟩, ⟨o, node.mk (o :: op) l' es⟩])) := by
  rw [shaped_iff]
  by_cases h : o ≤ b
  · simp only [h, if_true, node_edges_mk]
    have hlt : o < b := lt_of_le_of_ne h (Ne.symm hbo)
    refine ⟨⟨?_, ?_⟩, ?_⟩
    · unfold SortedEdges
      simp [hlt]
    · intro x hx
      simp only [node_edges_mk, List.mem_cons, List.not_mem_nil, or_false] at hx
      rcases hx with hx | hx <;> subst hx <;> simp
    · intro x hx
      simp only [node_edges_mk, List.mem_cons, List.not_mem_nil, or_false] at hx
      rcases hx with hx | hx <;> subst hx
      · exact hes
      · exact shaped_no_edges _ _
  · simp only [h, if_false, node_edges_mk]
    have hlt : b < o := lt_of_not_le h
    refine ⟨⟨?_, ?_⟩, ?_⟩
    · unfold SortedEdges
      simp [hlt]
    · intro x hx
      simp only [node_edges_mk, List.mem_cons, List.not_mem_nil, or_false] at hx
      rcases hx with hx | hx <;> subst hx <;> simp
    · intro x hx
      simp only [node_edges_mk, List.mem_cons, List.not_mem_nil, or_false] at hx
      rcases hx with hx | hx <;> subst hx
      · exact shaped_no_edges _ _
      · exact hes

theorem shaped_set (n : node V) (i : Nat) (e : Edge V) (c : node V) (hn : Shaped n)
    (hi : n.edges[i]? = some e) (hc : Shaped c) (hne : c.pfx ≠ []) :
    Shaped (node.mk n.pfx n.leaf (n.edges.set i ⟨e.label, c⟩)) := by
  rw [shaped_iff] at hn ⊢
  obtain ⟨⟨hs, hl⟩, hch⟩ := hn
  refine ⟨⟨sortedEdges_set _ i e _ hs hi rfl, ?_⟩, ?_⟩
  · intro x hx
    rcases List.mem_or_eq_of_mem_set hx with hx | hx
    · exact hl x hx
    · subst hx; exact hne
  · intro x hx
    rcases List.mem_or_eq_of_mem_set hx with hx | hx
    · exact hch x hx
    · subst hx; exact hc

/-- `Insert` keeps the shape invariants, the empty root prefix and the leafless
root, whatever the bytes of the prefixes are. -/
theorem Insert_shaped (t : Tree V) (key : List Byte) (val : V) (t' : Tree V)
    (hs : Shaped t.root) (hroot : t.root.pfx = []) (h : Insert t key val = .ok t') :
    Shaped t'.root ∧ t'.root.pfx = [] ∧ t'.root.leaf = t.root.leaf := by
  rcases Insert_cases t key val t' hroot h with
    ⟨k0, rest, j, hk, hg, ht⟩ | ⟨ns0, is0, parent, r, e, i, hh, hg, hex, ht⟩ |
    ⟨ns0, is0, parent, r, e, i, b, lp, j, hh, hg, hr, hs', ht⟩ |
    ⟨ns0, is0, parent, r, e, i, c0, b, o, cp, lp, op, hh, hg, hr, hm, hbo, hlen, hstop, ht⟩
  · subst ht
    refine ⟨?_, hroot, rfl⟩
    rw [hk] at hg
    exact shaped_addEdge t.root k0 rest j _ hs hg (shaped_no_edges _ _) (by rw [hk]; simp)
  · subst ht
    have hat := hops_nodeAt_snoc hh hg
    refine ⟨replaceAt_shaped _ _ e.node _ hs hat ?_ (by rw [hex]; exact id), ?_, ?_⟩
    · exact shaped_of_edges e.node _ (shaped_nodeAt _ _ _ hs hat) rfl
    · exact (replaceAt_pfx _ _ e.node _ hat (by rw [hex]; rfl)).trans hroot
    · exact replaceAt_leaf _ _ e.node _ hat (by intro hc; simp at hc)
  · subst ht
    have hat := hops_nodeAt_snoc hh hg
    have hie := shaped_nodeAt _ _ _ hs hat
    refine ⟨replaceAt_shaped _ _ e.node _ hs hat ?_ id, ?_, ?_⟩
    · exact shaped_addEdge e.node b lp j _ hie hs' (shaped_no_edges _ _) (by simp)
    · exact (replaceAt_pfx _ _ e.node (node.mk e.node.pfx _ _) hat rfl).trans hroot
    · exact replaceAt_leaf _ _ e.node _ hat (by intro hc; simp at hc)
  · subst ht
    have hat := hops_nodeAt hh
    have hip := shaped_nodeAt _ _ _ hs hat
    obtain ⟨b', q', hrb, hmem, hlab⟩ := getEdge_some_mem parent r e i hg
    have hc0 : e.label = c0 := by
      rw [hr] at hrb
      simp only [List.cons_append, List.cons.injEq] at hrb
      rw [hlab, ← hrb.1]
    have hie : Shaped e.node := ((shaped_iff parent).mp hip).2 e (List.getElem?_mem hmem)
    refine ⟨replaceAt_shaped _ _ parent _ hs hat ?_ id, ?_, ?_⟩
    · rw [← hc0]
      apply shaped_set parent i e _ hip hmem
      · rw [hc0]
        exact shaped_split c0 b o cp lp op _ _ _ hbo (shaped_of_edges e.node _ hie rfl)
      · simp
    · exact (replaceAt_pfx _ _ parent (node.mk parent.pfx _ _) hat rfl).trans hroot
    · exact replaceAt_leaf _ _ parent _ hat (by intro _; rfl)

/-- `Insert` keeps the edge invariants, the empty root prefix and the leafless root. -/
theorem Insert_inv (t : Tree V) (key : List Byte) (val : V) (t' : Tree V)
    (hinv : Inv t.root) (hroot : t.root.pfx = []) (h : Insert t key val = .ok t') :
    Inv t'.root ∧ t'.root.pfx = [] ∧ t'.root.leaf = t.root.leaf := by
  rcases Insert_cases t key val t' hroot h with
    ⟨k0, rest, j, hk, hg, ht⟩ | ⟨ns0, is0, parent, r, e, i, hh, hg, hex, ht⟩ |
    ⟨ns0, is0, parent, r, e, i, b, lp, j, hh, hg, hr, hs, ht⟩ |
    ⟨ns0, is0, parent, r, e, i, c0, b, o, cp, lp, op, hh, hg, hr, hm, hbo, hlen, hstop, ht⟩
  · subst ht
    refine ⟨?_, hroot, rfl⟩
    rw [hk] at hg
    exact inv_addEdge t.root k0 rest j _ hinv hg (inv_no_edges _ _) (by rw [hk]; rfl)
  · subst ht
    have hat := hops_nodeAt_snoc hh hg
    refine ⟨replaceAt_inv _ _ e.node _ hinv hat ?_ (by rw [hex]; rfl), ?_, ?_⟩
    · exact inv_of_edges e.node _ (inv_nodeAt _ _ _ hinv hat) rfl
    · exact (replaceAt_pfx _ _ e.node _ hat (by rw [hex]; rfl)).trans hroot
    · exact replaceAt_leaf _ _ e.node _ hat (by intro hc; simp at hc)
  · subst ht
    have hat := hops_nodeAt_snoc hh hg
    have hie := inv_nodeAt _ _ _ hinv hat
    refine ⟨replaceAt_inv _ _ e.node _ hinv hat ?_ rfl, ?_, ?_⟩
    · exact inv_addEdge e.node b lp j _ hie hs (inv_no_edges _ _) rfl
    · exact (replaceAt_pfx _ _ e.node (node.mk e.node.pfx _ _) hat rfl).trans hroot
    · exact replaceAt_leaf _ _ e.node _ hat (by intro hc; simp at hc)
  · subst ht
    have hat := hops_nodeAt hh
    have hip := inv_nodeAt _ _ _ hinv hat
    obtain ⟨b', q', hrb, hmem, hlab⟩ := getEdge_some_mem parent r e i hg
    have hc0 : e.label = c0 := by
      rw [hr] at hrb
      simp only [List.cons_append, List.cons.injEq] at hrb
      rw [hlab, ← hrb.1]
    have hie : Inv e.node := ((inv_iff parent).mp hip).2 e (List.getElem?_mem hmem)
    refine ⟨replaceAt_inv _ _ parent _ hinv hat ?_ rfl, ?_, ?_⟩
    · rw [← hc0]
      apply inv_set parent i e _ hip hmem
      · rw [hc0]
        exact inv_split c0 b o cp lp op _ _ _ hbo (inv_of_edges e.node _ hie rfl)
      · rw [hc0]; rfl
    · exact (replaceAt_pfx _ _ parent (node.mk parent.pfx _ _) hat rfl).trans hroot
    · exact replaceAt_leaf _ _ parent _ hat (by intro _; rfl)

theorem reachable_inv (t : Tree V) (h : Reachable t) :
    Inv t.root ∧ t.root.pfx = [] ∧ t.root.leaf = none := by
  induction h with
  | new => exact ⟨inv_no_edges _ _, rfl, rfl⟩
  | insert key val _ hins ih =>
    obtain ⟨h1, h2, h3⟩ := Insert_inv _ key val _ ih.1 ih.2.1 hins
    exact ⟨h1, h2, by rw [h3]; exact ih.2.2⟩

theorem getEdge_no_edges (p : List Byte) (l : Option (leaf V)) (b : Byte) (q : List Byte) :
    getEdge (node.mk p l []) (b :: q) = .ok (none, 0) := rfl

theorem getEdge_single_hit (p : List Byte) (l : Option (leaf V)) (b : Byte) (c : node V)
    (q : List Byte) :
    getEdge (node.mk p l [⟨b, c⟩]) (b :: q) = .ok (some ⟨b, c⟩, 0) := by
  have hg : sortSearch 1 (geLabel [(⟨b, c⟩ : Edge V)] b) = 0 := by
    simp [sortSearch, sortSearchLoop, geLabel]
  rw [getEdge_eq]
  simp [hg]

theorem replaceAt_single (p : List Byte) (l : Option (leaf V)) (e : Edge V) (m : node V) :
    replaceAt (node.mk p l [e]) [0] m = node.mk p l [⟨e.label, m⟩] := by
  rw [replaceAt_cons_of (node.mk p l [e]) m 0 [] e rfl, replaceAt_nil]
  rfl

/-- Inserting `k0 :: rest` into a root without an edge labelled `k0` adds a
leaf edge to the root and keeps the root edges sorted. -/
theorem Insert_fresh_root (es : List (Edge V)) (k0 : Byte) (rest : List Byte) (val : V)
    (hs : SortedEdges es) (hfresh : ∀ e ∈ es, e.label ≠ k0) :
    ∃ es', Insert ⟨node.mk [] none es⟩ (k0 :: rest) val = .ok ⟨node.mk [] none es'⟩ ∧
      SortedEdges es' ∧
      es'.Perm (⟨k0, node.mk (k0 :: rest) (some ⟨k0 :: rest, val⟩) []⟩ :: es) := by
  obtain ⟨r, j, hg, -, hsome, -⟩ := getEdge_ok (node.mk [] none es) k0 rest
  cases r with
  | some e =>
    obtain ⟨h1, h2⟩ := hsome e rfl
    exact absurd h2 (hfresh e (List.getElem?_mem h1))
  | none =>
    obtain ⟨hlo, hhi, -⟩ := getEdge_sorted (node.mk [] none es) hs k0 rest none j hg
    refine ⟨_, Insert_stop_root ⟨node.mk [] none es⟩ k0 rest val j hg, ?_, ?_⟩
    · apply sortedEdges_insert _ _ _ hs hlo
      intro x hx
      exact lt_of_le_of_ne (hhi x hx) (Ne.symm (hfresh x (List.mem_of_mem_drop hx)))
    · simp only [node_edges_mk]
      refine List.perm_middle.trans ?_
      rw [List.take_append_drop]

theorem insert_single_aux (k0 : Byte) (rest : List Byte) (v : V) :
    Insert (New : Tree V) (k0 :: rest) v =
      .ok ⟨node.mk [] none [⟨k0, node.mk (k0 :: rest) (some ⟨k0 :: rest, v⟩) []⟩]⟩ :=
  Insert_stop_root New k0 rest v 0 (getEdge_no_edges [] none k0 rest)

theorem insertAll_cons (t : Tree V) (kv : List Byte × V) (rest : List (List Byte × V))
    (t' : Tree V) (h : Insert t kv.1 kv.2 = .ok t') :
    insertAll t (kv :: rest) = insertAll t' rest := by
  simp only [insertAll, h]

theorem leafEdge_cons (k0 : Byte) (rest : List Byte) (v : V) :
    leafEdge (k0 :: rest, v) = ⟨k0, node.mk (k0 :: rest) (some ⟨k0 :: rest, v⟩) []⟩ := rfl

theorem insertAll_fresh : ∀ (kvs : List (List Byte × V)) (es : List (Edge V)),
    SortedEdges es → (∀ kv ∈ kvs, kv.1 ≠ []) →
    (kvs.map (fun kv => kv.1.head?)).Nodup →
    (∀ e ∈ es, ∀ kv ∈ kvs, kv.1.head? ≠ some e.label) →
    ∃ es', insertAll ⟨node.mk [] none es⟩ kvs = .ok ⟨node.mk [] none es'⟩ ∧
      SortedEdges es' ∧ es'.Perm (kvs.map leafEdge ++ es) := by
  intro kvs
  induction kvs with
  | nil => intro es hs _ _ _; exact ⟨es, rfl, hs, List.Perm.refl _⟩
  | cons kv kvs ih =>
    intro es hs hne hnd hfresh
    obtain ⟨k, v⟩ := kv
    cases k with
    | nil => exact absurd rfl (hne _ (List.mem_cons_self _ _))
    | cons k0 rest =>
      rw [List.map_cons, List.nodup_cons] at hnd
      obtain ⟨hk0, hnd'⟩ := hnd
      have hfr : ∀ e ∈ es, e.label ≠ k0 := by
        intro e he hl
        exact hfresh e he _ (List.mem_cons_self _ _) (by rw [hl]; rfl)
      obtain ⟨es1, hins, hs1, hp1⟩ := Insert_fresh_root es k0 rest v hs hfr
      have hfresh1 : ∀ e ∈ es1, ∀ kv ∈ kvs, kv.1.head? ≠ some e.label := by
        intro e he kv hkv
        rcases List.mem_cons.mp (hp1.mem_iff.mp he) with h | h
        · subst h
          intro hc
          apply hk0
          rw [List.mem_map]
          exact ⟨kv, hkv, hc⟩
        · exact hfresh e h kv (List.mem_cons_of_mem _ hkv)
      obtain ⟨es2, hall, hs2, hp2⟩ := ih es1 hs1
        (fun kv hkv => hne kv (List.mem_cons_of_mem _ hkv)) hnd' hfresh1
      refine ⟨es2, ?_, hs2, ?_⟩
      · rw [insertAll_cons _ (k0 :: rest, v) kvs _ hins]; exact hall
      · refine hp2.trans ?_
        rw [List.map_cons, leafEdge_cons, List.cons_append]
        exact (List.Perm.append_left _ hp1).trans List.perm_middle

/-- C7. Single insertion: `New()` followed by `Insert(K, V)` with `K` non-empty
yields exactly the tree whose root has empty prefix, no leaf and a single edge
labelled `K[0]`, leading to a node with prefix `K`, leaf `{K, V}` and no edges. -/
theorem insert_single (k0 : Byte) (rest : List Byte) (v : V) :
    Insert (New : Tree V) (k0 :: rest) v =
      .ok ⟨node.mk [] none [⟨k0, node.mk (k0 :: rest) (some ⟨k0 :: rest, v⟩) []⟩]⟩ :=
  Insert_stop_root New k0 rest v 0 (getEdge_no_edges [] none k0 rest)

/-- Extension without split, on the bytes: `Insert` of a non-empty `K1` and then
of `K1 ++ s` with `s` non-empty into an empty tree leaves the node of `K1` with
prefix `K1` and leaf `{K1, V1}` and gives it exactly one edge, labelled `s[0]`,
to a node with prefix `s`, leaf `{K1 ++ s, V2}` and no edges; the root keeps one
edge. -/
theorem insert_extension (k0 : Byte) (rest : List Byte) (s0 : Byte) (srest : List Byte)
    (v1 v2 : V) :
    ∃ t1 : Tree V, Insert New (k0 :: rest) v1 = .ok t1 ∧
      Insert t1 ((k0 :: rest) ++ s0 :: srest) v2 =
        .ok ⟨node.mk [] none [⟨k0, node.mk (k0 :: rest) (some ⟨k0 :: rest, v1⟩)
          [⟨s0, node.mk (s0 :: srest)
            (some ⟨(k0 :: rest) ++ s0 :: srest, v2⟩) []⟩]⟩]⟩ := by
  refine ⟨_, insert_single_aux k0 rest v1, ?_⟩
  have hg : getEdge (node.mk [] none
      [(⟨k0, node.mk (k0 :: rest) (some ⟨k0 :: rest, v1⟩) []⟩ : Edge V)])
      ((k0 :: rest) ++ s0 :: srest) =
      .ok (some ⟨k0, node.mk (k0 :: rest) (some ⟨k0 :: rest, v1⟩) []⟩, 0) :=
    getEdge_single_hit [] none k0 _ _
  rw [Insert_extend _ _ v2 [] [] _ _ _ 0 s0 srest 0 (Hops.nil _ _) hg rfl rfl
    (getEdge_no_edges _ _ s0 srest)]
  simp only [List.nil_append, node_pfx_mk, node_leaf_mk, node_edges_mk, List.take_nil,
    List.drop_nil, replaceAt_single]

/-- Keys with pairwise distinct first bytes, as long as the bytes of inserted
keys are left alone: for a list of non-empty keys whose first bytes are
pairwise distinct, inserting them into an empty tree in any order yields the
same tree: a root whose edges are strictly ascending by label and are exactly
the leaf edges of the keys (label the first byte, child with the whole key as
prefix, its leaf, and no edges). -/
theorem insert_distinct_first_bytes (kvs : List (List Byte × V))
    (hne : ∀ kv ∈ kvs, kv.1 ≠ [])
    (hnd : (kvs.map (fun kv => kv.1.head?)).Nodup) :
    ∃ es : List (Edge V), SortedEdges es ∧ es.Perm (kvs.map leafEdge) ∧
      ∀ kvs' : List (List Byte × V), kvs'.Perm kvs →
        insertAll New kvs' = .ok ⟨node.mk [] none es⟩ := by
  obtain ⟨es, -, hs, hp⟩ := insertAll_fresh kvs [] List.Pairwise.nil hne hnd
    (by intro e he; exact absurd he (by simp))
  rw [List.append_nil] at hp
  refine ⟨es, hs, hp, ?_⟩
  intro kvs' hperm
  obtain ⟨es', hall, hs', hp'⟩ := insertAll_fresh kvs' [] List.Pairwise.nil
    (fun kv hkv => hne kv (hperm.mem_iff.mp hkv))
    ((hperm.map _).nodup_iff.mpr hnd)
    (by intro e he; exact absurd he (by simp))
  rw [List.append_nil] at hp'
  have hpp : es'.Perm es := hp'.trans ((hperm.map _).trans hp.symm)
  haveI : IsAntisymm (Edge V) (fun a b => a.label < b.label) :=
    ⟨fun a b h1 h2 => absurd h1 (lt_asymm h2)⟩
  have : es' = es := List.eq_of_perm_of_sorted hpp hs' hs
  rw [← this]; exact hall

/-- C5. Sibling ordering: in every tree obtained from `New()` by completed
`Insert` calls, the edges of every node are strictly ascending by label. -/
theorem edges_sorted_of_reachable (t : Tree V) (h : Reachable t) (path : List Nat)
    (n : node V) (hn : nodeAt t.root path = some n) : SortedEdges n.edges :=
  ((reachable_inv t h).1 path n hn).1

/-- Edge labels, as long as the bytes of inserted keys are left alone: in every
tree of `Reachable`, the child of every edge has a non-empty prefix whose first
byte is the label of the edge. -/
theorem edge_label_of_reachable (t : Tree V) (h : Reachable t) (path : List Nat)
    (n : node V) (hn : nodeAt t.root path = some n) :
    ∀ e ∈ n.edges, e.node.pfx ≠ [] ∧ e.node.pfx.head? = some e.label := by
  intro e he
  have := ((reachable_inv t h).1 path n hn).2 e he
  refine ⟨?_, this⟩
  intro hnil
  rw [hnil] at this
  exact absurd this (by simp)

theorem sorted_label_inj (es : List (Edge V)) (hs : SortedEdges es) (i j : Nat)
    (e e' : Edge V) (hi : es[i]? = some e) (hj : es[j]? = some e')
    (hl : e.label = e'.label) : i = j := by
  have hi' : i < es.length := by
    by_contra hc
    rw [List.getElem?_eq_none (Nat.le_of_not_lt hc)] at hi
    exact absurd hi (by simp)
  have hj' : j < es.length := by
    by_contra hc
    rw [List.getElem?_eq_none (Nat.le_of_not_lt hc)] at hj
    exact absurd hj (by simp)
  rw [List.getElem?_eq_getElem hi'] at hi
  rw [List.getElem?_eq_getElem hj'] at hj
  simp only [Option.some.injEq] at hi hj
  rcases Nat.lt_trichotomy i j with h | h | h
  · have := (List.pairwise_iff_getElem.mp hs) i j hi' hj' h
    rw [hi, hj, hl] at this
    exact absurd this (lt_irrefl _)
  · exact h
  · have := (List.pairwise_iff_getElem.mp hs) j i hj' hi' h
    rw [hi, hj, hl] at this
    exact absurd this (lt_irrefl _)

/-- On a sorted node `getEdge` finds the edge with a given label. -/
theorem getEdge_found (n : node V) (hs : SortedEdges n.edges) (i : Nat) (e : Edge V)
    (b : Byte) (q : List Byte) (hi : n.edges[i]? = some e) (hl : e.label = b) :
    getEdge n (b :: q) = .ok (some e, i) := by
  obtain ⟨r, idx, hg, -, hsome, -⟩ := getEdge_ok n b q
  obtain ⟨-, -, hnone⟩ := getEdge_sorted n hs b q r idx hg
  cases r with
  | none => exact absurd hl (hnone rfl e (List.getElem?_mem hi))
  | some e' =>
    obtain ⟨h1, h2⟩ := hsome e' rfl
    have hidx : idx = i := sorted_label_inj n.edges hs idx i e' e h1 hi (by rw [h2, hl])
    subst hidx
    rw [hi] at h1
    simp only [Option.some.injEq] at h1
    subst h1
    exact hg

theorem geLabel_set (es : List (Edge V)) (i : Nat) (e e' : Edge V) (p : Byte)
    (hi : es[i]? = some e) (hl : e'.label = e.label) :
    geLabel (es.set i e') p = geLabel es p := by
  funext k
  unfold geLabel
  rw [List.getElem?_set]
  by_cases hik : i = k
  · subst hik
    have hlt : i < es.length := by
      by_contra hc
      rw [List.getElem?_eq_none (Nat.le_of_not_lt hc)] at hi
      exact absurd hi (by simp)
    simp only [if_true, hlt, hi, hl]
  · simp only [hik, if_false]

/-- Replacing the child of an edge, keeping its label, does not change what
`getEdge` finds. -/
theorem getEdge_set (n : node V) (p : List Byte) (e : Edge V) (i : Nat) (c : node V)
    (hg : getEdge n p = .ok (some e, i)) :
    getEdge (node.mk n.pfx n.leaf (n.edges.set i ⟨e.label, c⟩)) p =
      .ok (some ⟨e.label, c⟩, i) := by
  obtain ⟨b, q, hp, hmem, hlab⟩ := getEdge_some_mem n p e i hg
  subst hp
  have hlt : i < n.edges.length := by
    by_contra hc
    rw [List.getElem?_eq_none (Nat.le_of_not_lt hc)] at hmem
    exact absurd hmem (by simp)
  have hidx : i = sortSearch n.edges.length (geLabel n.edges b) := by
    rw [getEdge_eq] at hg
    split at hg
    · simp only [Except.ok.injEq, Prod.mk.injEq] at hg
      exact absurd hg.1 (by simp)
    · split at hg
      · exact absurd hg (by simp)
      · split at hg <;> simp only [Except.ok.injEq, Prod.mk.injEq] at hg
        · exact absurd hg.1 (by simp)
        · exact hg.2.symm
  have hge : geLabel (n.edges.set i ⟨e.label, c⟩) b = geLabel n.edges b :=
    geLabel_set n.edges i e _ b hmem rfl
  rw [getEdge_eq]
  simp only [node_edges_mk, List.length_set, hge, ← hidx]
  simp only [ge_iff_le, not_le.mpr hlt, if_false, List.getElem?_set, if_true, hlt, hlab, ne_eq,
    not_true_eq_false]

theorem list_set_length {α : Type} (l1 l2 : List α) (a b : α) :
    (l1 ++ a :: l2).set l1.length b = l1 ++ b :: l2 := by
  induction l1 with
  | nil => rfl
  | cons x l1 ih => simp only [List.cons_append, List.length_cons, List.set_cons_succ, ih]

theorem list_get_length {α : Type} (l1 l2 : List α) (a : α) :
    (l1 ++ a :: l2)[l1.length]? = some a := by
  induction l1 with
  | nil => simp
  | cons x l1 ih => simp only [List.cons_append, List.length_cons, List.getElem?_cons_succ, ih]

theorem list_set_middle {α : Type} (l : List α) (j : Nat) (a b : α) (hj : j ≤ l.length) :
    (l.take j ++ a :: l.drop j).set j b = l.take j ++ b :: l.drop j := by
  have hlen : (l.take j).length = j := by rw [List.length_take]; omega
  have := list_set_length (l.take j) (l.drop j) a b
  rw [hlen] at this
  exact this

theorem list_get_middle {α : Type} (l : List α) (j : Nat) (a : α) (hj : j ≤ l.length) :
    (l.take j ++ a :: l.drop j)[j]? = some a := by
  have hlen : (l.take j).length = j := by rw [List.length_take]; omega
  have := list_get_length (l.take j) (l.drop j) a
  rw [hlen] at this
  exact this

theorem replaceAt_append : ∀ (is : List Nat) (n m a b : node V) (js : List Nat),
    nodeAt n is = some m →
    replaceAt (replaceAt n is a) (is ++ js) b = replaceAt n is (replaceAt a js b) := by
  intro is
  induction is with
  | nil =>
    intro n m a b js _
    rw [replaceAt_nil, replaceAt_nil, List.nil_append]
  | cons i is ih =>
    intro n m a b js hm
    rw [nodeAt_cons] at hm
    split at hm
    · rename_i e he
      have hlt : i < n.edges.length := by
        by_contra hc
        rw [List.getElem?_eq_none (Nat.le_of_not_lt hc)] at he
        exact absurd he (by simp)
      rw [replaceAt_cons_of n a i is e he, replaceAt_cons_of n _ i is e he, List.cons_append]
      rw [replaceAt_cons_of _ b i (is ++ js) ⟨e.label, replaceAt e.node is a⟩
        (by simp only [node_edges_mk, List.getElem?_set, if_true, hlt])]
      simp only [node_pfx_mk, node_leaf_mk, node_edges_mk, List.set_set]
      rw [ih e.node m a b js hm]
    · exact absurd hm (by simp)

theorem nodeAt_replaceAt : ∀ (is : List Nat) (n m a : node V) (js : List Nat),
    nodeAt n is = some m → nodeAt (replaceAt n is a) (is ++ js) = nodeAt a js := by
  intro is
  induction is with
  | nil =>
    intro n m a js _
    rw [replaceAt_nil, List.nil_append]
  | cons i is ih =>
    intro n m a js hm
    rw [nodeAt_cons] at hm
    split at hm
    · rename_i e he
      have hlt : i < n.edges.length := by
        by_contra hc
        rw [List.getElem?_eq_none (Nat.le_of_not_lt hc)] at he
        exact absurd he (by simp)
      rw [replaceAt_cons_of n a i is e he, List.cons_append]
      rw [nodeAt_cons_of _ i (is ++ js) ⟨e.label, replaceAt e.node is a⟩
        (by simp only [node_edges_mk, List.getElem?_set, if_true, hlt])]
      exact ih e.node m a js hm
    · exact absurd hm (by simp)

/-- The traversal reaches the replaced node through the same edges, provided
the replacement keeps the prefix length. -/
theorem hops_replace {n : node V} {p : List Byte} {ns : List (node V)}
    {is : List Nat} {m : node V} {q : List Byte} (hh : Hops n p ns is m q)
    (m' : node V) (hp : m'.pfx.length = m.pfx.length) :
    ∃ ns', Hops (replaceAt n is m') p ns' is m' q := by
  induction hh with
  | nil n p => exact ⟨[], by rw [replaceAt_nil]; exact Hops.nil m' p⟩
  | @cons n p e i ns is m q hg hlen hrest ih =>
    obtain ⟨ns', hh'⟩ := ih hp
    obtain ⟨b, q', -, hmem, -⟩ := getEdge_some_mem n p e i hg
    rw [replaceAt_cons_of n m' i is e hmem]
    have hg' := getEdge_set n p e i (replaceAt e.node is m') hg
    have hpl : (replaceAt e.node is m').pfx.length = e.node.pfx.length := by
      cases is with
      | nil =>
        obtain ⟨-, hm, -⟩ := hops_nil_inv hrest
        subst hm
        rw [replaceAt_nil]; exact hp
      | cons i' is' =>
        have hat := hops_nodeAt hrest
        rw [nodeAt_cons] at hat
        split at hat
        · rename_i e' he'
          rw [replaceAt_cons_of e.node m' i' is' e' he']; rfl
        · exact absurd hat (by simp)
    refine ⟨_ :: ns', Hops.cons hg' (by simp only [hpl]; exact hlen) ?_⟩
    simp only [hpl]
    exact hh'

theorem getEdge_idx_le (n : node V) (p : List Byte) (r : Option (Edge V)) (j : Nat)
    (h : getEdge n p = .ok (r, j)) : j ≤ n.edges.length := by
  cases p with
  | nil => rw [getEdge_nil] at h; exact absurd h (by simp)
  | cons b q =>
    obtain ⟨r', idx, h', hle, -, -⟩ := getEdge_ok n b q
    rw [h] at h'
    simp only [Except.ok.injEq, Prod.mk.injEq] at h'
    rw [h'.2]; exact hle

theorem getElem?_lt {α : Type} (l : List α) (i : Nat) (a : α) (h : l[i]? = some a) :
    i < l.length := by
  by_contra hc
  rw [List.getElem?_eq_none (Nat.le_of_not_lt hc)] at h
  exact absurd h (by simp)

/-- Assembling the statement of the idempotent update from a leaf overwrite in
the tree after the first insertion. -/
theorem twice_assemble (t1 : Tree V) (key : List Byte) (v1 v2 : V) (ns : List (node V))
    (is : List Nat) (parent : node V) (r : List Byte) (e : Edge V) (i : Nat)
    (hroot : t1.root.pfx = []) (hh : Hops t1.root key ns is parent r)
    (hg : getEdge parent r = .ok (some e, i)) (hex : e.node.pfx = r)
    (hleaf : e.node.leaf = some ⟨key, v1⟩) (X : Except Fault (Tree V))
    (hX : X = .ok ⟨replaceAt t1.root (is ++ [i])
      (node.mk r (some ⟨key, v2⟩) e.node.edges)⟩) :
    ∃ path m, nodeAt t1.root path = some m ∧ m.leaf = some ⟨key, v1⟩ ∧
      Insert t1 key v2 =
        .ok ⟨replaceAt t1.root path (node.mk m.pfx (some ⟨key, v2⟩) m.edges)⟩ ∧
      Insert t1 key v2 = X := by
  have hins := Insert_exact t1 key v2 ns is parent r e i hh hg hroot hex
  refine ⟨is ++ [i], e.node, hops_nodeAt_snoc hh hg, hleaf, ?_, ?_⟩
  · rw [hins, hex]
  · rw [hins, hX]

theorem twice_root (t : Tree V) (k0 : Byte) (rest : List Byte) (v1 v2 : V) (j : Nat)
    (hsh : Shaped t.root) (hroot : t.root.pfx = [])
    (hg : getEdge t.root (k0 :: rest) = .ok (none, j)) (t1 : Tree V)
    (h1 : Insert t (k0 :: rest) v1 = .ok t1) :
    ∃ path m, nodeAt t1.root path = some m ∧ m.leaf = some ⟨k0 :: rest, v1⟩ ∧
      Insert t1 (k0 :: rest) v2 =
        .ok ⟨replaceAt t1.root path (node.mk m.pfx (some ⟨k0 :: rest, v2⟩) m.edges)⟩ ∧
      Insert t1 (k0 :: rest) v2 = Insert t (k0 :: rest) v2 := by
  obtain ⟨hinv1, hroot1, -⟩ := Insert_shaped t _ v1 t1 hsh hroot h1
  have hj := getEdge_idx_le _ _ _ _ hg
  rw [Insert_stop_root t k0 rest v1 j hg] at h1
  simp only [Except.ok.injEq] at h1
  subst h1
  have hmem : (node.mk t.root.pfx t.root.leaf (t.root.edges.take j ++
      (⟨k0, node.mk (k0 :: rest) (some ⟨k0 :: rest, v1⟩) []⟩ : Edge V) ::
        t.root.edges.drop j)).edges[j]? =
      some ⟨k0, node.mk (k0 :: rest) (some ⟨k0 :: rest, v1⟩) []⟩ :=
    list_get_middle _ _ _ hj
  have hg1 := getEdge_found _ (hinv1 [] _ (nodeAt_nil _)).1 j _ k0 rest hmem rfl
  apply twice_assemble _ _ v1 v2 [] [] _ _ _ j hroot1 (Hops.nil _ _) hg1 rfl rfl
  rw [Insert_stop_root t k0 rest v2 j hg, List.nil_append, replaceAt_cons_of _ _ j [] _ hmem,
    replaceAt_nil]
  simp only [node_pfx_mk, node_leaf_mk, node_edges_mk, list_set_middle _ _ _ _ hj]

theorem replaceAt_path_append : ∀ (is : List Nat) (n m c : node V) (js : List Nat),
    nodeAt n is = some m → replaceAt n (is ++ js) c = replaceAt n is (replaceAt m js c) := by
  intro is
  induction is with
  | nil =>
    intro n m c js hm
    rw [nodeAt_nil] at hm
    simp only [Option.some.injEq] at hm
    subst hm
    rw [replaceAt_nil, List.nil_append]
  | cons i is ih =>
    intro n m c js hm
    rw [nodeAt_cons] at hm
    split at hm
    · rename_i e he
      rw [List.cons_append, replaceAt_cons_of n c i (is ++ js) e he,
        replaceAt_cons_of n _ i is e he, ih e.node m c js hm]
    · exact absurd hm (by simp)

/-- A replacement below an edge of the node `parent`, seen as a replacement of
`parent` itself. -/
theorem replaceAt_snoc (n parent : node V) (is0 : List Nat) (i : Nat) (e : Edge V)
    (c : node V) (hat : nodeAt n is0 = some parent) (hmem : parent.edges[i]? = some e) :
    replaceAt n (is0 ++ [i]) c =
      replaceAt n is0 (node.mk parent.pfx parent.leaf (parent.edges.set i ⟨e.label, c⟩)) := by
  rw [replaceAt_path_append is0 n parent c [i] hat, replaceAt_cons_of parent c i [] e hmem,
    replaceAt_nil]

theorem replaceAt_twice (n m a b : node V) (is : List Nat) (hat : nodeAt n is = some m) :
    replaceAt (replaceAt n is a) is b = replaceAt n is b := by
  have := replaceAt_append is n m a b [] hat
  rw [List.append_nil, replaceAt_nil] at this
  exact this

theorem twice_exact (t : Tree V) (key : List Byte) (v1 v2 : V) (ns0 : List (node V))
    (is0 : List Nat) (parent : node V) (r : List Byte) (e : Edge V) (i : Nat)
    (hsh : Shaped t.root) (hroot : t.root.pfx = [])
    (hh : Hops t.root key ns0 is0 parent r) (hg : getEdge parent r = .ok (some e, i))
    (hex : e.node.pfx = r) (t1 : Tree V) (h1 : Insert t key v1 = .ok t1) :
    ∃ path m, nodeAt t1.root path = some m ∧ m.leaf = some ⟨key, v1⟩ ∧
      Insert t1 key v2 =
        .ok ⟨replaceAt t1.root path (node.mk m.pfx (some ⟨key, v2⟩) m.edges)⟩ ∧
      Insert t1 key v2 = Insert t key v2 := by
  obtain ⟨hinv1, hroot1, -⟩ := Insert_shaped t _ v1 t1 hsh hroot h1
  rw [Insert_exact t key v1 ns0 is0 parent r e i hh hg hroot hex] at h1
  simp only [Except.ok.injEq] at h1
  subst h1
  have hat := hops_nodeAt hh
  obtain ⟨_, _, -, hmem, -⟩ := getEdge_some_mem parent r e i hg
  obtain ⟨ns', hh'⟩ := hops_replace hh (node.mk parent.pfx parent.leaf
    (parent.edges.set i ⟨e.label, node.mk r (some ⟨key, v1⟩) e.node.edges⟩)) rfl
  rw [← replaceAt_snoc t.root parent is0 i e _ hat hmem] at hh'
  have hg' := getEdge_set parent r e i (node.mk r (some ⟨key, v1⟩) e.node.edges) hg
  apply twice_assemble _ key v1 v2 ns' is0 _ r _ i hroot1 hh' hg' rfl rfl
  rw [Insert_exact t key v2 ns0 is0 parent r e i hh hg hroot hex]
  simp only [node_edges_mk]
  rw [replaceAt_twice t.root e.node _ _ _ (hops_nodeAt_snoc hh hg)]

theorem twice_extend (t : Tree V) (key : List Byte) (v1 v2 : V) (ns0 : List (node V))
    (is0 : List Nat) (parent : node V) (r : List Byte) (e : Edge V) (i : Nat)
    (b : Byte) (lp : List Byte) (j : Nat)
    (hsh : Shaped t.root) (hroot : t.root.pfx = [])
    (hh : Hops t.root key ns0 is0 parent r) (hg : getEdge parent r = .ok (some e, i))
    (hr : r = e.node.pfx ++ b :: lp) (hs : getEdge e.node (b :: lp) = .ok (none, j))
    (t1 : Tree V) (h1 : Insert t key v1 = .ok t1) :
    ∃ path m, nodeAt t1.root path = some m ∧ m.leaf = some ⟨key, v1⟩ ∧
      Insert t1 key v2 =
        .ok ⟨replaceAt t1.root path (node.mk m.pfx (some ⟨key, v2⟩) m.edges)⟩ ∧
      Insert t1 key v2 = Insert t key v2 := by
  obtain ⟨hinv1, hroot1, -⟩ := Insert_shaped t _ v1 t1 hsh hroot h1
  rw [Insert_extend t key v1 ns0 is0 parent r e i b lp j hh hg hroot hr hs] at h1
  simp only [Except.ok.injEq] at h1
  subst h1
  have hat := hops_nodeAt hh
  have hj := getEdge_idx_le _ _ _ _ hs
  obtain ⟨_, _, -, hmem, -⟩ := getEdge_some_mem parent r e i hg
  obtain ⟨ns', hh'⟩ := hops_replace hh (node.mk parent.pfx parent.leaf
    (parent.edges.set i ⟨e.label, node.mk e.node.pfx e.node.leaf (e.node.edges.take j ++
      ⟨b, node.mk (b :: lp) (some ⟨key, v1⟩) []⟩ :: e.node.edges.drop j)⟩)) rfl
  rw [← replaceAt_snoc t.root parent is0 i e _ hat hmem] at hh'
  have hg' := getEdge_set parent r e i (node.mk e.node.pfx e.node.leaf (e.node.edges.take j ++
      ⟨b, node.mk (b :: lp) (some ⟨key, v1⟩) []⟩ :: e.node.edges.drop j)) hg
  have hlen : e.node.pfx.length ≤ r.length := by rw [hr, List.length_append]; omega
  have hh2 := hops_snoc hh' hg' hlen
  have hdrop : r.drop e.node.pfx.length = b :: lp := by
    rw [hr]; exact List.drop_left _ _
  simp only [node_pfx_mk, hdrop] at hh2
  have hmem2 : (node.mk e.node.pfx e.node.leaf (e.node.edges.take j ++
      (⟨b, node.mk (b :: lp) (some ⟨key, v1⟩) []⟩ : Edge V) :: e.node.edges.drop j)).edges[j]? =
      some ⟨b, node.mk (b :: lp) (some ⟨key, v1⟩) []⟩ :=
    list_get_middle _ _ _ hj
  have hg2 := getEdge_found _ (hinv1 _ _ (hops_nodeAt hh2)).1 j _ b lp hmem2 rfl
  apply twice_assemble _ key v1 v2 _ _ _ _ _ j hroot1 hh2 hg2 rfl rfl
  rw [Insert_extend t key v2 ns0 is0 parent r e i b lp j hh hg hroot hr hs]
  simp only [node_edges_mk]
  rw [replaceAt_append (is0 ++ [i]) t.root e.node _ _ [j] (hops_nodeAt_snoc hh hg),
    replaceAt_cons_of _ _ j [] _ hmem2, replaceAt_nil]
  simp only [node_pfx_mk, node_leaf_mk, node_edges_mk, list_set_middle _ _ _ _ hj]

theorem twice_split (t : Tree V) (key : List Byte) (v1 v2 : V) (ns0 : List (node V))
    (is0 : List Nat) (parent : node V) (r : List Byte) (e : Edge V) (i : Nat)
    (c0 b o : Byte) (cp lp op : List Byte)
    (hsh : Shaped t.root) (hroot : t.root.pfx = [])
    (hh : Hops t.root key ns0 is0 parent r) (hg : getEdge parent r = .ok (some e, i))
    (hr : r = (c0 :: cp) ++ b :: lp) (hm : e.node.pfx = (c0 :: cp) ++ o :: op) (hbo : b ≠ o)
    (hlen : e.node.pfx.length ≤ r.length) (hstop : Stop e.node (r.drop e.node.pfx.length))
    (t1 : Tree V) (h1 : Insert t key v1 = .ok t1) :
    ∃ path m, nodeAt t1.root path = some m ∧ m.leaf = some ⟨key, v1⟩ ∧
      Insert t1 key v2 =
        .ok ⟨replaceAt t1.root path (node.mk m.pfx (some ⟨key, v2⟩) m.edges)⟩ ∧
      Insert t1 key v2 = Insert t key v2 := by
  obtain ⟨hinv1, hroot1, -⟩ := Insert_shaped t _ v1 t1 hsh hroot h1
  rw [Insert_split t key v1 ns0 is0 parent r e i c0 b o cp lp op hh hg hroot hr hm hbo hlen
    hstop] at h1
  simp only [Except.ok.injEq] at h1
  subst h1
  have hat := hops_nodeAt hh
  obtain ⟨b', q', hrb, hmem, hlab⟩ := getEdge_some_mem parent r e i hg
  have hc0 : e.label = c0 := by
    rw [hr] at hrb
    simp only [List.cons_append, List.cons.injEq] at hrb
    rw [hlab, ← hrb.1]
  have hlt := getElem?_lt _ _ _ hmem
  rw [Insert_split t key v2 ns0 is0 parent r e i c0 b o cp lp op hh hg hroot hr hm hbo hlen
    hstop]
  have hl1 : (c0 :: cp).length ≤ r.length := by rw [hr, List.length_append]; omega
  have hd1 : r.drop (c0 :: cp).length = b :: lp := by rw [hr]; exact List.drop_left _ _
  by_cases hob : o ≤ b
  · simp only [hob, if_true] at hinv1 hroot1 ⊢
    obtain ⟨ns', hh'⟩ := hops_replace hh (node.mk parent.pfx parent.leaf
      (parent.edges.set i ⟨c0, node.mk (c0 :: cp) none
        [⟨o, node.mk (o :: op) e.node.leaf e.node.edges⟩,
         ⟨b, node.mk (b :: lp) (some ⟨key, v1⟩) []⟩]⟩)) rfl
    have hg' := getEdge_set parent r e i (node.mk (c0 :: cp) none
        [⟨o, node.mk (o :: op) e.node.leaf e.node.edges⟩,
         ⟨b, node.mk (b :: lp) (some ⟨key, v1⟩) []⟩]) hg
    rw [hc0] at hg'
    have hh2 := hops_snoc hh' hg' hl1
    simp only [node_pfx_mk, hd1] at hh2
    have hmem2 : (node.mk (c0 :: cp) none
        [(⟨o, node.mk (o :: op) e.node.leaf e.node.edges⟩ : Edge V),
         ⟨b, node.mk (b :: lp) (some ⟨key, v1⟩) []⟩]).edges[1]? =
        some ⟨b, node.mk (b :: lp) (some ⟨key, v1⟩) []⟩ := rfl
    have hg2 := getEdge_found _ (hinv1 _ _ (hops_nodeAt hh2)).1 1 _ b lp hmem2 rfl
    apply twice_assemble _ key v1 v2 _ _ _ _ _ 1 hroot1 hh2 hg2 rfl rfl
    rw [List.append_assoc, replaceAt_append is0 t.root parent _ _ _ hat, List.singleton_append]
    rw [replaceAt_cons_of _ _ i [1] ⟨c0, _⟩
      (by simp only [node_edges_mk, List.getElem?_set, if_true, hlt]; rfl),
      replaceAt_cons_of _ _ 1 [] _ hmem2, replaceAt_nil]
    simp only [node_pfx_mk, node_leaf_mk, node_edges_mk, List.set_set, List.set_cons_succ,
      List.set_cons_zero]
  · simp only [hob, if_false] at hinv1 hroot1 ⊢
    obtain ⟨ns', hh'⟩ := hops_replace hh (node.mk parent.pfx parent.leaf
      (parent.edges.set i ⟨c0, node.mk (c0 :: cp) none
        [⟨b, node.mk (b :: lp) (some ⟨key, v1⟩) []⟩,
         ⟨o, node.mk (o :: op) e.node.leaf e.node.edges⟩]⟩)) rfl
    have hg' := getEdge_set parent r e i (node.mk (c0 :: cp) none
        [⟨b, node.mk (b :: lp) (some ⟨key, v1⟩) []⟩,
         ⟨o, node.mk (o :: op) e.node.leaf e.node.edges⟩]) hg
    rw [hc0] at hg'
    have hh2 := hops_snoc hh' hg' hl1
    simp only [node_pfx_mk, hd1] at hh2
    have hmem2 : (node.mk (c0 :: cp) none
        [(⟨b, node.mk (b :: lp) (some ⟨key, v1⟩) []⟩ : Edge V),
         ⟨o, node.mk (o :: op) e.node.leaf e.node.edges⟩]).edges[0]? =
        some ⟨b, node.mk (b :: lp) (some ⟨key, v1⟩) []⟩ := rfl
    have hg2 := getEdge_found _ (hinv1 _ _ (hops_nodeAt hh2)).1 0 _ b lp hmem2 rfl
    apply twice_assemble _ key v1 v2 _ _ _ _ _ 0 hroot1 hh2 hg2 rfl rfl
    rw [List.append_assoc, replaceAt_append is0 t.root parent _ _ _ hat, List.singleton_append]
    rw [replaceAt_cons_of _ _ i [0] ⟨c0, _⟩
      (by simp only [node_edges_mk, List.getElem?_set, if_true, hlt]; rfl),
      replaceAt_cons_of _ _ 0 [] _ hmem2, replaceAt_nil]
    simp only [node_pfx_mk, node_leaf_mk, node_edges_mk, List.set_set, List.set_cons_zero]

/-- Idempotent update, whatever the bytes of the prefixes are: on a tree with
the shape invariants, if `Insert(K, V1)` completes, then `Insert(K, V2)` on the
result completes as well and only overwrites the leaf written by the first
call. -/
theorem twice_shaped (t : Tree V) (hsh : Shaped t.root) (hroot : t.root.pfx = [])
    (key : List Byte) (v1 v2 : V) (t1 : Tree V) (h1 : Insert t key v1 = .ok t1) :
    ∃ path m, nodeAt t1.root path = some m ∧ m.leaf = some ⟨key, v1⟩ ∧
      Insert t1 key v2 =
        .ok ⟨replaceAt t1.root path (node.mk m.pfx (some ⟨key, v2⟩) m.edges)⟩ ∧
      Insert t1 key v2 = Insert t key v2 := by
  rcases Insert_cases t key v1 t1 hroot h1 with
    ⟨k0, rest, j, hk, hg, -⟩ | ⟨ns0, is0, parent, r, e, i, hh, hg, hex, -⟩ |
    ⟨ns0, is0, parent, r, e, i, b, lp, j, hh, hg, hr, hs, -⟩ |
    ⟨ns0, is0, parent, r, e, i, c0, b, o, cp, lp, op, hh, hg, hr, hm, hbo, hlen, hstop, -⟩
  · subst hk
    exact twice_root t k0 rest v1 v2 j hsh hroot hg t1 h1
  · exact twice_exact t key v1 v2 ns0 is0 parent r e i hsh hroot hh hg hex t1 h1
  · exact twice_extend t key v1 v2 ns0 is0 parent r e i b lp j hsh hroot hh hg hr hs t1 h1
  · exact twice_split t key v1 v2 ns0 is0 parent r e i c0 b o cp lp op hsh hroot hh hg hr hm
      hbo hlen hstop t1 h1

/-- Idempotent update, as long as the bytes of inserted keys are left alone: on
a tree of `Reachable`, if `Insert(K, V1)` completes, then `Insert(K, V2)` on the
result completes as well, and it only overwrites the leaf written by the first
call (at the node `m`, reached by `path`) with `{K, V2}`, creating no node and
no edge; the outcome is the same as that of `Insert(K, V2)` on the original
tree. -/
theorem insert_twice (t : Tree V) (h : Reachable t) (key : List Byte) (v1 v2 : V)
    (t1 : Tree V) (h1 : Insert t key v1 = .ok t1) :
    ∃ path m, nodeAt t1.root path = some m ∧ m.leaf = some ⟨key, v1⟩ ∧
      Insert t1 key v2 =
        .ok ⟨replaceAt t1.root path (node.mk m.pfx (some ⟨key, v2⟩) m.edges)⟩ ∧
      Insert t1 key v2 = Insert t key v2 := by
  obtain ⟨hinv, hroot, -⟩ := reachable_inv t h
  exact twice_shaped t (shaped_of_inv _ hinv) hroot key v1 v2 t1 h1

theorem getEdge_ne_fuel (n : node V) (p : List Byte) : getEdge n p ≠ .error .fuel := by
  cases p with
  | nil => rw [getEdge_nil]; simp
  | cons b q =>
    obtain ⟨r, idx, h, -⟩ := getEdge_ok n b q
    rw [h]; simp

theorem addEdge_ne_error (n : node V) (e : Edge V) (f : Fault) : addEdge n e ≠ .error f := by
  obtain ⟨r, idx, -, -, h⟩ := addEdge_ok n e
  rw [h]; simp

theorem slice_ne_fuel {α : Type} (s : List α) (a b : Nat) : slice s a b ≠ .error .fuel := by
  unfold slice
  split <;> simp

theorem index_ne_fuel {α : Type} (s : List α) (i : Nat) : index s i ≠ .error .fuel := by
  unfold index
  split <;> simp

/-- The fuel of the model is never exhausted: a failing `Insert` is a fault of
the Go program. -/
theorem Insert_ne_fuel (t : Tree V) (key : List Byte) (val : V) :
    Insert t key val ≠ .error .fuel := by
  intro h
  cases hlp : longestPath t key with
  | error f =>
    unfold Insert at h
    simp only [hlp] at h
    simp only [Except.error.injEq] at h
    subst h
    exact longestPathLoop_ne_fuel _ _ _ (le_refl _) hlp
  | ok x =>
    obtain ⟨nodes, idxs⟩ := x
    obtain ⟨ns, m, q, hns, hh, hstop⟩ := hops_of_longestPathLoop _ _ _ _ _ hlp
    cases idxs with
    | nil =>
      obtain ⟨hns0, hm, hq⟩ := hops_nil_inv hh
      subst hns0 hm hns
      cases key with
      | nil => rw [Insert_empty_key] at h; exact absurd h (by simp)
      | cons k0 rest =>
        rw [Insert_root t k0 rest val t.root [] hlp] at h
        split at h
        · rename_i f hadd; exact addEdge_ne_error _ _ _ hadd
        · exact absurd h (by simp)
    | cons i0 is0' =>
      obtain ⟨ns0, is0, parent, r, e, i, hns0, -, -, -, hem, -, -⟩ := hops_snoc_inv hh (by simp)
      subst hns0 hns
      rw [List.append_assoc] at hlp
      rw [Insert_deep t key val ns0 parent m _ hlp] at h
      split at h
      · rename_i f hs
        simp only [Except.error.injEq] at h
        subst h
        exact slice_ne_fuel _ _ _ hs
      · split at h
        · exact absurd h (by simp)
        · split at h
          · rename_i f hs
            simp only [Except.error.injEq] at h
            subst h
            exact slice_ne_fuel _ _ _ hs
          · rename_i f hs _
            simp only [Except.error.injEq] at h
            subst h
            exact slice_ne_fuel _ _ _ hs
          · split at h
            · split at h
              · exact absurd h (by simp)
              · split at h
                · rename_i f hadd; exact addEdge_ne_error _ _ _ hadd
                · exact absurd h (by simp)
            · split at h
              · exact absurd h (by simp)
              · split at h
                · rename_i f hadd; exact addEdge_ne_error _ _ _ hadd
                · split at h
                  · exact absurd h (by simp)
                  · split at h
                    · rename_i f hadd; exact addEdge_ne_error _ _ _ hadd
                    · split at h
                      · rename_i f hg
                        simp only [Except.error.injEq] at h
                        subst h
                        exact getEdge_ne_fuel _ _ hg
                      · split at h
                        · exact absurd h (by simp)
                        · split at h <;> exact absurd h (by simp)

/-- The five tests of `tree_test.go` pass on the model. -/
theorem tests_pass :
    Insert New foobar "myval" = .ok wantedAddsEdgeToRoot ∧
    Insert wantedAddsEdgeToRoot foobar "myval2" = .ok wantedUpdatesLeaf ∧
    insertAll New [(foobar, "myval"), (casbar, "myval2"), (honk, "myval3")] =
      .ok wantedAddsSortedEdges ∧
    Insert wantedAddsEdgeToRoot foobaz "myval2" = .ok wantedSplitsNode ∧
    Insert wantedSplitsNode foobaar "myval3" = .ok wantedSplitsNodeMore :=
  ⟨rfl, rfl, rfl, rfl, rfl⟩

theorem reachable_wantedAddsEdgeToRoot : Reachable wantedAddsEdgeToRoot :=
  Reachable.insert foobar "myval" Reachable.new rfl

theorem reachable_wantedSplitsNode : Reachable wantedSplitsNode :=
  Reachable.insert foobaz "myval2" reachable_wantedAddsEdgeToRoot rfl

/-- C1. Round-trip invariant, at the failing input: after "ab", "abc" and "axc"
have been inserted in this order, the node reached through the prefixes "ab" and
"c" holds the leaf with key "axc", while the prefixes on its path spell "abc". -/
theorem roundtrip_broken :
    insertAll New [(keyAB, "v1"), (keyABC, "v2"), (keyAXC, "v3")] = .ok treeAbAxc ∧
      nodeAt treeAbAxc.root [0, 0] = some (node.mk [99] (some ⟨keyAXC, "v3"⟩) []) ∧
      pathPrefix treeAbAxc.root [0, 0] = some keyABC ∧ keyABC ≠ keyAXC :=
  ⟨rfl, rfl, rfl, by decide⟩

/-- C2. Overwriting only the identical key, at the failing input: after "ab"
and "abc" have been inserted, `Insert("axc", "v3")` completes and the stored
leaves change from {"ab", "abc"} to {"ab", "axc"}: the leaf of the key "abc",
which differs from "axc", is gone. -/
theorem overwrite_other_key :
    insertAll New [(keyAB, "v1"), (keyABC, "v2")] = .ok treeAbAbc ∧
      Insert treeAbAbc keyAXC "v3" = .ok treeAbAxc ∧
      treeAbAbc.root.leaves = [⟨keyAB, "v1"⟩, ⟨keyABC, "v2"⟩] ∧
      treeAbAxc.root.leaves = [⟨keyAB, "v1"⟩, ⟨keyAXC, "v3"⟩] ∧ keyABC ≠ keyAXC :=
  ⟨rfl, rfl, rfl, rfl, by decide⟩

/-- C3. `Insert` on a non-empty key, at the failing input: after "foobar" has
been inserted, `Insert("foo", _)` stops with a slice bounds fault. -/
theorem insert_shorter_key_fails :
    Reachable wantedAddsEdgeToRoot ∧ foo ≠ [] ∧
      Insert wantedAddsEdgeToRoot foo "myval2" = .error .sliceBounds :=
  ⟨Reachable.insert foobar "myval" Reachable.new rfl, by decide, rfl⟩

/-- C8. Prefix split, at the failing input `P` = "foo", `x` = "bar", `y` = "z":
after "foobar" has been inserted, `Insert("fooz", _)` stops with a slice bounds
fault instead of splitting the node. -/
theorem prefix_split_fails :
    Insert New foobar "myval" = .ok wantedAddsEdgeToRoot ∧
      Insert wantedAddsEdgeToRoot fooz "myval2" = .error .sliceBounds :=
  ⟨rfl, rfl⟩

/-- An instance of `insert_twice`: the input of `TestInsert_UpdatesLeaf`. -/
theorem insert_twice_witness :
    Reachable (New : Tree String) ∧ Insert New foobar "myval" = .ok wantedAddsEdgeToRoot ∧
      ∃ path m, nodeAt wantedAddsEdgeToRoot.root path = some m ∧
        m.leaf = some ⟨foobar, "myval"⟩ ∧
        Insert wantedAddsEdgeToRoot foobar "myval2" =
          .ok ⟨replaceAt wantedAddsEdgeToRoot.root path
            (node.mk m.pfx (some ⟨foobar, "myval2"⟩) m.edges)⟩ ∧
        Insert wantedAddsEdgeToRoot foobar "myval2" = Insert New foobar "myval2" :=
  ⟨Reachable.new, rfl,
    insert_twice New Reachable.new foobar "myval" "myval2" wantedAddsEdgeToRoot rfl⟩

/-- Witness of C5 on the split node of `TestInsert_SplitsNode`. -/
theorem edges_sorted_of_reachable_witness :
    Reachable wantedSplitsNode ∧
      nodeAt wantedSplitsNode.root [0] = some (node.mk fooba none
        [⟨114, node.mk [114] (some ⟨foobar, "myval"⟩) []⟩,
         ⟨122, node.mk [122] (some ⟨foobaz, "myval2"⟩) []⟩]) ∧
      SortedEdges (node.mk fooba none
        [(⟨114, node.mk [114] (some ⟨foobar, "myval"⟩) []⟩ : Edge String),
         ⟨122, node.mk [122] (some ⟨foobaz, "myval2"⟩) []⟩]).edges :=
  ⟨reachable_wantedSplitsNode, rfl,
    edges_sorted_of_reachable wantedSplitsNode reachable_wantedSplitsNode [0] _ rfl⟩

/-- An instance of `edge_label_of_reachable`: the root of `TestInsert_SplitsNode`. -/
theorem edge_label_of_reachable_witness :
    Reachable wantedSplitsNode ∧ nodeAt wantedSplitsNode.root [] = some wantedSplitsNode.root ∧
      ∀ e ∈ wantedSplitsNode.root.edges, e.node.pfx ≠ [] ∧ e.node.pfx.head? = some e.label :=
  ⟨reachable_wantedSplitsNode, rfl,
    edge_label_of_reachable wantedSplitsNode reachable_wantedSplitsNode [] _ rfl⟩

/-- An instance of `insert_distinct_first_bytes`: the input of
`TestInsert_AddsSortedEdges`. -/
theorem insert_distinct_first_bytes_witness :
    (∀ kv ∈ [(foobar, "myval"), (casbar, "myval2"), (honk, "myval3")], kv.1 ≠ []) ∧
    ([(foobar, "myval"), (casbar, "myval2"), (honk, "myval3")].map
      (fun kv => kv.1.head?)).Nodup ∧
    ∃ es : List (Edge String), SortedEdges es ∧
      es.Perm ([(foobar, "myval"), (casbar, "myval2"), (honk, "myval3")].map leafEdge) ∧
      ∀ kvs' : List (List Byte × String),
        kvs'.Perm [(foobar, "myval"), (casbar, "myval2"), (honk, "myval3")] →
        insertAll New kvs' = .ok ⟨node.mk [] none es⟩ :=
  ⟨by decide, by decide,
    insert_distinct_first_bytes [(foobar, "myval"), (casbar, "myval2"), (honk, "myval3")]
      (by decide) (by decide)⟩

/-- The part of the prefix split that the code performs: for `P`, `x`, `y`
non-empty with different first bytes and `x` no longer than `y`, inserting
`P ++ x` and then `P ++ y` into an empty tree yields a root with one edge,
labelled `P[0]`, to a leafless node with prefix `P` whose two edges, ascending
by label, lead to the leaf nodes for `x` and `y`. -/
theorem insert_prefix_split (p0 : Byte) (prest : List Byte) (x0 : Byte) (xr : List Byte)
    (y0 : Byte) (yr : List Byte) (v1 v2 : V) (hxy : x0 ≠ y0) (hlen : xr.length ≤ yr.length) :
    ∃ t1 : Tree V, Insert New ((p0 :: prest) ++ x0 :: xr) v1 = .ok t1 ∧
      Insert t1 ((p0 :: prest) ++ y0 :: yr) v2 =
        .ok ⟨node.mk [] none [⟨p0, node.mk (p0 :: prest) none
          (if x0 ≤ y0 then
            [⟨x0, node.mk (x0 :: xr) (some ⟨(p0 :: prest) ++ x0 :: xr, v1⟩) []⟩,
             ⟨y0, node.mk (y0 :: yr) (some ⟨(p0 :: prest) ++ y0 :: yr, v2⟩) []⟩]
          else
            [⟨y0, node.mk (y0 :: yr) (some ⟨(p0 :: prest) ++ y0 :: yr, v2⟩) []⟩,
             ⟨x0, node.mk (x0 :: xr) (some ⟨(p0 :: prest) ++ x0 :: xr, v1⟩) []⟩])⟩]⟩ := by
  refine ⟨_, insert_single_aux p0 (prest ++ x0 :: xr) v1, ?_⟩
  have hg : getEdge (node.mk [] none
      [(⟨p0, node.mk (p0 :: (prest ++ x0 :: xr))
        (some ⟨p0 :: (prest ++ x0 :: xr), v1⟩) []⟩ : Edge V)])
      ((p0 :: prest) ++ y0 :: yr) =
      .ok (some ⟨p0, node.mk (p0 :: (prest ++ x0 :: xr))
        (some ⟨p0 :: (prest ++ x0 :: xr), v1⟩) []⟩, 0) :=
    getEdge_single_hit [] none p0 _ _
  have hl : (node.mk (p0 :: (prest ++ x0 :: xr))
      (some ⟨p0 :: (prest ++ x0 :: xr), v1⟩) ([] : List (Edge V))).pfx.length ≤
      ((p0 :: prest) ++ y0 :: yr).length := by
    simp only [node_pfx_mk, List.length_cons, List.length_append, List.cons_append]
    omega
  have hstop : Stop (node.mk (p0 :: (prest ++ x0 :: xr))
      (some ⟨p0 :: (prest ++ x0 :: xr), v1⟩) ([] : List (Edge V)))
      (((p0 :: prest) ++ y0 :: yr).drop (node.mk (p0 :: (prest ++ x0 :: xr))
        (some ⟨p0 :: (prest ++ x0 :: xr), v1⟩) ([] : List (Edge V))).pfx.length) := by
    generalize ((p0 :: prest) ++ y0 :: yr).drop _ = q
    cases q with
    | nil => exact Or.inl rfl
    | cons b q => exact Or.inr ⟨0, getEdge_no_edges _ _ b q⟩
  rw [Insert_split _ _ v2 [] [] _ _ _ 0 p0 y0 x0 prest yr xr (Hops.nil _ _) hg rfl rfl rfl
    (Ne.symm hxy) hl hstop]
  simp only [replaceAt_nil, node_pfx_mk, node_leaf_mk, node_edges_mk, List.set_cons_zero,
    List.cons_append]

/-- C12. `commonPrefix(a, b)` is the longest common leading prefix: the result
`c` is a prefix of `a` and of `b`, and either `len(c) = len(a)`, or
`len(c) = len(b)`, or the bytes `a[len(c)]` and `b[len(c)]` differ; and `c` is
empty when either input is empty or the first bytes differ. -/
theorem commonPrefix_longest (a b : List Byte) :
    commonPrefix a b <+: a ∧ commonPrefix a b <+: b ∧
      ((commonPrefix a b).length = a.length ∨ (commonPrefix a b).length = b.length ∨
        ∃ u w, a[(commonPrefix a b).length]? = some u ∧
          b[(commonPrefix a b).length]? = some w ∧ u ≠ w) ∧
      (a = [] ∨ b = [] ∨ a.head? ≠ b.head? → commonPrefix a b = []) := by
  obtain ⟨x, y, hx, hy, hxy⟩ := commonPrefix_split a b
  refine ⟨⟨x, hx.symm⟩, ⟨y, hy.symm⟩, ?_, ?_⟩
  · cases x with
    | nil =>
      left
      rw [List.append_nil] at hx
      exact congrArg List.length hx.symm
    | cons u x =>
      cases y with
      | nil =>
        right; left
        rw [List.append_nil] at hy
        exact congrArg List.length hy.symm
      | cons w y =>
        right; right
        generalize commonPrefix a b = c at hx hy
        subst hx hy
        refine ⟨u, w, list_get_length _ _ _, list_get_length _ _ _, ?_⟩
        · rcases hxy with h | h | h
          · exact absurd h (by simp)
          · exact absurd h (by simp)
          · simpa using h
  · intro h
    rcases h with h | h | h
    · subst h; rfl
    · subst h; exact commonPrefix_nil_right a
    · cases a with
      | nil => rfl
      | cons u a =>
        cases b with
        | nil => rfl
        | cons w b =>
          rw [commonPrefix_cons]
          have : u ≠ w := by simpa using h
          simp only [ne_eq, this, not_false_eq_true, if_true]

theorem countP_sorted_split (es : List (Edge V)) (b : Byte) (idx : Nat)
    (hle : idx ≤ es.length) (hlo : ∀ e ∈ es.take idx, e.label < b)
    (hhi : ∀ e ∈ es.drop idx, b ≤ e.label) :
    es.countP (fun e => decide (e.label < b)) = idx := by
  conv_lhs => rw [← List.take_append_drop idx es]
  rw [List.countP_append]
  have h1 : (es.take idx).countP (fun e => decide (e.label < b)) = (es.take idx).length := by
    rw [List.countP_eq_length]
    intro e he
    simpa using hlo e he
  have h2 : (es.drop idx).countP (fun e => decide (e.label < b)) = 0 := by
    rw [List.countP_eq_zero]
    intro e he
    simpa using hhi e he
  rw [h1, h2, List.length_take]
  omega

/-- C13. `getEdge` on a sorted node: for a node whose edges are strictly
ascending by label and a non-empty `p`, the returned index is the number of
edges whose label is less than `p[0]`; the result is `nil` if and only if no
edge is labelled `p[0]`, and otherwise it is the edge at the returned index,
which is labelled `p[0]`. -/
theorem getEdge_spec (n : node V) (hs : SortedEdges n.edges) (b : Byte) (q : List Byte) :
    ∃ r, getEdge n (b :: q) =
        .ok (r, n.edges.countP (fun e => decide (e.label < b))) ∧
      (r = none ↔ ∀ e ∈ n.edges, e.label ≠ b) ∧
      (∀ e, r = some e →
        n.edges[n.edges.countP (fun e => decide (e.label < b))]? = some e ∧ e.label = b) := by
  obtain ⟨r, idx, hg, hle, hsome, -⟩ := getEdge_ok n b q
  obtain ⟨hlo, hhi, hnone⟩ := getEdge_sorted n hs b q r idx hg
  have hidx := countP_sorted_split n.edges b idx hle hlo hhi
  rw [hidx]
  refine ⟨r, hg, ⟨hnone, ?_⟩, hsome⟩
  intro hfresh
  cases r with
  | none => rfl
  | some e =>
    obtain ⟨h1, h2⟩ := hsome e rfl
    exact absurd h2 (hfresh e (List.getElem?_mem h1))

/-- C14. `addEdge` keeps the edge list sorted: for a node whose edges are
strictly ascending by label and an edge `e` whose label is on none of them,
`addEdge(e)` completes; the new edge list is the old one with `e` spliced in at
one position, hence strictly ascending, one longer, containing `e`, and
containing the old edges unchanged in their old order; prefix and leaf of the
node are untouched. -/
theorem addEdge_spec (n : node V) (e : Edge V) (hs : SortedEdges n.edges)
    (hfresh : ∀ x ∈ n.edges, x.label ≠ e.label) :
    ∃ n' j, addEdge n e = .ok n' ∧ n'.pfx = n.pfx ∧ n'.leaf = n.leaf ∧
      j ≤ n.edges.length ∧ n'.edges = n.edges.take j ++ e :: n.edges.drop j ∧
      SortedEdges n'.edges ∧ n'.edges.length = n.edges.length + 1 ∧ e ∈ n'.edges ∧
      n.edges.Sublist n'.edges := by
  obtain ⟨j, hj, hadd, hsorted⟩ := addEdge_sorted n e hs hfresh
  refine ⟨_, j, hadd, rfl, rfl, hj, rfl, hsorted, ?_, ?_, ?_⟩
  · simp only [node_edges_mk, List.length_append, List.length_take, List.length_cons,
      List.length_drop]
    omega
  · simp only [node_edges_mk, List.mem_append, List.mem_cons, true_or, or_true]
  · simp only [node_edges_mk]
    conv_lhs => rw [← List.take_append_drop j n.edges]
    exact List.Sublist.append (List.Sublist.refl _) (List.sublist_cons_self _ _)

/-- C11. A further branch under a split node: in a tree whose root has a single
edge to a leafless node with non-empty prefix `P` and children `es` (strictly
ascending by label, each label the first byte of the prefix of its child), for
a non-empty `y` whose first byte is the first byte of no child prefix,
`Insert(P ++ y, V)` splices exactly one edge, to a node with prefix `y`, leaf
`{P ++ y, V}` and no edges, into `es` at its sorted position `j`; the prefix
`P`, the absent leaf and the existing children of the `P` node are unchanged. -/
theorem insert_branch (p0 : Byte) (prest : List Byte) (es : List (Edge V))
    (y0 : Byte) (yr : List Byte) (v : V) (hs : SortedEdges es)
    (hlab : ∀ e ∈ es, e.node.pfx.head? = some e.label)
    (hfresh : ∀ e ∈ es, e.node.pfx.head? ≠ some y0) :
    ∃ j, j ≤ es.length ∧ (∀ e ∈ es.take j, e.label < y0) ∧
      (∀ e ∈ es.drop j, y0 < e.label) ∧
      Insert ⟨node.mk [] none [⟨p0, node.mk (p0 :: prest) none es⟩]⟩
          ((p0 :: prest) ++ y0 :: yr) v =
        .ok ⟨node.mk [] none [⟨p0, node.mk (p0 :: prest) none
          (es.take j ++
            ⟨y0, node.mk (y0 :: yr) (some ⟨(p0 :: prest) ++ y0 :: yr, v⟩) []⟩ ::
              es.drop j)⟩]⟩ := by
  have hne : ∀ e ∈ es, e.label ≠ y0 := by
    intro e he hl
    apply hfresh e he
    rw [hlab e he, hl]
  obtain ⟨r, j, hg, hle, hsome, -⟩ := getEdge_ok (node.mk (p0 :: prest) none es) y0 yr
  obtain ⟨hlo, hhi, -⟩ := getEdge_sorted (node.mk (p0 :: prest) none es) hs y0 yr r j hg
  cases r with
  | some e =>
    obtain ⟨h1, h2⟩ := hsome e rfl
    exact absurd h2 (hne e (List.getElem?_mem h1))
  | none =>
    refine ⟨j, hle, hlo, ?_, ?_⟩
    · intro e he
      exact lt_of_le_of_ne (hhi e he) (Ne.symm (hne e (List.mem_of_mem_drop he)))
    · have hg0 : getEdge (node.mk [] none
          [(⟨p0, node.mk (p0 :: prest) none es⟩ : Edge V)])
          ((p0 :: prest) ++ y0 :: yr) = .ok (some ⟨p0, node.mk (p0 :: prest) none es⟩, 0) :=
        getEdge_single_hit [] none p0 _ _
      rw [Insert_extend _ _ v [] [] _ _ _ 0 y0 yr j (Hops.nil _ _) hg0 rfl rfl hg]
      simp only [List.nil_append, node_pfx_mk, node_leaf_mk, node_edges_mk, replaceAt_single]

/-- Witness of C11 on the input of `TestInsert_SplitsNodeMore`. -/
theorem insert_branch_witness :
    SortedEdges [(⟨114, node.mk [114] (some ⟨foobar, "myval"⟩) []⟩ : Edge String),
        ⟨122, node.mk [122] (some ⟨foobaz, "myval2"⟩) []⟩] ∧
    (∀ e ∈ [(⟨114, node.mk [114] (some ⟨foobar, "myval"⟩) []⟩ : Edge String),
        ⟨122, node.mk [122] (some ⟨foobaz, "myval2"⟩) []⟩],
      e.node.pfx.head? = some e.label) ∧
    (∀ e ∈ [(⟨114, node.mk [114] (some ⟨foobar, "myval"⟩) []⟩ : Edge String),
        ⟨122, node.mk [122] (some ⟨foobaz, "myval2"⟩) []⟩],
      e.node.pfx.head? ≠ some 97) ∧
    ∃ j, j ≤ 2 ∧
      (∀ e ∈ [(⟨114, node.mk [114] (some ⟨foobar, "myval"⟩) []⟩ : Edge String),
        ⟨122, node.mk [122] (some ⟨foobaz, "myval2"⟩) []⟩].take j, e.label < 97) ∧
      (∀ e ∈ [(⟨114, node.mk [114] (some ⟨foobar, "myval"⟩) []⟩ : Edge String),
        ⟨122, node.mk [122] (some ⟨foobaz, "myval2"⟩) []⟩].drop j, 97 < e.label) ∧
      Insert wantedSplitsNode foobaar "myval3" =
        .ok ⟨node.mk [] none [⟨102, node.mk fooba none
          ([(⟨114, node.mk [114] (some ⟨foobar, "myval"⟩) []⟩ : Edge String),
            ⟨122, node.mk [122] (some ⟨foobaz, "myval2"⟩) []⟩].take j ++
            ⟨97, node.mk [97, 114] (some ⟨foobaar, "myval3"⟩) []⟩ ::
            [(⟨114, node.mk [114] (some ⟨foobar, "myval"⟩) []⟩ : Edge String),
              ⟨122, node.mk [122] (some ⟨foobaz, "myval2"⟩) []⟩].drop j)⟩]⟩ :=
  have hs : SortedEdges [(⟨114, node.mk [114] (some ⟨foobar, "myval"⟩) []⟩ : Edge String),
      ⟨122, node.mk [122] (some ⟨foobaz, "myval2"⟩) []⟩] := by
    unfold SortedEdges; simp
  have hlab : ∀ e ∈ [(⟨114, node.mk [114] (some ⟨foobar, "myval"⟩) []⟩ : Edge String),
      ⟨122, node.mk [122] (some ⟨foobaz, "myval2"⟩) []⟩],
      e.node.pfx.head? = some e.label := by
    intro e he
    simp only [List.mem_cons, List.not_mem_nil, or_false] at he
    rcases he with he | he <;> subst he <;> rfl
  have hfresh : ∀ e ∈ [(⟨114, node.mk [114] (some ⟨foobar, "myval"⟩) []⟩ : Edge String),
      ⟨122, node.mk [122] (some ⟨foobaz, "myval2"⟩) []⟩],
      e.node.pfx.head? ≠ some 97 := by
    intro e he
    simp only [List.mem_cons, List.not_mem_nil, or_false] at he
    rcases he with he | he <;> subst he <;> decide
  ⟨hs, hlab, hfresh, insert_branch 102 [111, 111, 98, 97] _ 97 [114] "myval3" hs hlab hfresh⟩

theorem drop_head_getElem? {α : Type} (l : List α) (off : Nat) (b : α) (q : List α)
    (h : l.drop off = b :: q) : l[off]? = some b := by
  have := congrArg (fun s => s[0]?) h
  simp only [List.getElem?_drop, Nat.add_zero, List.getElem?_cons_zero] at this
  exact this

theorem chain_of_hops (key : List Byte) {n : node V} {p : List Byte} {ns : List (node V)}
    {is : List Nat} {m : node V} {q : List Byte} (hh : Hops n p ns is m q) :
    ∀ off, off ≤ key.length → p = key.drop off →
      (∀ off', off' ≤ key.length → q = key.drop off' → Chain key m off' [m]) →
      Chain key n off (ns ++ [m]) := by
  induction hh with
  | nil n p =>
    intro off hoff hp hlast
    exact hlast off hoff hp
  | @cons n p e i ns is m q hg hlen _ ih =>
    intro off hoff hp hlast
    obtain ⟨b, q', hpb, hmem, hlab⟩ := getEdge_some_mem n p e i hg
    have hlen' : e.node.pfx.length ≤ key.length - off := by
      rw [hp, List.length_drop] at hlen; exact hlen
    have hpos : 0 < key.length - off := by
      have := congrArg List.length hp
      rw [hpb, List.length_drop, List.length_cons] at this
      omega
    refine Chain.step n off e (ns ++ [m]) (List.getElem?_mem hmem) ?_ ?_
    · rw [hlab]
      exact drop_head_getElem? key off b q' (by rw [← hp, hpb])
    · apply ih (off + e.node.pfx.length) (by omega)
      · rw [hp, List.drop_drop]
      · exact hlast

/-- C15. `longestPath` returns a root-anchored chain: on a tree with the edge
invariants and an empty root prefix, if the traversal of `key` completes, the
returned list starts at the root; each later node is the child reached from its
predecessor through an edge labelled with the key byte at the offset given by
the sum of the prefix lengths of the nodes visited so far; and the list ends
exactly where that offset has reached `len(key)` or the node has no edge with
that label. -/
theorem longestPath_chain (t : Tree V) (hinv : Inv t.root) (hroot : t.root.pfx = [])
    (key : List Byte) (nodes : List (node V)) (idxs : List Nat)
    (h : longestPath t key = .ok (nodes, idxs)) :
    nodes.head? = some t.root ∧ nodes.length = idxs.length + 1 ∧
      Chain key t.root t.root.pfx.length nodes := by
  obtain ⟨ns, m, q, hns, hh, hstop⟩ := hops_of_longestPathLoop _ _ _ _ _ h
  subst hns
  have hsorted : SortedEdges m.edges := (hinv idxs m (hops_nodeAt hh)).1
  refine ⟨?_, ?_, ?_⟩
  · cases hh with
    | nil => rfl
    | cons _ _ _ => rfl
  · rw [List.length_append, hops_length hh]; rfl
  · rw [hroot]
    apply chain_of_hops key hh 0 (Nat.zero_le _) rfl
    intro off' hoff' hq
    apply Chain.last
    rcases hstop with hs | ⟨j, hs⟩
    · left
      have := congrArg List.length hq
      rw [hs, List.length_drop, List.length_nil] at this
      omega
    · right
      cases q with
      | nil => rw [getEdge_nil] at hs; exact absurd hs (by simp)
      | cons b q' =>
        have hb := drop_head_getElem? key off' b q' hq.symm
        obtain ⟨-, -, hnone⟩ := getEdge_sorted m hsorted b q' none j hs
        refine ⟨?_, ?_⟩
        · have := congrArg List.length hq
          rw [List.length_drop, List.length_cons] at this
          omega
        · intro e he hc
          rw [hb] at hc
          simp only [Option.some.injEq] at hc
          exact hnone rfl e he hc

/-- Witness of C15 on the tree of `TestInsert_SplitsNode` and the key "foobaz". -/
theorem longestPath_chain_witness :
    Inv wantedSplitsNode.root ∧ wantedSplitsNode.root.pfx = [] ∧
      longestPath wantedSplitsNode foobaz =
        .ok ([wantedSplitsNode.root,
          node.mk fooba none
            [⟨114, node.mk [114] (some ⟨foobar, "myval"⟩) []⟩,
             ⟨122, node.mk [122] (some ⟨foobaz, "myval2"⟩) []⟩],
          node.mk [122] (some ⟨foobaz, "myval2"⟩) []], [0, 1]) ∧
      ([wantedSplitsNode.root,
          node.mk fooba none
            [⟨114, node.mk [114] (some ⟨foobar, "myval"⟩) []⟩,
             ⟨122, node.mk [122] (some ⟨foobaz, "myval2"⟩) []⟩],
          node.mk [122] (some ⟨foobaz, "myval2"⟩) []].head? = some wantedSplitsNode.root ∧
        [wantedSplitsNode.root,
          node.mk fooba none
            [⟨114, node.mk [114] (some ⟨foobar, "myval"⟩) []⟩,
             ⟨122, node.mk [122] (some ⟨foobaz, "myval2"⟩) []⟩],
          node.mk [122] (some ⟨foobaz, "myval2"⟩) []].length = [0, 1].length + 1 ∧
        Chain foobaz wantedSplitsNode.root wantedSplitsNode.root.pfx.length
          [wantedSplitsNode.root,
            node.mk fooba none
              [⟨114, node.mk [114] (some ⟨foobar, "myval"⟩) []⟩,
               ⟨122, node.mk [122] (some ⟨foobaz, "myval2"⟩) []⟩],
            node.mk [122] (some ⟨foobaz, "myval2"⟩) []]) :=
  ⟨(reachable_inv _ reachable_wantedSplitsNode).1, rfl, rfl,
    longestPath_chain wantedSplitsNode (reachable_inv _ reachable_wantedSplitsNode).1 rfl
      foobaz _ [0, 1] rfl⟩

theorem compressed_iff (n : node V) :
    Compressed n ↔ ∀ e ∈ n.edges, Packed e.node ∧ Compressed e.node := by
  constructor
  · intro h e he
    obtain ⟨i, hi, hie⟩ := List.getElem_of_mem he
    have hget : n.edges[i]? = some e := by rw [List.getElem?_eq_getElem hi, hie]
    refine ⟨h [i] e.node (by simp) (by rw [nodeAt_cons_of n i [] e hget, nodeAt_nil]), ?_⟩
    intro path m _ hm
    exact h (i :: path) m (by simp) (by rw [nodeAt_cons_of n i path e hget]; exact hm)
  · intro h path m hne hm
    cases path with
    | nil => exact absurd rfl hne
    | cons i is =>
      rw [nodeAt_cons] at hm
      split at hm
      · rename_i e he
        obtain ⟨h1, h2⟩ := h e (List.getElem?_mem he)
        cases is with
        | nil =>
          rw [nodeAt_nil] at hm
          simp only [Option.some.injEq] at hm
          subst hm; exact h1
        | cons i' is' => exact h2 (i' :: is') m (by simp) hm
      · exact absurd hm (by simp)

theorem compressed_of_edges (n n' : node V) (h : Compressed n) (he : n'.edges = n.edges) :
    Compressed n' := by
  rw [compressed_iff] at h ⊢
  rw [he]; exact h

theorem compressed_no_edges (p : List Byte) (l : Option (leaf V)) :
    Compressed (node.mk p l []) := by
  rw [compressed_iff]
  intro e he
  exact absurd he (by simp)

theorem packed_leaf (p : List Byte) (l : leaf V) (es : List (Edge V)) :
    Packed (node.mk p (some l) es) := by
  intro h
  exact absurd h (by simp)

theorem compressed_addEdge (n : node V) (j : Nat) (e : Edge V) (hn : Compressed n)
    (hp : Packed e.node) (hc : Compressed e.node) :
    Compressed (node.mk n.pfx n.leaf (n.edges.take j ++ e :: n.edges.drop j)) := by
  rw [compressed_iff] at hn ⊢
  intro x hx
  simp only [node_edges_mk] at hx
  rcases List.mem_append.mp hx with hx | hx
  · exact hn x (List.mem_of_mem_take hx)
  · rcases List.mem_cons.mp hx with hx | hx
    · subst hx; exact ⟨hp, hc⟩
    · exact hn x (List.mem_of_mem_drop hx)

theorem compressed_set (n : node V) (i : Nat) (e : Edge V) (hn : Compressed n)
    (hp : Packed e.node) (hc : Compressed e.node) :
    Compressed (node.mk n.pfx n.leaf (n.edges.set i e)) := by
  rw [compressed_iff] at hn ⊢
  intro x hx
  rcases List.mem_or_eq_of_mem_set hx with hx | hx
  · exact hn x hx
  · subst hx; exact ⟨hp, hc⟩

theorem replaceAt_packed (n : node V) (i : Nat) (is : List Nat) (m' : node V)
    (hn : Packed n) : Packed (replaceAt n (i :: is) m') := by
  cases hget : n.edges[i]? with
  | none =>
    have : replaceAt n (i :: is) m' = n := by
      cases n
      simp only [node_edges_mk] at hget
      simp only [replaceAt, node_edges_mk, hget]
    rw [this]; exact hn
  | some e =>
    rw [replaceAt_cons_of n m' i is e hget]
    intro hl
    simp only [node_leaf_mk] at hl
    simp only [node_edges_mk, List.length_set]
    exact hn hl

theorem replaceAt_compressed : ∀ (path : List Nat) (n m m' : node V), Compressed n →
    nodeAt n path = some m → Compressed m' → (path ≠ [] → Packed m') →
    Compressed (replaceAt n path m') := by
  intro path
  induction path with
  | nil =>
    intro n m m' _ _ hm' _
    rw [replaceAt_nil]; exact hm'
  | cons i is ih =>
    intro n m m' hn hm hm' hp
    rw [nodeAt_cons] at hm
    split at hm
    · rename_i e he
      rw [replaceAt_cons_of n m' i is e he]
      have hmem := List.getElem?_mem he
      obtain ⟨hpe, hce⟩ := (compressed_iff n).mp hn e hmem
      apply compressed_set n i _ hn
      · cases is with
        | nil => rw [replaceAt_nil]; exact hp (by simp)
        | cons i' is' => exact replaceAt_packed e.node i' is' m' hpe
      · exact ih e.node m m' hce hm hm' (fun hne => hp (by simp))
    · exact absurd hm (by simp)

theorem nodeAt_append : ∀ (p1 : List Nat) (n m : node V) (p2 : List Nat),
    nodeAt n p1 = some m → nodeAt n (p1 ++ p2) = nodeAt m p2 := by
  intro p1
  induction p1 with
  | nil =>
    intro n m p2 hm
    rw [nodeAt_nil] at hm
    simp only [Option.some.injEq] at hm
    subst hm; rfl
  | cons i is ih =>
    intro n m p2 hm
    rw [nodeAt_cons] at hm
    split at hm
    · rename_i e he
      rw [List.cons_append, nodeAt_cons_of n i _ e he]
      exact ih e.node m p2 hm
    · exact absurd hm (by simp)

theorem compressed_nodeAt (n : node V) (path : List Nat) (m : node V) (hn : Compressed n)
    (hm : nodeAt n path = some m) : Compressed m ∧ (path ≠ [] → Packed m) := by
  refine ⟨?_, fun hne => hn path m hne hm⟩
  intro path' m' hne' hm'
  exact hn (path ++ path') m' (by simp [hne']) (by rw [nodeAt_append path n m path' hm, hm'])

theorem compressed_split (c0 b o : Byte) (cp lp op : List Byte) (l : leaf V)
    (l' : Option (leaf V)) (es : List (Edge V))
    (hp : Packed (node.mk (o :: op) l' es)) (hc : Compressed (node.mk (o :: op) l' es)) :
    Packed (node.mk (c0 :: cp) none
        (if o ≤ b then
          [(⟨o, node.mk (o :: op) l' es⟩ : Edge V), ⟨b, node.mk (b :: lp) (some l) []⟩]
        else
          [⟨b, node.mk (b :: lp) (some l) []⟩, ⟨o, node.mk (o :: op) l' es⟩])) ∧
      Compressed (node.mk (c0 :: cp) none
        (if o ≤ b then
          [(⟨o, node.mk (o :: op) l' es⟩ : Edge V), ⟨b, node.mk (b :: lp) (some l) []⟩]
        else
          [⟨b, node.mk (b :: lp) (some l) []⟩, ⟨o, node.mk (o :: op) l' es⟩])) := by
  constructor
  · intro _
    split <;> simp
  · rw [compressed_iff]
    intro x hx
    simp only [node_edges_mk] at hx
    split at hx <;>
      simp only [List.mem_cons, List.not_mem_nil, or_false] at hx <;>
      rcases hx with hx | hx <;> subst hx
    · exact ⟨hp, hc⟩
    · exact ⟨packed_leaf _ _ _, compressed_no_edges _ _⟩
    · exact ⟨packed_leaf _ _ _, compressed_no_edges _ _⟩
    · exact ⟨hp, hc⟩

/-- `Insert` keeps every leafless non-root node at two edges or more. -/
theorem Insert_compressed (t : Tree V) (key : List Byte) (val : V) (t' : Tree V)
    (hroot : t.root.pfx = []) (hc : Compressed t.root)
    (h : Insert t key val = .ok t') : Compressed t'.root := by
  rcases Insert_cases t key val t' hroot h with
    ⟨k0, rest, j, hk, hg, ht⟩ | ⟨ns0, is0, parent, r, e, i, hh, hg, hex, ht⟩ |
    ⟨ns0, is0, parent, r, e, i, b, lp, j, hh, hg, hr, hs, ht⟩ |
    ⟨ns0, is0, parent, r, e, i, c0, b, o, cp, lp, op, hh, hg, hr, hm, hbo, hlen, hstop, ht⟩
  · subst ht
    exact compressed_addEdge t.root j _ hc (packed_leaf _ _ _) (compressed_no_edges _ _)
  · subst ht
    have hat := hops_nodeAt_snoc hh hg
    exact replaceAt_compressed _ _ e.node _ hc hat
      (compressed_of_edges e.node _ (compressed_nodeAt _ _ _ hc hat).1 rfl)
      (fun _ => packed_leaf _ _ _)
  · subst ht
    have hat := hops_nodeAt_snoc hh hg
    obtain ⟨hce, hpe⟩ := compressed_nodeAt _ _ _ hc hat
    refine replaceAt_compressed _ _ e.node _ hc hat
      (compressed_addEdge e.node j _ hce (packed_leaf _ _ _) (compressed_no_edges _ _)) ?_
    intro hne hl
    have := hpe hne hl
    simp only [node_edges_mk, List.length_append, List.length_take, List.length_cons,
      List.length_drop]
    omega
  · subst ht
    have hat := hops_nodeAt hh
    have hat' := hops_nodeAt_snoc hh hg
    obtain ⟨hcp, hpp⟩ := compressed_nodeAt _ _ _ hc hat
    obtain ⟨hce, hpe⟩ := compressed_nodeAt _ _ _ hc hat'
    have hpe' : Packed (node.mk (o :: op) e.node.leaf e.node.edges) := hpe (by simp)
    obtain ⟨h1, h2⟩ := compressed_split c0 b o cp lp op ⟨key, val⟩ e.node.leaf e.node.edges
      hpe' (compressed_of_edges e.node _ hce rfl)
    refine replaceAt_compressed _ _ parent _ hc hat (compressed_set parent i _ hcp h1 h2) ?_
    intro hne hl
    simp only [node_edges_mk, List.length_set]
    exact hpp hne hl

theorem reachable_compressed (t : Tree V) (h : Reachable t) : Compressed t.root := by
  induction h with
  | new => exact compressed_no_edges _ _
  | insert key val hr hins ih =>
    obtain ⟨-, hroot, -⟩ := reachable_inv _ hr
    exact Insert_compressed _ key val _ hroot ih hins

/-- C16. Path compression: in every tree obtained from `New()` by completed
`Insert` calls, every non-root node that holds no leaf has at least two
outgoing edges. -/
theorem compressed_of_reachable (t : Tree V) (h : Reachable t) (path : List Nat)
    (m : node V) (hne : path ≠ []) (hm : nodeAt t.root path = some m)
    (hleaf : m.leaf = none) : 2 ≤ m.edges.length :=
  reachable_compressed t h path m hne hm hleaf

/-- Witness of C16 on the split node of `TestInsert_SplitsNode`. -/
theorem compressed_of_reachable_witness :
    Reachable wantedSplitsNode ∧ ([0] : List Nat) ≠ [] ∧
      nodeAt wantedSplitsNode.root [0] = some (node.mk fooba none
        [⟨114, node.mk [114] (some ⟨foobar, "myval"⟩) []⟩,
         ⟨122, node.mk [122] (some ⟨foobaz, "myval2"⟩) []⟩]) ∧
      (node.mk fooba none
        [(⟨114, node.mk [114] (some ⟨foobar, "myval"⟩) []⟩ : Edge String),
         ⟨122, node.mk [122] (some ⟨foobaz, "myval2"⟩) []⟩]).leaf = none ∧
      2 ≤ (node.mk fooba none
        [(⟨114, node.mk [114] (some ⟨foobar, "myval"⟩) []⟩ : Edge String),
         ⟨122, node.mk [122] (some ⟨foobaz, "myval2"⟩) []⟩]).edges.length :=
  ⟨reachable_wantedSplitsNode, by decide, rfl, rfl,
    compressed_of_reachable wantedSplitsNode reachable_wantedSplitsNode [0] _ (by decide)
      rfl rfl⟩

theorem filter_set_of_not {α : Type} (p : α → Bool) : ∀ (es : List α) (i : Nat) (e x : α),
    es[i]? = some e → p e = false → p x = false → (es.set i x).filter p = es.filter p := by
  intro es
  induction es with
  | nil => intro i e x h; exact absurd h (by simp)
  | cons a es ih =>
    intro i e x h he hx
    cases i with
    | zero =>
      simp only [List.getElem?_cons_zero, Option.some.injEq] at h
      subst h
      simp only [List.set_cons_zero, List.filter_cons, he, hx]
      rfl
    | succ i =>
      simp only [List.getElem?_cons_succ] at h
      simp only [List.set_cons_succ, List.filter_cons, ih i e x h he hx]

theorem filter_insert_of_not {α : Type} (p : α → Bool) (es : List α) (j : Nat) (x : α)
    (hx : p x = false) : (es.take j ++ x :: es.drop j).filter p = es.filter p := by
  rw [List.filter_append, List.filter_cons, hx]
  simp only [Bool.false_eq_true, if_false]
  rw [← List.filter_append, List.take_append_drop]

/-- The path to the node found by a further hop starts at a root edge labelled
with the first byte of the key. -/
theorem hops_snoc_first {n : node V} {k0 : Byte} {rest : List Byte} {ns0 : List (node V)}
    {is0 : List Nat} {parent : node V} {r : List Byte} {e : Edge V} {i : Nat}
    (hh : Hops n (k0 :: rest) ns0 is0 parent r) (hg : getEdge parent r = .ok (some e, i)) :
    ∃ i0 path e0, is0 ++ [i] = i0 :: path ∧ n.edges[i0]? = some e0 ∧ e0.label = k0 := by
  cases hh with
  | nil =>
    obtain ⟨b, q, hb, hmem, hlab⟩ := getEdge_some_mem _ _ e i hg
    simp only [List.cons.injEq] at hb
    exact ⟨i, [], e, rfl, hmem, by rw [hlab, hb.1]⟩
  | @cons _ _ e0 i0 ns is _ _ hg0 _ _ =>
    obtain ⟨b, q, hb, hmem, hlab⟩ := getEdge_some_mem _ _ e0 i0 hg0
    simp only [List.cons.injEq] at hb
    exact ⟨i0, is ++ [i], e0, rfl, hmem, by rw [hlab, hb.1]⟩

theorem frame_replace (n : node V) (k0 : Byte) (i0 : Nat) (path : List Nat) (e0 : Edge V)
    (c : node V) (hmem : n.edges[i0]? = some e0) (hlab : e0.label = k0) :
    (replaceAt n (i0 :: path) c).edges.filter (fun e => decide (e.label ≠ k0)) =
      n.edges.filter (fun e => decide (e.label ≠ k0)) := by
  rw [replaceAt_cons_of n c i0 path e0 hmem]
  simp only [node_edges_mk]
  apply filter_set_of_not _ _ i0 e0 _ hmem <;> simp [hlab]

theorem frame_hops {n : node V} {k0 : Byte} {rest : List Byte} {ns0 : List (node V)}
    {is0 : List Nat} {parent : node V} {r : List Byte} {e : Edge V} {i : Nat}
    (hh : Hops n (k0 :: rest) ns0 is0 parent r) (hg : getEdge parent r = .ok (some e, i))
    (c : node V) :
    (replaceAt n (is0 ++ [i]) c).edges.filter (fun e => decide (e.label ≠ k0)) =
      n.edges.filter (fun e => decide (e.label ≠ k0)) := by
  obtain ⟨i0, path, e0, hp, hmem, hlab⟩ := hops_snoc_first hh hg
  rw [hp]
  exact frame_replace n k0 i0 path e0 c hmem hlab

/-- `Insert` leaves the root edges with a label other than the first byte of the
key as they are. -/
theorem Insert_frame (t : Tree V) (k0 : Byte) (rest : List Byte) (val : V) (t' : Tree V)
    (hroot : t.root.pfx = [])
    (h : Insert t (k0 :: rest) val = .ok t') :
    t'.root.edges.filter (fun e => decide (e.label ≠ k0)) =
      t.root.edges.filter (fun e => decide (e.label ≠ k0)) := by
  rcases Insert_cases t _ val t' hroot h with
    ⟨k0', rest', j, hk, hg, ht⟩ | ⟨ns0, is0, parent, r, e, i, hh, hg, hex, ht⟩ |
    ⟨ns0, is0, parent, r, e, i, b, lp, j, hh, hg, hr, hs, ht⟩ |
    ⟨ns0, is0, parent, r, e, i, c0, b, o, cp, lp, op, hh, hg, hr, hm, hbo, hlen, hstop, ht⟩
  · subst ht
    simp only [List.cons.injEq] at hk
    simp only [node_edges_mk]
    apply filter_insert_of_not
    simp [hk.1]
  · subst ht
    exact frame_hops hh hg _
  · subst ht
    exact frame_hops hh hg _
  · subst ht
    obtain ⟨b', q', hrb, hmem, hlab⟩ := getEdge_some_mem parent r e i hg
    have hc0 : e.label = c0 := by
      rw [hr] at hrb
      simp only [List.cons_append, List.cons.injEq] at hrb
      rw [hlab, ← hrb.1]
    rw [← hc0, ← replaceAt_snoc t.root parent is0 i e _ (hops_nodeAt hh) hmem]
    exact frame_hops hh hg _

/-- C17. Frame of `Insert`: on a tree built by completed insertions, a completed
`Insert` of a non-empty key keeps the root prefix empty and the root without a
leaf, and the root edges whose label differs from the first byte of the key are
the same after the call as before, with the same children and in the same
order. -/
theorem insert_frame (t : Tree V) (h : Reachable t) (k0 : Byte) (rest : List Byte)
    (val : V) (t' : Tree V) (hins : Insert t (k0 :: rest) val = .ok t') :
    t'.root.pfx = [] ∧ t'.root.leaf = none ∧
      t'.root.edges.filter (fun e => decide (e.label ≠ k0)) =
        t.root.edges.filter (fun e => decide (e.label ≠ k0)) ∧
      (t.root.edges.filter (fun e => decide (e.label ≠ k0))).Sublist t'.root.edges := by
  obtain ⟨hinv, hroot, hleaf⟩ := reachable_inv t h
  obtain ⟨-, h2, h3⟩ := Insert_inv t _ val t' hinv hroot hins
  have hf := Insert_frame t k0 rest val t' hroot hins
  refine ⟨h2, by rw [h3]; exact hleaf, hf, ?_⟩
  rw [← hf]
  exact List.filter_sublist _

/-- A fault of the traversal loop is a slice fault at a child whose prefix is
longer than the rest of the key. -/
theorem longestPathLoop_error : ∀ (fuel : Nat) (n : node V) (p : List Byte) (f : Fault),
    n.height ≤ fuel → longestPathLoop fuel n p = .error f →
    f = .sliceBounds ∧ ∃ ns is m q e i, Hops n p ns is m q ∧
      getEdge m q = .ok (some e, i) ∧ q.length < e.node.pfx.length := by
  intro fuel
  induction fuel with
  | zero => intro n p f hf; have := height_pos n; omega
  | succ fuel ih =>
    intro n p f hf h
    rw [longestPathLoop_succ] at h
    split at h
    · exact absurd h (by simp)
    · cases p with
      | nil => simp at *
      | cons b q =>
        obtain ⟨r, idx, hg, -, hsome, -⟩ := getEdge_ok n b q
        rw [hg] at h
        cases r with
        | none => exact absurd h (by simp)
        | some e =>
          simp only at h
          have hlt := height_child_lt n e (List.getElem?_mem (hsome e rfl).1)
          by_cases hlen : e.node.pfx.length ≤ (b :: q).length
          · rw [slice_drop _ _ hlen] at h
            simp only at h
            split at h
            · rename_i f' hrec
              simp only [Except.error.injEq] at h
              subst h
              obtain ⟨hf', ns, is, m, q', e', i', hh, hg', hlt'⟩ :=
                ih e.node _ f' (by omega) hrec
              exact ⟨hf', n :: ns, idx :: is, m, q', e', i', Hops.cons hg hlen hh, hg', hlt'⟩
            · exact absurd h (by simp)
          · rw [slice_fault _ _ (by omega)] at h
            simp only [Except.error.injEq] at h
            exact ⟨h.symm, [], [], n, b :: q, e, idx, Hops.nil _ _, hg, by omega⟩

theorem longestPathLoop_overrun {n : node V} {p : List Byte} {ns : List (node V)}
    {is : List Nat} {m : node V} {q : List Byte} (hh : Hops n p ns is m q)
    {e : Edge V} {i : Nat} (hg : getEdge m q = .ok (some e, i))
    (hlt : q.length < e.node.pfx.length) :
    ∀ fuel, n.height ≤ fuel → longestPathLoop fuel n p = .error .sliceBounds := by
  induction hh with
  | nil n p =>
    intro fuel hf
    obtain ⟨fuel, rfl⟩ : ∃ k, fuel = k + 1 := ⟨fuel - 1, by have := height_pos n; omega⟩
    obtain ⟨b, q', hp, -, -⟩ := getEdge_some_mem n p e i hg
    have hp0 : ¬ p.length = 0 := by rw [hp]; simp
    rw [longestPathLoop_succ]
    simp only [hp0, if_false, hg, slice_fault p _ hlt]
  | @cons n p e' i' ns is m q hg' hlen _ ih =>
    intro fuel hf
    obtain ⟨fuel, rfl⟩ : ∃ k, fuel = k + 1 := ⟨fuel - 1, by have := height_pos n; omega⟩
    obtain ⟨b, q', hp, hmem, -⟩ := getEdge_some_mem n p e' i' hg'
    have hlt' := height_child_lt n e' (List.getElem?_mem hmem)
    have hp0 : ¬ p.length = 0 := by rw [hp]; simp
    rw [longestPathLoop_succ]
    simp only [hp0, if_false, hg', slice_drop p _ hlen, ih hg hlt fuel (by omega)]

theorem Insert_error_of_longestPath (t : Tree V) (key : List Byte) (val : V) (f : Fault)
    (h : longestPath t key = .error f) : Insert t key val = .error f := by
  unfold Insert
  simp only [h]

/-- On a tree with the edge invariants, `Insert` of a non-empty key completes
whenever the traversal does. -/
theorem Insert_ok_of_longestPath (t : Tree V) (key : List Byte) (val : V)
    (nodes : List (node V)) (idxs : List Nat)
    (hinv : Inv t.root) (hroot : t.root.pfx = []) (hkey : key ≠ [])
    (hlp : longestPath t key = .ok (nodes, idxs)) : ∃ t', Insert t key val = .ok t' := by
  obtain ⟨ns, m, q, hns, hh, hstop⟩ := hops_of_longestPathLoop _ _ _ _ _ hlp
  cases idxs with
  | nil =>
    obtain ⟨-, hm, hq⟩ := hops_nil_inv hh
    subst hm
    rw [hq] at hstop
    cases key with
    | nil => exact absurd rfl hkey
    | cons k0 rest =>
      rcases hstop with hs | ⟨j, hs⟩
      · exact absurd hs (by simp)
      · exact ⟨_, Insert_stop_root t k0 rest val j hs⟩
  | cons i0 idxs0 =>
    obtain ⟨ns0, is0, parent, r, e, i, -, his, hh0, hg, hem, hlen, hq⟩ :=
      hops_snoc_inv hh (by simp)
    subst hem
    obtain ⟨x, y, hx, hy, hxy⟩ := commonPrefix_split r e.node.pfx
    generalize commonPrefix r e.node.pfx = cp at hx hy
    have hlen' : y.length ≤ x.length := by
      have h1 := congrArg List.length hx
      have h2 := congrArg List.length hy
      rw [List.length_append] at h1 h2
      omega
    cases y with
    | nil =>
      rw [List.append_nil] at hy
      cases x with
      | nil =>
        rw [List.append_nil] at hx
        exact ⟨_, Insert_exact t key val ns0 is0 parent r e i hh0 hg hroot (by rw [hy, hx])⟩
      | cons b lp =>
        have hr : r = e.node.pfx ++ b :: lp := by rw [hy]; exact hx
        have hq' : q = b :: lp := by
          rw [hq, hr]; exact List.drop_left _ _
        rcases hstop with hs | ⟨j, hs⟩
        · rw [hq'] at hs; exact absurd hs (by simp)
        · rw [hq'] at hs
          exact ⟨_, Insert_extend t key val ns0 is0 parent r e i b lp j hh0 hg hroot hr hs⟩
    | cons o op =>
      cases x with
      | nil => simp only [List.length_cons, List.length_nil] at hlen'; omega
      | cons b lp =>
        have hbo : b ≠ o := by
          rcases hxy with h1 | h1 | h1
          · exact absurd h1 (by simp)
          · exact absurd h1 (by simp)
          · simpa using h1
        obtain ⟨b', q', hrb, hmem, hlab⟩ := getEdge_some_mem parent r e i hg
        have hgood := hinv is0 parent (hops_nodeAt hh0)
        have hhead := hgood.2 e (List.getElem?_mem hmem)
        cases cp with
        | nil =>
          rw [List.nil_append] at hx hy
          rw [hy, List.head?_cons, hlab] at hhead
          rw [hx] at hrb
          simp only [List.cons.injEq, Option.some.injEq] at hrb hhead
          exact absurd (hrb.1.trans hhead.symm) hbo
        | cons c0 cp =>
          rw [hq] at hstop
          exact ⟨_, Insert_split t key val ns0 is0 parent r e i c0 b o cp lp op hh0 hg hroot
            hx hy hbo hlen hstop⟩

/-- On a tree with the edge invariants `Insert` fails exactly on the empty key
and on an overrun of the traversal. -/
theorem Insert_error_iff (t : Tree V) (key : List Byte) (val : V)
    (hinv : Inv t.root) (hroot : t.root.pfx = []) :
    (∃ f, Insert t key val = .error f) ↔ key = [] ∨ Overrun t key := by
  constructor
  · rintro ⟨f, hf⟩
    by_cases hkey : key = []
    · exact Or.inl hkey
    · right
      cases hlp : longestPath t key with
      | ok x =>
        obtain ⟨t', ht'⟩ := Insert_ok_of_longestPath t key val x.1 x.2 hinv hroot hkey hlp
        rw [ht'] at hf
        exact absurd hf (by simp)
      | error f' =>
        obtain ⟨-, ns, is, m, q, e, i, hh, hg, hlt⟩ :=
          longestPathLoop_error _ _ _ f' (le_refl _) hlp
        obtain ⟨b, q', hq, hmem, hlab⟩ := getEdge_some_mem m q e i hg
        exact ⟨ns, is, m, q, e, hh, List.getElem?_mem hmem, by rw [hq, hlab]; rfl, hlt⟩
  · rintro (hkey | ⟨ns, is, m, q, e, hh, hmem, hhead, hlt⟩)
    · subst hkey
      exact ⟨_, Insert_empty_key t val⟩
    · cases q with
      | nil => exact absurd hhead (by simp)
      | cons b q' =>
        simp only [List.head?_cons, Option.some.injEq] at hhead
        obtain ⟨i, hi, hie⟩ := List.getElem_of_mem hmem
        have hget : m.edges[i]? = some e := by rw [List.getElem?_eq_getElem hi, hie]
        have hg := getEdge_found m (hinv is m (hops_nodeAt hh)).1 i e b q' hget hhead.symm
        exact ⟨_, Insert_error_of_longestPath t key val _
          (longestPathLoop_overrun hh hg hlt _ (le_refl _))⟩

/-- The result of `Insert` and the tree it leaves behind: the new tree when the
call completes, the tree as it was when the call faults. -/
theorem InsertInPlace_eq (t : Tree V) (key : List Byte) (val : V) :
    InsertInPlace t key val =
      match Insert t key val with
      | .ok t' => ⟨t', none⟩
      | .error f => ⟨t, some f⟩ := by
  unfold InsertInPlace Insert
  simp only
  repeat (any_goals (first | rfl | (split <;> try simp only [*])))

theorem reachable_wantedAddsSortedEdges : Reachable wantedAddsSortedEdges :=
  have h2 : Reachable (⟨node.mk [] none
      [⟨99, node.mk casbar (some ⟨casbar, "myval2"⟩) []⟩,
       ⟨102, node.mk foobar (some ⟨foobar, "myval"⟩) []⟩]⟩ : Tree String) :=
    Reachable.insert casbar "myval2" reachable_wantedAddsEdgeToRoot rfl
  Reachable.insert honk "myval3" h2 rfl

/-- Failure condition of `Insert`, as long as the bytes of inserted keys are
left alone: on a tree of `Reachable`, `Insert(K, V)` fails if and only if `K`
is empty or the traversal of `K` reaches, through an edge labelled with the
next unconsumed byte, a child whose prefix is longer than the unconsumed rest
of `K`; the fault is an index or a slice bounds fault, and the tree is left as
it was. -/
theorem insert_fails_iff (t : Tree V) (h : Reachable t) (key : List Byte) (val : V) :
    ((∃ f, Insert t key val = .error f) ↔ key = [] ∨ Overrun t key) ∧
      ∀ f, Insert t key val = .error f →
        (f = .indexOutOfRange ∨ f = .sliceBounds) ∧
          InsertInPlace t key val = ⟨t, some f⟩ := by
  obtain ⟨hinv, hroot, -⟩ := reachable_inv t h
  refine ⟨Insert_error_iff t key val hinv hroot, ?_⟩
  intro f hf
  constructor
  · cases f with
    | indexOutOfRange => exact Or.inl rfl
    | sliceBounds => exact Or.inr rfl
    | fuel => exact absurd hf (Insert_ne_fuel t key val)
  · rw [InsertInPlace_eq, hf]

/-- An instance of `insert_fails_iff`: the tree of `TestInsert_AddsEdgeToRoot` and
the key "foo". -/
theorem insert_fails_iff_witness :
    Reachable wantedAddsEdgeToRoot ∧
      (((∃ f, Insert wantedAddsEdgeToRoot foo "myval2" = .error f) ↔
        foo = [] ∨ Overrun wantedAddsEdgeToRoot foo) ∧
      ∀ f, Insert wantedAddsEdgeToRoot foo "myval2" = .error f →
        (f = .indexOutOfRange ∨ f = .sliceBounds) ∧
          InsertInPlace wantedAddsEdgeToRoot foo "myval2" = ⟨wantedAddsEdgeToRoot, some f⟩) :=
  ⟨reachable_wantedAddsEdgeToRoot,
    insert_fails_iff wantedAddsEdgeToRoot reachable_wantedAddsEdgeToRoot foo "myval2"⟩

/-- The key "foo" overruns the tree that holds "foobar". -/
theorem overrun_foo : Overrun wantedAddsEdgeToRoot foo :=
  ⟨[], [], wantedAddsEdgeToRoot.root, foo,
    ⟨102, node.mk foobar (some ⟨foobar, "myval"⟩) []⟩, Hops.nil _ _,
    List.mem_singleton.mpr rfl, rfl, by decide⟩

/-- Witness of C17 on a tree with three root edges. -/
theorem insert_frame_witness :
    Reachable wantedAddsSortedEdges ∧
      Insert wantedAddsSortedEdges (102 :: [111, 111, 98, 97, 122]) "myval4" =
        .ok sortedEdgesThenSplit ∧
      sortedEdgesThenSplit.root.pfx = [] ∧ sortedEdgesThenSplit.root.leaf = none ∧
      sortedEdgesThenSplit.root.edges.filter (fun e => decide (e.label ≠ 102)) =
        wantedAddsSortedEdges.root.edges.filter (fun e => decide (e.label ≠ 102)) ∧
      (wantedAddsSortedEdges.root.edges.filter (fun e => decide (e.label ≠ 102))).Sublist
        sortedEdgesThenSplit.root.edges :=
  ⟨reachable_wantedAddsSortedEdges, rfl,
    insert_frame wantedAddsSortedEdges reachable_wantedAddsSortedEdges 102
      [111, 111, 98, 97, 122] "myval4" sortedEdgesThenSplit rfl⟩

theorem sorted_wantedSplitsNode_children :
    SortedEdges (node.mk fooba none
      [(⟨114, node.mk [114] (some ⟨foobar, "myval"⟩) []⟩ : Edge String),
       ⟨122, node.mk [122] (some ⟨foobaz, "myval2"⟩) []⟩]).edges := by
  unfold SortedEdges
  simp

/-- Witness of C13 on the split node of `TestInsert_SplitsNode` and the byte of
"z". -/
theorem getEdge_spec_witness :
    SortedEdges (node.mk fooba none
      [(⟨114, node.mk [114] (some ⟨foobar, "myval"⟩) []⟩ : Edge String),
       ⟨122, node.mk [122] (some ⟨foobaz, "myval2"⟩) []⟩]).edges ∧
    ∃ r, getEdge (node.mk fooba none
        [(⟨114, node.mk [114] (some ⟨foobar, "myval"⟩) []⟩ : Edge String),
         ⟨122, node.mk [122] (some ⟨foobaz, "myval2"⟩) []⟩]) (122 :: []) =
        .ok (r, (node.mk fooba none
          [(⟨114, node.mk [114] (some ⟨foobar, "myval"⟩) []⟩ : Edge String),
           ⟨122, node.mk [122] (some ⟨foobaz, "myval2"⟩) []⟩]).edges.countP
            (fun e => decide (e.label < 122))) ∧
      (r = none ↔ ∀ e ∈ (node.mk fooba none
          [(⟨114, node.mk [114] (some ⟨foobar, "myval"⟩) []⟩ : Edge String),
           ⟨122, node.mk [122] (some ⟨foobaz, "myval2"⟩) []⟩]).edges, e.label ≠ 122) ∧
      (∀ e, r = some e →
        (node.mk fooba none
          [(⟨114, node.mk [114] (some ⟨foobar, "myval"⟩) []⟩ : Edge String),
           ⟨122, node.mk [122] (some ⟨foobaz, "myval2"⟩) []⟩]).edges[(node.mk fooba none
            [(⟨114, node.mk [114] (some ⟨foobar, "myval"⟩) []⟩ : Edge String),
             ⟨122, node.mk [122] (some ⟨foobaz, "myval2"⟩) []⟩]).edges.countP
              (fun e => decide (e.label < 122))]? = some e ∧ e.label = 122) :=
  ⟨sorted_wantedSplitsNode_children,
    getEdge_spec _ sorted_wantedSplitsNode_children 122 []⟩

theorem sorted_wantedAddsEdgeToRoot_root : SortedEdges wantedAddsEdgeToRoot.root.edges := by
  unfold SortedEdges
  simp [wantedAddsEdgeToRoot]

theorem fresh_casbar_wantedAddsEdgeToRoot :
    ∀ x ∈ wantedAddsEdgeToRoot.root.edges,
      x.label ≠ (⟨99, node.mk casbar (some ⟨casbar, "myval2"⟩) []⟩ : Edge String).label := by
  intro x hx
  simp only [wantedAddsEdgeToRoot, node_edges_mk, List.mem_singleton] at hx
  subst hx
  decide

/-- Witness of C14: the edge for "casbar" added to the root of the tree of
`TestInsert_AddsEdgeToRoot`. -/
theorem addEdge_spec_witness :
    SortedEdges wantedAddsEdgeToRoot.root.edges ∧
    (∀ x ∈ wantedAddsEdgeToRoot.root.edges,
      x.label ≠ (⟨99, node.mk casbar (some ⟨casbar, "myval2"⟩) []⟩ : Edge String).label) ∧
    ∃ n' j, addEdge wantedAddsEdgeToRoot.root
        ⟨99, node.mk casbar (some ⟨casbar, "myval2"⟩) []⟩ = .ok n' ∧
      n'.pfx = wantedAddsEdgeToRoot.root.pfx ∧ n'.leaf = wantedAddsEdgeToRoot.root.leaf ∧
      j ≤ wantedAddsEdgeToRoot.root.edges.length ∧
      n'.edges = wantedAddsEdgeToRoot.root.edges.take j ++
        ⟨99, node.mk casbar (some ⟨casbar, "myval2"⟩) []⟩ ::
          wantedAddsEdgeToRoot.root.edges.drop j ∧
      SortedEdges n'.edges ∧ n'.edges.length = wantedAddsEdgeToRoot.root.edges.length + 1 ∧
      (⟨99, node.mk casbar (some ⟨casbar, "myval2"⟩) []⟩ : Edge String) ∈ n'.edges ∧
      wantedAddsEdgeToRoot.root.edges.Sublist n'.edges :=
  ⟨sorted_wantedAddsEdgeToRoot_root, fresh_casbar_wantedAddsEdgeToRoot,
    addEdge_spec wantedAddsEdgeToRoot.root ⟨99, node.mk casbar (some ⟨casbar, "myval2"⟩) []⟩
      sorted_wantedAddsEdgeToRoot_root fresh_casbar_wantedAddsEdgeToRoot⟩

/-! ### The tree and the memory of the caller -/

@[simp] theorem cnode_pfx_mk (p : List Cell) (l : Option (leaf V)) (es : List (CEdge V)) :
    (cnode.mk p l es).pfx = p := rfl
@[simp] theorem cnode_leaf_mk (p : List Cell) (l : Option (leaf V)) (es : List (CEdge V)) :
    (cnode.mk p l es).leaf = l := rfl
@[simp] theorem cnode_edges_mk (p : List Cell) (l : Option (leaf V)) (es : List (CEdge V)) :
    (cnode.mk p l es).edges = es := rfl

theorem viewEdges_eq_map (mem : Mem) (es : List (CEdge V)) :
    viewEdges mem es = es.map (viewEdge mem) := by
  induction es with
  | nil => rfl
  | cons e es ih =>
    cases e
    simp only [viewEdges, ih, List.map_cons, viewEdge]

theorem view_mk (mem : Mem) (p : List Cell) (l : Option (leaf V)) (es : List (CEdge V)) :
    (cnode.mk p l es).view mem = node.mk (p.map (Cell.read mem)) l (es.map (viewEdge mem)) := by
  simp only [cnode.view, viewEdges_eq_map]

theorem view_eq (mem : Mem) (n : cnode V) :
    n.view mem = node.mk (n.pfx.map (Cell.read mem)) n.leaf (n.edges.map (viewEdge mem)) := by
  cases n
  exact view_mk mem _ _ _

@[simp] theorem view_pfx (mem : Mem) (n : cnode V) :
    (n.view mem).pfx = n.pfx.map (Cell.read mem) := by
  rw [view_eq]; rfl

@[simp] theorem view_leaf (mem : Mem) (n : cnode V) : (n.view mem).leaf = n.leaf := by
  rw [view_eq]; rfl

@[simp] theorem view_edges (mem : Mem) (n : cnode V) :
    (n.view mem).edges = n.edges.map (viewEdge mem) := by
  rw [view_eq]; rfl

@[simp] theorem viewEdge_label (mem : Mem) (e : CEdge V) : (viewEdge mem e).label = e.label :=
  rfl

@[simp] theorem viewEdge_node (mem : Mem) (e : CEdge V) :
    (viewEdge mem e).node = e.node.view mem := rfl

theorem geLabel_view (mem : Mem) (es : List (CEdge V)) (p : Byte) :
    geLabel (es.map (viewEdge mem)) p =
      (fun i => match es[i]? with
        | some e => decide (e.label ≥ p)
        | none => true) := by
  funext i
  unfold geLabel
  rw [List.getElem?_map]
  cases es[i]? <;> rfl

theorem cgetEdge_eq (mem : Mem) (n : cnode V) (c : Cell) (q : List Cell) :
    cgetEdge mem n (c :: q) =
      (if sortSearch n.edges.length (geLabel (n.edges.map (viewEdge mem)) (c.read mem)) ≥
          n.edges.length then
        .ok (none, sortSearch n.edges.length (geLabel (n.edges.map (viewEdge mem)) (c.read mem)))
      else
        match n.edges[sortSearch n.edges.length
            (geLabel (n.edges.map (viewEdge mem)) (c.read mem))]? with
        | none => .error .indexOutOfRange
        | some e =>
          if e.label ≠ c.read mem then
            .ok (none, sortSearch n.edges.length
              (geLabel (n.edges.map (viewEdge mem)) (c.read mem)))
          else .ok (some e, sortSearch n.edges.length
            (geLabel (n.edges.map (viewEdge mem)) (c.read mem)))) := by
  rw [geLabel_view]
  rfl

/-- `getEdge` on the bytes of a node is `getEdge` on the node. -/
theorem getEdge_view (mem : Mem) (n : cnode V) (pre : List Cell) :
    getEdge (n.view mem) (pre.map (Cell.read mem)) =
      match cgetEdge mem n pre with
      | .error f => .error f
      | .ok (r, i) => .ok (r.map (viewEdge mem), i) := by
  cases pre with
  | nil => rfl
  | cons c q =>
    rw [List.map_cons, getEdge_eq, cgetEdge_eq]
    simp only [view_edges, List.length_map]
    split
    · rfl
    · rw [List.getElem?_map]
      cases n.edges[sortSearch n.edges.length
          (geLabel (n.edges.map (viewEdge mem)) (c.read mem))]? with
      | none => rfl
      | some e =>
        simp only [Option.map_some', viewEdge_label]
        split <;> rfl

/-- `addEdge` on the bytes of a node is `addEdge` on the node. -/
theorem addEdge_view (mem : Mem) (n : cnode V) (e : CEdge V) :
    addEdge (n.view mem) (viewEdge mem e) =
      match caddEdge mem n e with
      | .error f => .error f
      | .ok n' => .ok (n'.view mem) := by
  have hg := getEdge_view mem n [Cell.owned e.label]
  simp only [List.map_cons, List.map_nil, Cell.read] at hg
  unfold addEdge caddEdge
  simp only [viewEdge_label, hg]
  cases cgetEdge mem n [Cell.owned e.label] with
  | error f => rfl
  | ok x =>
    obtain ⟨r, idx⟩ := x
    simp only [view_edges, List.length_map]
    split
    · rfl
    · simp only [view_mk, view_pfx, view_leaf, List.map_append, List.map_cons, List.map_take,
        List.map_drop]

theorem slice_map {α β : Type} (f : α → β) (s : List α) (a b : Nat) :
    slice (s.map f) a b =
      match slice s a b with
      | .error e => .error e
      | .ok x => .ok (x.map f) := by
  unfold slice
  simp only [List.length_map]
  split
  · simp only [List.map_drop, List.map_take]
  · rfl

theorem index_map {α β : Type} (f : α → β) (s : List α) (i : Nat) :
    index (s.map f) i =
      match index s i with
      | .error e => .error e
      | .ok x => .ok (f x) := by
  unfold index
  rw [List.getElem?_map]
  cases s[i]? <;> rfl

/-- The traversal of the bytes of a tree is the traversal of the tree. -/
theorem longestPathLoop_view (mem : Mem) : ∀ (fuel : Nat) (n : cnode V) (p : List Cell),
    longestPathLoop fuel (n.view mem) (p.map (Cell.read mem)) =
      match clongestPathLoop mem fuel n p with
      | .error f => .error f
      | .ok (ns, is) => .ok (ns.map (cnode.view mem), is) := by
  intro fuel
  induction fuel with
  | zero => intro n p; rfl
  | succ fuel ih =>
    intro n p
    rw [longestPathLoop_succ]
    simp only [clongestPathLoop, List.length_map]
    split
    · rfl
    · rw [getEdge_view]
      cases cgetEdge mem n p with
      | error f => rfl
      | ok x =>
        obtain ⟨r, idx⟩ := x
        cases r with
        | none => rfl
        | some e =>
          simp only [Option.map_some', viewEdge_node, view_pfx, List.length_map]
          have hs := slice_map (Cell.read mem) p e.node.pfx.length p.length
          simp only [List.length_map] at hs
          rw [hs]
          cases slice p e.node.pfx.length p.length with
          | error f => rfl
          | ok p' =>
            simp only [ih e.node p']
            cases clongestPathLoop mem fuel e.node p' with
            | error f => rfl
            | ok y => rfl

theorem longestPath_view (mem : Mem) (t : CTree V) (key : List Cell) :
    longestPath (t.view mem) (key.map (Cell.read mem)) =
      match clongestPath mem t key with
      | .error f => .error f
      | .ok (ns, is) => .ok (ns.map (cnode.view mem), is) :=
  longestPathLoop_view mem _ t.root key

theorem creplaceAt_nil (n m : cnode V) : creplaceAt n [] m = m := by
  cases n; rfl

theorem creplaceAt_cons (n m : cnode V) (i : Nat) (is : List Nat) :
    creplaceAt n (i :: is) m =
      match n.edges[i]? with
      | some e => cnode.mk n.pfx n.leaf (n.edges.set i ⟨e.label, creplaceAt e.node is m⟩)
      | none => n := by
  cases n; rfl

theorem replaceAt_cons (n m : node V) (i : Nat) (is : List Nat) :
    replaceAt n (i :: is) m =
      match n.edges[i]? with
      | some e => node.mk n.pfx n.leaf (n.edges.set i ⟨e.label, replaceAt e.node is m⟩)
      | none => n := by
  cases n; rfl

/-- Overwriting a node commutes with taking the bytes. -/
theorem replaceAt_view (mem : Mem) : ∀ (path : List Nat) (n m : cnode V),
    replaceAt (n.view mem) path (m.view mem) = (creplaceAt n path m).view mem := by
  intro path
  induction path with
  | nil => intro n m; rw [replaceAt_nil, creplaceAt_nil]
  | cons i is ih =>
    intro n m
    rw [replaceAt_cons, creplaceAt_cons]
    simp only [view_edges, List.getElem?_map]
    cases n.edges[i]? with
    | none => rfl
    | some e =>
      simp only [Option.map_some', viewEdge_label, viewEdge_node, ih e.node m, view_pfx,
        view_leaf, view_mk, List.map_set]
      rfl

theorem map_read_owned (mem : Mem) (l : List Byte) :
    (l.map Cell.owned).map (Cell.read mem) = l := by
  induction l with
  | nil => rfl
  | cons b l ih => simp only [List.map_cons, ih, Cell.read]

theorem matched_length_view (mem : Mem) (ns : List (cnode V)) :
    (((ns.map (cnode.view mem)).map node.pfx).flatten).length =
      ((ns.map cnode.pfx).flatten).length := by
  induction ns with
  | nil => rfl
  | cons n ns ih =>
    simp only [List.map_cons, List.flatten_cons, List.length_append, view_pfx, List.length_map]
    simp only [List.map_map] at ih ⊢
    rw [ih]

/-- `Insert` on the bytes of a tree is `InsertC` on the tree: both fail with the
same fault, or both complete and the bytes of the new tree are the result of
`Insert`. -/
theorem Insert_view (mem : Mem) (t : CTree V) (key : List Cell) (val : V) :
    Insert (t.view mem) (key.map (Cell.read mem)) val =
      match InsertC mem t key val with
      | .error f => .error f
      | .ok t' => .ok (t'.view mem) := by
  unfold Insert InsertC
  simp only [longestPath_view]
  cases hlp : clongestPath mem t key with
  | error f => rfl
  | ok x =>
    obtain ⟨nodes, idxs⟩ := x
    simp only [List.length_map]
    by_cases hl : nodes.length = 1
    · simp only [hl, if_true]
      cases key with
      | nil => rfl
      | cons k0 rest =>
        simp only [List.map_cons, index_map]
        cases index nodes 0 with
        | error f => rfl
        | ok n0 =>
          simp only
          have := addEdge_view mem n0 ⟨k0.read mem, cnode.mk (k0 :: rest)
            (some ⟨(k0 :: rest).map (Cell.read mem), val⟩) []⟩
          simp only [viewEdge, view_mk, List.map_cons, List.map_nil] at this
          rw [this]
          generalize caddEdge mem n0 _ = res
          cases res with
          | error f => rfl
          | ok n0' =>
            simp only [replaceAt_nil, creplaceAt_nil, CTree.view]
    · simp only [hl, if_false, index_map]
      generalize index nodes (nodes.length - 1) = r1
      generalize index nodes (nodes.length - 2) = r2
      cases r1 with
      | error f => cases r2 <;> rfl
      | ok farthest =>
        cases r2 with
        | error f => rfl
        | ok parent =>
          simp only [← List.map_take, matched_length_view, slice_map, List.length_map]
          generalize slice key _ key.length = r3
          cases r3 with
          | error f => rfl
          | ok remaining =>
            simp only [view_pfx]
            by_cases heq : remaining.map (Cell.read mem) = farthest.pfx.map (Cell.read mem)
            · simp only [heq, if_true, CTree.view]
              rw [← replaceAt_view, view_mk, view_edges]
            · simp only [heq, if_false, slice_map, List.length_map]
              generalize commonPrefix (remaining.map (Cell.read mem))
                (farthest.pfx.map (Cell.read mem)) = cp
              generalize slice remaining cp.length remaining.length = r4
              generalize slice farthest.pfx cp.length farthest.pfx.length = r5
              cases r4 with
              | error f => cases r5 <;> rfl
              | ok leafPrefix =>
                cases r5 with
                | error f => rfl
                | ok oldPrefix =>
                  simp only [List.length_map]
                  by_cases hold : oldPrefix.length = 0
                  · simp only [hold, if_true]
                    cases leafPrefix with
                    | nil => rfl
                    | cons b lp =>
                      simp only [List.map_cons]
                      have := addEdge_view mem farthest ⟨b.read mem, cnode.mk (b :: lp)
                        (some ⟨key.map (Cell.read mem), val⟩) []⟩
                      simp only [viewEdge, view_mk, List.map_cons, List.map_nil] at this
                      rw [this]
                      generalize caddEdge mem farthest _ = res
                      cases res with
                      | error f => rfl
                      | ok farthest' =>
                        simp only [CTree.view, replaceAt_view]
                  · simp only [hold, if_false]
                    cases leafPrefix with
                    | nil => rfl
                    | cons b lp =>
                      simp only [List.map_cons]
                      have h1 := addEdge_view mem (cnode.mk (cp.map Cell.owned) none [])
                        ⟨b.read mem, cnode.mk (b :: lp) (some ⟨key.map (Cell.read mem), val⟩) []⟩
                      simp only [viewEdge, view_mk, List.map_cons, List.map_nil,
                        map_read_owned] at h1
                      rw [h1]
                      generalize caddEdge mem (cnode.mk (cp.map Cell.owned) none []) _ = res1
                      cases res1 with
                      | error f => rfl
                      | ok splitNode1 =>
                        simp only
                        cases oldPrefix with
                        | nil => rfl
                        | cons o op =>
                          simp only [List.map_cons]
                          have h2 := addEdge_view mem splitNode1
                            ⟨o.read mem, cnode.mk (o :: op) farthest.leaf farthest.edges⟩
                          simp only [viewEdge, view_mk, List.map_cons] at h2
                          simp only [view_leaf, view_edges]
                          rw [h2]
                          generalize caddEdge mem splitNode1 _ = res2
                          cases res2 with
                          | error f => rfl
                          | ok splitNode2 =>
                            simp only
                            have h3 := getEdge_view mem parent (cp.map Cell.owned)
                            rw [map_read_owned] at h3
                            rw [h3]
                            generalize cgetEdge mem parent (cp.map Cell.owned) = res3
                            cases res3 with
                            | error f => rfl
                            | ok x =>
                              obtain ⟨r, idx⟩ := x
                              simp only
                              cases cp with
                              | nil => rfl
                              | cons c0 cp' =>
                                simp only [List.map_cons, view_edges, List.length_map]
                                split
                                · simp only [CTree.view, ← replaceAt_view, view_mk,
                                    view_pfx, view_leaf, List.map_set, viewEdge, Cell.read]
                                · rfl

theorem cnodeAt_nil (n : cnode V) : cnodeAt n [] = some n := by
  cases n; rfl

theorem cnodeAt_cons_of (n : cnode V) (i : Nat) (is : List Nat) (e : CEdge V)
    (h : n.edges[i]? = some e) : cnodeAt n (i :: is) = cnodeAt e.node is := by
  cases n
  simp only [cnode_edges_mk] at h
  simp only [cnodeAt, cnode_edges_mk, h]

theorem read_write_of_ne (mem : Mem) (a : Nat) (b : Byte) (c : Cell)
    (h : c ≠ Cell.caller a) : c.read (mem.write a b) = c.read mem := by
  cases c with
  | owned x => rfl
  | caller x =>
    have hx : x ≠ a := fun hc => h (by rw [hc])
    simp only [Cell.read, Mem.write, hx, if_false]

/-- Writing a byte that a subtree does not hold leaves the bytes of the subtree
as they are. -/
theorem view_write (mem : Mem) (a : Nat) (b : Byte) : ∀ (k : Nat) (n : cnode V),
    (n.view mem).height ≤ k →
    (∀ path m, cnodeAt n path = some m → Cell.caller a ∉ m.pfx) →
    n.view (mem.write a b) = n.view mem := by
  intro k
  induction k with
  | zero => intro n hk; have := height_pos (n.view mem); omega
  | succ k ih =>
    intro n hk hn
    rw [view_eq (mem.write a b) n, view_eq mem n]
    have hp : n.pfx.map (Cell.read (mem.write a b)) = n.pfx.map (Cell.read mem) := by
      apply List.map_congr_left
      intro c hc
      apply read_write_of_ne
      intro hca
      rw [hca] at hc
      exact hn [] n (cnodeAt_nil n) hc
    have he : n.edges.map (viewEdge (mem.write a b)) = n.edges.map (viewEdge mem) := by
      apply List.map_congr_left
      intro e hmem
      obtain ⟨i, hi, hie⟩ := List.getElem_of_mem hmem
      have hget : n.edges[i]? = some e := by rw [List.getElem?_eq_getElem hi, hie]
      have hlt : (e.node.view mem).height < (n.view mem).height := by
        apply height_child_lt (n.view mem) (viewEdge mem e)
        rw [view_edges]
        exact List.mem_map_of_mem _ hmem
      unfold viewEdge
      rw [ih e.node (by omega) (fun path m hm =>
        hn (i :: path) m (by rw [cnodeAt_cons_of n i path e hget]; exact hm))]
    rw [hp, he]

theorem view_write_tree (mem : Mem) (a : Nat) (b : Byte) (t : CTree V) (h : ¬ Holds t a) :
    t.view (mem.write a b) = t.view mem := by
  unfold CTree.view
  rw [view_write mem a b _ t.root (le_refl _)]
  intro path m hm hc
  exact h ⟨path, m, hm, hc⟩

/-- The trees of `Reachable` are the bytes of the trees of the program as long
as the program does not overwrite a byte that the tree holds. -/
theorem safeRun_reachable (mem : Mem) (t : CTree V) (h : SafeRun mem t) :
    Reachable (t.view mem) := by
  induction h with
  | new mem => exact Reachable.new
  | @insert mem t t' base len val _ hins ih =>
    have := Insert_view mem t (keyCells base len) val
    rw [hins] at this
    exact Reachable.insert _ val ih this
  | write a b _ hnot ih =>
    rw [view_write_tree _ a b _ hnot]; exact ih

theorem safeRun_run (mem : Mem) (t : CTree V) (h : SafeRun mem t) : Run mem t := by
  induction h with
  | new mem => exact Run.new mem
  | insert base len val _ hins ih => exact Run.insert base len val ih hins
  | write a b _ _ ih => exact Run.write a b ih

theorem nodeAt_view (mem : Mem) : ∀ (path : List Nat) (n : cnode V),
    nodeAt (n.view mem) path = (cnodeAt n path).map (cnode.view mem) := by
  intro path
  induction path with
  | nil => intro n; rw [nodeAt_nil, cnodeAt_nil]; rfl
  | cons i is ih =>
    intro n
    rw [nodeAt_cons, view_edges, List.getElem?_map]
    cases he : n.edges[i]? with
    | none =>
      cases n
      simp only [cnode_edges_mk] at he
      simp only [Option.map_none', cnodeAt, cnode_edges_mk, he]
    | some e =>
      rw [cnodeAt_cons_of n i is e he]
      simp only [Option.map_some', viewEdge_node]
      exact ih e.node

/-- The shape invariants do not depend on the bytes in memory. -/
theorem shapedNode_view (mem mem' : Mem) (m : cnode V) (h : ShapedNode (m.view mem)) :
    ShapedNode (m.view mem') := by
  obtain ⟨hs, hl⟩ := h
  constructor
  · unfold SortedEdges at hs ⊢
    rw [view_edges, List.pairwise_map] at hs ⊢
    exact hs
  · intro e he
    rw [view_edges, List.mem_map] at he
    obtain ⟨ce, hce, rfl⟩ := he
    have := hl (viewEdge mem ce) (by rw [view_edges]; exact List.mem_map_of_mem _ hce)
    simp only [viewEdge_node, view_pfx, ne_eq, List.map_eq_nil_iff] at this ⊢
    exact this

theorem shaped_view (mem mem' : Mem) (n : cnode V) (h : Shaped (n.view mem)) :
    Shaped (n.view mem') := by
  intro path m hm
  rw [nodeAt_view] at hm
  cases hc : cnodeAt n path with
  | none => rw [hc] at hm; exact absurd hm (by simp)
  | some cm =>
    rw [hc] at hm
    simp only [Option.map_some', Option.some.injEq] at hm
    subst hm
    exact shapedNode_view mem mem' cm (h path (cm.view mem) (by rw [nodeAt_view, hc]; rfl))

theorem compressed_view (mem mem' : Mem) (n : cnode V) (h : Compressed (n.view mem)) :
    Compressed (n.view mem') := by
  intro path m hne hm
  rw [nodeAt_view] at hm
  cases hc : cnodeAt n path with
  | none => rw [hc] at hm; exact absurd hm (by simp)
  | some cm =>
    rw [hc] at hm
    simp only [Option.map_some', Option.some.injEq] at hm
    subst hm
    have := h path (cm.view mem) hne (by rw [nodeAt_view, hc]; rfl)
    unfold Packed at this ⊢
    simp only [view_leaf, view_edges, List.length_map] at this ⊢
    exact this

/-- What every tree of the program satisfies, whatever the caller has written to
the buffers of the keys: edges ascending by label, child prefixes non-empty, the
root prefix empty, no leaf at the root, leafless non-root nodes with two edges
or more. -/
theorem run_shaped (mem : Mem) (t : CTree V) (h : Run mem t) :
    Shaped (t.view mem).root ∧ (t.view mem).root.pfx = [] ∧ (t.view mem).root.leaf = none ∧
      Compressed (t.view mem).root := by
  induction h with
  | new mem => exact ⟨shaped_no_edges _ _, rfl, rfl, compressed_no_edges _ _⟩
  | @insert mem t t' base len val _ hins ih =>
    have hv := Insert_view mem t (keyCells base len) val
    rw [hins] at hv
    obtain ⟨hs, hroot, hleaf, hc⟩ := ih
    obtain ⟨h1, h2, h3⟩ := Insert_shaped _ _ val _ hs hroot hv
    exact ⟨h1, h2, by rw [h3]; exact hleaf, Insert_compressed _ _ val _ hroot hc hv⟩
  | @write mem t a b _ ih =>
    obtain ⟨hs, hroot, hleaf, hc⟩ := ih
    refine ⟨shaped_view mem _ t.root hs, ?_, ?_, compressed_view mem _ t.root hc⟩
    · simp only [CTree.view, view_pfx, List.map_eq_nil_iff] at hroot ⊢
      exact hroot
    · simp only [CTree.view, view_leaf] at hleaf ⊢
      exact hleaf

/-- The program run `buf := "foo"; Insert(buf, "v1"); copy(buf, "bar");
Insert(buf, "v2")`: both calls complete and leave `cellTree2`. -/
theorem run_buffer_reuse : Run memBar cellTree2 :=
  have h1 : Run memFoo cellTree1 := Run.insert 0 3 "v1" (Run.new memFoo) rfl
  Run.insert 0 3 "v2" (Run.write 2 114 (Run.write 1 97 (Run.write 0 98 h1))) rfl

/-- C6, counterexample. The program inserts the key "foo" held in a buffer,
copies "bar" into the same buffer and inserts it again. Both calls complete, and
the edge labelled 'f' then leads to a node whose prefix reads "bar": the label
is not the first byte of the prefix. -/
theorem edge_label_broken_by_buffer_reuse :
    InsertC memFoo CNew (keyCells 0 3) "v1" = .ok cellTree1 ∧
      InsertC memBar cellTree1 (keyCells 0 3) "v2" = .ok cellTree2 ∧
      Run memBar cellTree2 ∧ cellTree2.view memBar = treeFooBar ∧
      ∃ e ∈ treeFooBar.root.edges,
        e.label = 102 ∧ e.node.pfx = keyBar ∧ e.node.pfx.head? ≠ some e.label :=
  ⟨rfl, rfl, run_buffer_reuse, rfl,
    ⟨102, node.mk keyBar (some ⟨foo, "v1"⟩) []⟩, by simp [treeFooBar], rfl, rfl, by decide⟩

/-- C10, counterexample. The keys "foo" and "bar", with distinct first bytes,
are inserted from one buffer that the caller refills. Both calls complete, and
the node that holds the leaf of "foo" has the prefix "bar", not the whole key
"foo". -/
theorem distinct_first_bytes_broken_by_buffer_reuse :
    (keyCells 0 3).map (Cell.read memFoo) = foo ∧
      (keyCells 0 3).map (Cell.read memBar) = keyBar ∧
      foo.head? ≠ keyBar.head? ∧
      InsertC memFoo CNew (keyCells 0 3) "v1" = .ok cellTree1 ∧
      InsertC memBar cellTree1 (keyCells 0 3) "v2" = .ok cellTree2 ∧
      cellTree2.view memBar = treeFooBar ∧
      ∃ e ∈ treeFooBar.root.edges,
        e.node.leaf = some ⟨foo, "v1"⟩ ∧ e.node.pfx = keyBar ∧ keyBar ≠ foo :=
  ⟨rfl, rfl, by decide, rfl, rfl, rfl,
    ⟨102, node.mk keyBar (some ⟨foo, "v1"⟩) []⟩, by simp [treeFooBar], rfl, rfl, by decide⟩

theorem not_overrun_treeFooBar : ¬ Overrun treeFooBar keyFXY := by
  rintro ⟨ns, is, m, q, e, hh, hmem, hhead, hlt⟩
  have hroot : getEdge treeFooBar.root keyFXY =
      .ok (some ⟨102, node.mk keyBar (some ⟨foo, "v1"⟩) []⟩, 1) := rfl
  cases hh with
  | nil =>
    simp only [treeFooBar, node_edges_mk, List.mem_cons, List.not_mem_nil, or_false] at hmem
    rcases hmem with hmem | hmem
    · subst hmem
      exact absurd hhead (by decide)
    · subst hmem
      exact absurd hlt (by decide)
  | @cons _ _ e1 i1 ns' is' _ _ hg hlen hrest =>
    rw [hroot] at hg
    simp only [Except.ok.injEq, Prod.mk.injEq, Option.some.injEq] at hg
    obtain ⟨he1, -⟩ := hg
    subst he1
    cases hrest with
    | nil => exact absurd hhead (by simp [keyFXY, keyBar])
    | cons hg2 _ _ =>
      have : getEdge (node.mk keyBar (some ⟨foo, "v1"⟩) ([] : List (Edge String)))
          (keyFXY.drop (node.mk keyBar (some ⟨foo, "v1"⟩)
            ([] : List (Edge String))).pfx.length) = .error .indexOutOfRange := rfl
      rw [this] at hg2
      exact absurd hg2 (by simp)

/-- C18, counterexample. On the tree that the buffer reuse of `run_buffer_reuse`
leaves, `Insert("fxy", "v3")` fails with an index fault (in `getEdge(cp)`, for
the empty common prefix of "fxy" and "bar"), although the key is not empty and
the traversal does not overrun. -/
theorem insert_fails_without_overrun :
    Run memBar cellTree2 ∧ cellTree2.view memBar = treeFooBar ∧
      (keyCells 3 3).map (Cell.read memBar) = keyFXY ∧ keyFXY ≠ [] ∧
      ¬ Overrun treeFooBar keyFXY ∧
      InsertC memBar cellTree2 (keyCells 3 3) "v3" = .error .indexOutOfRange ∧
      Insert treeFooBar keyFXY "v3" = .error .indexOutOfRange :=
  ⟨run_buffer_reuse, rfl, rfl, by decide, not_overrun_treeFooBar, rfl, rfl⟩

/-- C4, counterexample. The key "foobar" is inserted from one buffer with
"myval"; the caller overwrites the first byte of that buffer; the same key
"foobar", held in a second buffer, is inserted with "myval2". The first call
completes, the second call fails with an index fault. -/
theorem second_insert_fails_after_overwrite :
    (keyCells 0 6).map (Cell.read memTwoFoobar) = foobar ∧
      InsertC memTwoFoobar CNew (keyCells 0 6) "myval" = .ok cellTreeFoobar ∧
      Run (memTwoFoobar.write 0 103) cellTreeFoobar ∧
      (keyCells 6 6).map (Cell.read (memTwoFoobar.write 0 103)) = foobar ∧
      InsertC (memTwoFoobar.write 0 103) cellTreeFoobar (keyCells 6 6) "myval2" =
        .error .indexOutOfRange :=
  ⟨rfl, rfl, Run.write 0 103 (Run.insert 0 6 "myval" (Run.new memTwoFoobar) rfl), rfl, rfl⟩

/-- C9, counterexample. The key "foo" is inserted from a buffer; the caller
overwrites the first byte of that buffer; the key "foobar", which extends "foo"
by "bar" and is held in a second buffer, is inserted. The first call completes,
the second call fails with an index fault instead of adding a child to the node
of "foo". -/
theorem extension_fails_after_overwrite :
    (keyCells 0 3).map (Cell.read memTwoFoobar) = foo ∧
      InsertC memTwoFoobar CNew (keyCells 0 3) "myval" = .ok cellTreeFoo ∧
      Run (memTwoFoobar.write 0 103) cellTreeFoo ∧
      (keyCells 6 6).map (Cell.read (memTwoFoobar.write 0 103)) = foo ++ [98, 97, 114] ∧
      InsertC (memTwoFoobar.write 0 103) cellTreeFoo (keyCells 6 6) "myval2" =
        .error .indexOutOfRange :=
  ⟨rfl, rfl, Run.write 0 103 (Run.insert 0 3 "myval" (Run.new memTwoFoobar) rfl), rfl, rfl⟩

/-! ### What holds of every run of the program -/

/-- With the edge invariants no traversal ends in a `Clash`: every child prefix
begins with the label of its edge. -/
theorem not_clash_of_inv (t : Tree V) (key : List Byte) (hinv : Inv t.root) :
    ¬ Clash t key := by
  rintro ⟨ns, is, m, q, e, hh, hmem, -, -, -, o, ho, hne⟩
  have := (hinv is m (hops_nodeAt hh)).2 e hmem
  rw [ho] at this
  simp only [Option.some.injEq] at this
  exact hne this

/-- On a tree with the shape invariants `Insert` fails exactly on the empty key,
on an overrun of the traversal, and when the traversal ends at a child whose
prefix does not begin with the label of its edge. -/
theorem Insert_error_iff_shaped (t : Tree V) (key : List Byte) (val : V)
    (hsh : Shaped t.root) (hroot : t.root.pfx = []) :
    (∃ f, Insert t key val = .error f) ↔ key = [] ∨ Overrun t key ∨ Clash t key := by
  constructor
  · rintro ⟨f, hf⟩
    by_cases hkey : key = []
    · exact Or.inl hkey
    · right
      cases hlp : longestPath t key with
      | error f' =>
        left
        obtain ⟨-, ns, is, m, q, e, i, hh, hg, hlt⟩ :=
          longestPathLoop_error _ _ _ f' (le_refl _) hlp
        obtain ⟨b, q', hq, hmem, hlab⟩ := getEdge_some_mem m q e i hg
        exact ⟨ns, is, m, q, e, hh, List.getElem?_mem hmem, by rw [hq, hlab]; rfl, hlt⟩
      | ok x =>
        right
        obtain ⟨nodes, idxs⟩ := x
        obtain ⟨ns, m, q, hns, hh, hstop⟩ := hops_of_longestPathLoop _ _ _ _ _ hlp
        cases idxs with
        | nil =>
          obtain ⟨-, hm, hq⟩ := hops_nil_inv hh
          subst hm
          rw [hq] at hstop
          cases key with
          | nil => exact absurd rfl hkey
          | cons k0 rest =>
            rcases hstop with hs | ⟨j, hs⟩
            · exact absurd hs (by simp)
            · rw [Insert_stop_root t k0 rest val j hs] at hf
              exact absurd hf (by simp)
        | cons i0 idxs0 =>
          obtain ⟨ns0, is0, parent, r, e, i, -, his, hh0, hg, hem, hlen, hq⟩ :=
            hops_snoc_inv hh (by simp)
          subst hem
          obtain ⟨x, y, hx, hy, hxy⟩ := commonPrefix_split r e.node.pfx
          generalize commonPrefix r e.node.pfx = cp at hx hy
          have hlen' : y.length ≤ x.length := by
            have h1 := congrArg List.length hx
            have h2 := congrArg List.length hy
            rw [List.length_append] at h1 h2
            omega
          cases y with
          | nil =>
            rw [List.append_nil] at hy
            cases x with
            | nil =>
              rw [List.append_nil] at hx
              rw [Insert_exact t key val ns0 is0 parent r e i hh0 hg hroot (by rw [hy, hx])] at hf
              exact absurd hf (by simp)
            | cons b lp =>
              have hr : r = e.node.pfx ++ b :: lp := by rw [hy]; exact hx
              have hq' : q = b :: lp := by
                rw [hq, hr]; exact List.drop_left _ _
              rcases hstop with hs | ⟨j, hs⟩
              · rw [hq'] at hs; exact absurd hs (by simp)
              · rw [hq'] at hs
                rw [Insert_extend t key val ns0 is0 parent r e i b lp j hh0 hg hroot hr hs] at hf
                exact absurd hf (by simp)
          | cons o op =>
            cases x with
            | nil => simp only [List.length_cons, List.length_nil] at hlen'; omega
            | cons b lp =>
              have hbo : b ≠ o := by
                rcases hxy with h1 | h1 | h1
                · exact absurd h1 (by simp)
                · exact absurd h1 (by simp)
                · simpa using h1
              rw [hq] at hstop
              cases cp with
              | nil =>
                rw [List.nil_append] at hx hy
                obtain ⟨b', q', hrb, hmem, hlab⟩ := getEdge_some_mem parent r e i hg
                rw [hx] at hrb
                simp only [List.cons.injEq] at hrb
                refine ⟨ns0, is0, parent, r, e, hh0, List.getElem?_mem hmem,
                  by rw [hx, hlab, ← hrb.1]; rfl, hlen, hstop, o, by rw [hy]; rfl, ?_⟩
                rw [hlab, ← hrb.1]
                exact Ne.symm hbo
              | cons c0 cp =>
                rw [Insert_split t key val ns0 is0 parent r e i c0 b o cp lp op hh0 hg hroot
                  hx hy hbo hlen hstop] at hf
                exact absurd hf (by simp)
  · rintro (hkey | ⟨ns, is, m, q, e, hh, hmem, hhead, hlt⟩ |
      ⟨ns, is, m, q, e, hh, hmem, hhead, hlen, hstop, o, ho, hne⟩)
    · subst hkey
      exact ⟨_, Insert_empty_key t val⟩
    · cases q with
      | nil => exact absurd hhead (by simp)
      | cons b q' =>
        simp only [List.head?_cons, Option.some.injEq] at hhead
        obtain ⟨i, hi, hie⟩ := List.getElem_of_mem hmem
        have hget : m.edges[i]? = some e := by rw [List.getElem?_eq_getElem hi, hie]
        have hg := getEdge_found m (hsh is m (hops_nodeAt hh)).1 i e b q' hget hhead.symm
        exact ⟨_, Insert_error_of_longestPath t key val _
          (longestPathLoop_overrun hh hg hlt _ (le_refl _))⟩
    · cases q with
      | nil => exact absurd hhead (by simp)
      | cons b q' =>
        simp only [List.head?_cons, Option.some.injEq] at hhead
        obtain ⟨i, hi, hie⟩ := List.getElem_of_mem hmem
        have hget : m.edges[i]? = some e := by rw [List.getElem?_eq_getElem hi, hie]
        have hg := getEdge_found m (hsh is m (hops_nodeAt hh)).1 i e b q' hget hhead.symm
        cases hp : e.node.pfx with
        | nil => rw [hp] at ho; exact absurd ho (by simp)
        | cons o' op =>
          rw [hp] at ho
          simp only [List.head?_cons, Option.some.injEq] at ho
          subst ho
          refine ⟨_, Insert_clash t key val ns is m (b :: q') e i b o' q' op hh hg hroot rfl hp
            ?_ hlen hstop⟩
          rw [hhead]
          exact Ne.symm hne

/-- `InsertC` fails exactly when `Insert` fails on the bytes, with the same
fault. -/
theorem insertC_error_iff (mem : Mem) (t : CTree V) (key : List Cell) (val : V) (f : Fault) :
    InsertC mem t key val = .error f ↔
      Insert (t.view mem) (key.map (Cell.read mem)) val = .error f := by
  rw [Insert_view]
  cases InsertC mem t key val with
  | error f' => simp
  | ok t' => simp

/-- `InsertC` completes exactly when `Insert` completes on the bytes, with the
bytes of its result. -/
theorem insertC_ok_of (mem : Mem) (t : CTree V) (key : List Cell) (val : V) (u : Tree V)
    (h : Insert (t.view mem) (key.map (Cell.read mem)) val = .ok u) :
    ∃ t', InsertC mem t key val = .ok t' ∧ t'.view mem = u := by
  rw [Insert_view] at h
  cases hc : InsertC mem t key val with
  | error f' => rw [hc] at h; exact absurd h (by simp)
  | ok t' =>
    rw [hc] at h
    simp only [Except.ok.injEq] at h
    exact ⟨t', rfl, h⟩

/-- A completed `InsertC` is a completed `Insert` on the bytes. -/
theorem insertC_ok_view (mem : Mem) (t t' : CTree V) (key : List Cell) (val : V)
    (h : InsertC mem t key val = .ok t') :
    Insert (t.view mem) (key.map (Cell.read mem)) val = .ok (t'.view mem) := by
  rw [Insert_view, h]

/-- The program run `Insert("foobar", "myval"); Insert("foobaz", "myval2")` from
two buffers that the caller leaves as they are. -/
theorem safeRun_cellTreeSplit : SafeRun memFoobarFoobaz cellTreeSplit :=
  SafeRun.insert 6 6 "myval2"
    (SafeRun.insert 0 6 "myval" (SafeRun.new memFoobarFoobaz) rfl) rfl

/-- C6 (amended). Edge labels: in every tree of the program, whatever the caller
has written to the buffers of the keys, the child of every edge has a non-empty
prefix; and as long as the program has overwritten no byte that the tree holds
(`SafeRun`), the label of the edge is the first byte of that prefix. -/
theorem edge_label_of_run (mem : Mem) (t : CTree V) (h : Run mem t) (path : List Nat)
    (n : node V) (hn : nodeAt (t.view mem).root path = some n) :
    ∀ e ∈ n.edges, e.node.pfx ≠ [] ∧ (SafeRun mem t → e.node.pfx.head? = some e.label) := by
  intro e he
  refine ⟨((run_shaped mem t h).1 path n hn).2 e he, ?_⟩
  intro hsafe
  exact ((reachable_inv _ (safeRun_reachable mem t hsafe)).1 path n hn).2 e he

/-- Witness of C6 on the split node of `TestInsert_SplitsNode`, built from two
buffers of the caller. -/
theorem edge_label_of_run_witness :
    Run memFoobarFoobaz cellTreeSplit ∧
      nodeAt (cellTreeSplit.view memFoobarFoobaz).root [0] = some (node.mk fooba none
        [⟨114, node.mk [114] (some ⟨foobar, "myval"⟩) []⟩,
         ⟨122, node.mk [122] (some ⟨foobaz, "myval2"⟩) []⟩]) ∧
      ∀ e ∈ (node.mk fooba none
          [(⟨114, node.mk [114] (some ⟨foobar, "myval"⟩) []⟩ : Edge String),
           ⟨122, node.mk [122] (some ⟨foobaz, "myval2"⟩) []⟩]).edges,
        e.node.pfx ≠ [] ∧
          (SafeRun memFoobarFoobaz cellTreeSplit → e.node.pfx.head? = some e.label) :=
  ⟨safeRun_run _ _ safeRun_cellTreeSplit, rfl,
    edge_label_of_run memFoobarFoobaz cellTreeSplit (safeRun_run _ _ safeRun_cellTreeSplit)
      [0] _ rfl⟩

/-- C18 (amended). Failure condition of `Insert`: on every tree of the program
and for every key `K`, `Insert(K, V)` fails if and only if `K` is empty, or the
traversal of `K` reaches, through an edge labelled with the next unconsumed
byte, a child whose prefix is longer than the unconsumed rest of `K`
(`Overrun`), or the traversal ends at a child whose prefix begins with a byte
other than the label of its edge (`Clash`). The last case does not arise as
long as the program has overwritten no byte that the tree holds (`SafeRun`).
The fault is an index or a slice bounds fault, and the tree is left as it
was. -/
theorem insert_fails_iff_run (mem : Mem) (t : CTree V) (h : Run mem t) (key : List Cell)
    (val : V) :
    ((∃ f, InsertC mem t key val = .error f) ↔
        key = [] ∨ Overrun (t.view mem) (key.map (Cell.read mem)) ∨
          Clash (t.view mem) (key.map (Cell.read mem))) ∧
      (SafeRun mem t → ¬ Clash (t.view mem) (key.map (Cell.read mem))) ∧
      ∀ f, InsertC mem t key val = .error f →
        (f = .indexOutOfRange ∨ f = .sliceBounds) ∧
          InsertInPlace (t.view mem) (key.map (Cell.read mem)) val = ⟨t.view mem, some f⟩ := by
  obtain ⟨hsh, hroot, -, -⟩ := run_shaped mem t h
  refine ⟨?_, ?_, ?_⟩
  · have := Insert_error_iff_shaped (t.view mem) (key.map (Cell.read mem)) val hsh hroot
    simp only [List.map_eq_nil_iff] at this
    rw [← this]
    constructor
    · rintro ⟨f, hf⟩; exact ⟨f, (insertC_error_iff mem t key val f).mp hf⟩
    · rintro ⟨f, hf⟩; exact ⟨f, (insertC_error_iff mem t key val f).mpr hf⟩
  · intro hsafe
    exact not_clash_of_inv _ _ (reachable_inv _ (safeRun_reachable mem t hsafe)).1
  · intro f hf
    have hf' := (insertC_error_iff mem t key val f).mp hf
    constructor
    · cases f with
      | indexOutOfRange => exact Or.inl rfl
      | sliceBounds => exact Or.inr rfl
      | fuel => exact absurd hf' (Insert_ne_fuel _ _ val)
    · rw [InsertInPlace_eq, hf']

/-- Witness of C18 on the tree that the buffer reuse of `run_buffer_reuse`
leaves, with the key "fxy". -/
theorem insert_fails_iff_run_witness :
    Run memBar cellTree2 ∧
      ((∃ f, InsertC memBar cellTree2 (keyCells 3 3) "v3" = .error f) ↔
        keyCells 3 3 = [] ∨ Overrun (cellTree2.view memBar) ((keyCells 3 3).map (Cell.read memBar)) ∨
          Clash (cellTree2.view memBar) ((keyCells 3 3).map (Cell.read memBar))) ∧
      (SafeRun memBar cellTree2 →
        ¬ Clash (cellTree2.view memBar) ((keyCells 3 3).map (Cell.read memBar))) ∧
      ∀ f, InsertC memBar cellTree2 (keyCells 3 3) "v3" = .error f →
        (f = .indexOutOfRange ∨ f = .sliceBounds) ∧
          InsertInPlace (cellTree2.view memBar) ((keyCells 3 3).map (Cell.read memBar)) "v3" =
            ⟨cellTree2.view memBar, some f⟩ :=
  ⟨run_buffer_reuse, insert_fails_iff_run memBar cellTree2 run_buffer_reuse (keyCells 3 3) "v3"⟩

/-- C4 (amended). Idempotent update: on every tree of the program, let
`Insert(K, V1)` complete in the memory `mem`, and let the second call be made in
a memory `mem'` in which the tree reads as the first call left it (the caller
has overwritten no byte that the tree holds) with a key slice that reads `K`.
Then `Insert(K, V2)` completes as well; it only overwrites the leaf written by
the first call (at the node `m`, reached by `path`) with `{K, V2}`, creating no
node and no edge, and its result reads as the result of `Insert(K, V2)` on the
original tree. -/
theorem insert_twice_run (mem mem' : Mem) (t : CTree V) (h : Run mem t)
    (key key' : List Cell) (v1 v2 : V) (t1 : CTree V)
    (h1 : InsertC mem t key v1 = .ok t1)
    (hkeep : t1.view mem' = t1.view mem)
    (hkey : key'.map (Cell.read mem') = key.map (Cell.read mem)) :
    ∃ (t2 : CTree V) (path : List Nat) (m : node V),
      InsertC mem' t1 key' v2 = .ok t2 ∧
      nodeAt (t1.view mem).root path = some m ∧
      m.leaf = some ⟨key.map (Cell.read mem), v1⟩ ∧
      t2.view mem' = ⟨replaceAt (t1.view mem).root path
        (node.mk m.pfx (some ⟨key.map (Cell.read mem), v2⟩) m.edges)⟩ ∧
      ∃ u : CTree V, InsertC mem t key v2 = .ok u ∧ u.view mem = t2.view mem' := by
  obtain ⟨hsh, hroot, -, -⟩ := run_shaped mem t h
  obtain ⟨path, m, hat, hleaf, hins, heq⟩ := twice_shaped (t.view mem) hsh hroot
    (key.map (Cell.read mem)) v1 v2 (t1.view mem) (insertC_ok_view mem t t1 key v1 h1)
  have h2 : Insert (t1.view mem') (key'.map (Cell.read mem')) v2 =
      .ok ⟨replaceAt (t1.view mem).root path
        (node.mk m.pfx (some ⟨key.map (Cell.read mem), v2⟩) m.edges)⟩ := by
    rw [hkeep, hkey]; exact hins
  obtain ⟨t2, ht2, hv2⟩ := insertC_ok_of mem' t1 key' v2 _ h2
  refine ⟨t2, path, m, ht2, hat, hleaf, hv2, ?_⟩
  rw [hins] at heq
  obtain ⟨u, hu, hvu⟩ := insertC_ok_of mem t key v2 _ heq.symm
  exact ⟨u, hu, hvu.trans hv2.symm⟩

/-- Witness of C4: "foobar" inserted into the empty tree twice, from two buffers
of the caller. -/
theorem insert_twice_run_witness :
    Run memTwoFoobar (CNew : CTree String) ∧
      InsertC memTwoFoobar CNew (keyCells 0 6) "myval" = .ok cellTreeFoobar ∧
      cellTreeFoobar.view memTwoFoobar = cellTreeFoobar.view memTwoFoobar ∧
      (keyCells 6 6).map (Cell.read memTwoFoobar) = (keyCells 0 6).map (Cell.read memTwoFoobar) ∧
      ∃ (t2 : CTree String) (path : List Nat) (m : node String),
        InsertC memTwoFoobar cellTreeFoobar (keyCells 6 6) "myval2" = .ok t2 ∧
        nodeAt (cellTreeFoobar.view memTwoFoobar).root path = some m ∧
        m.leaf = some ⟨(keyCells 0 6).map (Cell.read memTwoFoobar), "myval"⟩ ∧
        t2.view memTwoFoobar = ⟨replaceAt (cellTreeFoobar.view memTwoFoobar).root path
          (node.mk m.pfx (some ⟨(keyCells 0 6).map (Cell.read memTwoFoobar), "myval2"⟩)
            m.edges)⟩ ∧
        ∃ u : CTree String, InsertC memTwoFoobar CNew (keyCells 0 6) "myval2" = .ok u ∧
          u.view memTwoFoobar = t2.view memTwoFoobar :=
  ⟨Run.new _, rfl, rfl, rfl,
    insert_twice_run memTwoFoobar memTwoFoobar CNew (Run.new _) (keyCells 0 6) (keyCells 6 6)
      "myval" "myval2" cellTreeFoobar rfl rfl rfl⟩

/-- `Insert` of a non-empty key into the empty tree: the root gets one edge to a
node that holds the slice of the key itself. -/
theorem insertC_new (mem : Mem) (c : Cell) (cs : List Cell) (v : V) :
    InsertC mem CNew (c :: cs) v =
      .ok ⟨cnode.mk [] none
        [⟨c.read mem, cnode.mk (c :: cs) (some ⟨(c :: cs).map (Cell.read mem), v⟩) []⟩]⟩ := rfl

/-- C9 (amended). Extension without split: a non-empty `K1` is inserted into an
empty tree in the memory `mem`, and `K1 ++ s` with `s` non-empty is inserted in
a memory `mem'` in which the buffer of `K1` still reads `K1`. Then both calls
complete, and the result reads: the node of `K1` with prefix `K1` and leaf
`{K1, V1}` has exactly one edge, labelled `s[0]`, to a node with prefix `s`,
leaf `{K1 ++ s, V2}` and no edges; the root keeps one edge. -/
theorem insert_extension_run (mem mem' : Mem) (k1 k2 : List Cell) (k0 : Byte)
    (rest : List Byte) (s0 : Byte) (srest : List Byte) (v1 v2 : V)
    (hk1 : k1.map (Cell.read mem) = k0 :: rest)
    (hkeep : k1.map (Cell.read mem') = k0 :: rest)
    (hk2 : k2.map (Cell.read mem') = (k0 :: rest) ++ s0 :: srest) :
    ∃ t1 t2 : CTree V, InsertC mem CNew k1 v1 = .ok t1 ∧ InsertC mem' t1 k2 v2 = .ok t2 ∧
      t2.view mem' = ⟨node.mk [] none [⟨k0, node.mk (k0 :: rest) (some ⟨k0 :: rest, v1⟩)
        [⟨s0, node.mk (s0 :: srest) (some ⟨(k0 :: rest) ++ s0 :: srest, v2⟩) []⟩]⟩]⟩ := by
  cases k1 with
  | nil => exact absurd hk1 (by simp)
  | cons c cs =>
    obtain ⟨t1, ht1, hext⟩ := insert_extension k0 rest s0 srest v1 v2
    rw [insert_single_aux] at ht1
    simp only [Except.ok.injEq] at ht1
    subst ht1
    simp only [List.map_cons, List.cons.injEq] at hk1 hkeep
    obtain ⟨hc, hcs⟩ := hk1
    obtain ⟨hc', hcs'⟩ := hkeep
    have hview : (⟨cnode.mk [] none
        [⟨c.read mem, cnode.mk (c :: cs) (some ⟨(c :: cs).map (Cell.read mem), v1⟩) []⟩]⟩ :
          CTree V).view mem' =
        ⟨node.mk [] none [⟨k0, node.mk (k0 :: rest) (some ⟨k0 :: rest, v1⟩) []⟩]⟩ := by
      simp only [CTree.view, view_mk, List.map_cons, List.map_nil, viewEdge, hc, hcs, hc', hcs']
    rw [← hview, ← hk2] at hext
    obtain ⟨t2, ht2, hv2⟩ := insertC_ok_of mem' _ k2 v2 _ hext
    exact ⟨_, t2, insertC_new mem c cs v1, ht2, by rw [hv2, hk2]⟩

/-- Witness of C9: "foo" and then "foobar", from two buffers of the caller. -/
theorem insert_extension_run_witness :
    (keyCells 0 3).map (Cell.read memTwoFoobar) = 102 :: [111, 111] ∧
      (keyCells 0 3).map (Cell.read memTwoFoobar) = 102 :: [111, 111] ∧
      (keyCells 6 6).map (Cell.read memTwoFoobar) = (102 :: [111, 111]) ++ 98 :: [97, 114] ∧
      ∃ t1 t2 : CTree String, InsertC memTwoFoobar CNew (keyCells 0 3) "myval" = .ok t1 ∧
        InsertC memTwoFoobar t1 (keyCells 6 6) "myval2" = .ok t2 ∧
        t2.view memTwoFoobar =
          ⟨node.mk [] none [⟨102, node.mk (102 :: [111, 111]) (some ⟨102 :: [111, 111], "myval"⟩)
            [⟨98, node.mk (98 :: [97, 114])
              (some ⟨(102 :: [111, 111]) ++ 98 :: [97, 114], "myval2"⟩) []⟩]⟩]⟩ :=
  ⟨rfl, rfl, rfl,
    insert_extension_run memTwoFoobar memTwoFoobar (keyCells 0 3) (keyCells 6 6) 102 [111, 111]
      98 [97, 114] "myval" "myval2" rfl rfl rfl⟩

/-- `insertAllC` on the slices is `insertAll` on the bytes they hold. -/
theorem insertAllC_view (mem : Mem) : ∀ (ss : List (Nat × Nat × V)) (t : CTree V),
    insertAll (t.view mem) (ss.map (sliceBytes mem)) =
      match insertAllC mem t ss with
      | .error f => .error f
      | .ok t' => .ok (t'.view mem) := by
  intro ss
  induction ss with
  | nil => intro t; rfl
  | cons s ss ih =>
    intro t
    have hv := Insert_view mem t (keyCells s.1 s.2.1) s.2.2
    simp only [List.map_cons, insertAll, insertAllC, sliceBytes] at hv ⊢
    rw [hv]
    cases InsertC mem t (keyCells s.1 s.2.1) s.2.2 with
    | error f => rfl
    | ok t' => exact ih t'

/-- C10 (amended). Keys with pairwise distinct first bytes: for a list of
non-empty key slices whose first bytes are pairwise distinct, in a memory that
the caller leaves as it is while the keys are inserted, inserting them into an
empty tree in any order yields a tree that reads the same: a root whose edges
are strictly ascending by label and are exactly the leaf edges of the keys
(label the first byte, child with the whole key as prefix, its leaf, and no
edges). -/
theorem insert_distinct_first_bytes_run (mem : Mem) (ss : List (Nat × Nat × V))
    (hne : ∀ s ∈ ss, (sliceBytes mem s).1 ≠ [])
    (hnd : (ss.map (fun s => (sliceBytes mem s).1.head?)).Nodup) :
    ∃ es : List (Edge V), SortedEdges es ∧
      es.Perm (ss.map (fun s => leafEdge (sliceBytes mem s))) ∧
      ∀ ss' : List (Nat × Nat × V), ss'.Perm ss →
        ∃ t' : CTree V, insertAllC mem CNew ss' = .ok t' ∧
          t'.view mem = ⟨node.mk [] none es⟩ := by
  obtain ⟨es, hs, hp, hall⟩ := insert_distinct_first_bytes (ss.map (sliceBytes mem))
    (by
      intro kv hkv
      rw [List.mem_map] at hkv
      obtain ⟨s, hs, rfl⟩ := hkv
      exact hne s hs)
    (by rw [List.map_map]; exact hnd)
  refine ⟨es, hs, by rw [List.map_map] at hp; exact hp, ?_⟩
  intro ss' hperm
  have h1 := hall (ss'.map (sliceBytes mem)) (hperm.map _)
  have h2 := insertAllC_view mem ss' (CNew : CTree V)
  rw [show (CNew : CTree V).view mem = New from rfl, h1] at h2
  cases hc : insertAllC mem CNew ss' with
  | error f => rw [hc] at h2; exact absurd h2 (by simp)
  | ok t' =>
    rw [hc] at h2
    simp only [Except.ok.injEq] at h2
    exact ⟨t', rfl, h2.symm⟩

/-- Witness of C10: the keys of `TestInsert_AddsSortedEdges`, each in a buffer
of its own. -/
theorem insert_distinct_first_bytes_run_witness :
    (∀ s ∈ threeSlices, (sliceBytes memThreeKeys s).1 ≠ []) ∧
    (threeSlices.map (fun s => (sliceBytes memThreeKeys s).1.head?)).Nodup ∧
    ∃ es : List (Edge String), SortedEdges es ∧
      es.Perm (threeSlices.map (fun s => leafEdge (sliceBytes memThreeKeys s))) ∧
      ∀ ss' : List (Nat × Nat × String), ss'.Perm threeSlices →
        ∃ t' : CTree String, insertAllC memThreeKeys CNew ss' = .ok t' ∧
          t'.view memThreeKeys = ⟨node.mk [] none es⟩ :=
  ⟨by decide, by decide,
    insert_distinct_first_bytes_run memThreeKeys threeSlices (by decide) (by decide)⟩

/-- Sibling ordering holds in every tree of the program, whatever the caller
has written to the buffers of the keys. -/
theorem edges_sorted_of_run (mem : Mem) (t : CTree V) (h : Run mem t) (path : List Nat)
    (n : node V) (hn : nodeAt (t.view mem).root path = some n) : SortedEdges n.edges :=
  ((run_shaped mem t h).1 path n hn).1

/-- Path compression holds in every tree of the program, whatever the caller has
written to the buffers of the keys. -/
theorem compressed_of_run (mem : Mem) (t : CTree V) (h : Run mem t) (path : List Nat)
    (m : node V) (hne : path ≠ []) (hm : nodeAt (t.view mem).root path = some m)
    (hleaf : m.leaf = none) : 2 ≤ m.edges.length :=
  (run_shaped mem t h).2.2.2 path m hne hm hleaf

/-- The frame of `Insert` holds on every tree of the program, whatever the
caller has written to the buffers of the keys. -/
theorem insert_frame_of_run (mem : Mem) (t : CTree V) (h : Run mem t) (key : List Cell)
    (k0 : Byte) (rest : List Byte) (hkey : key.map (Cell.read mem) = k0 :: rest)
    (val : V) (t' : CTree V) (hins : InsertC mem t key val = .ok t') :
    (t'.view mem).root.pfx = [] ∧ (t'.view mem).root.leaf = none ∧
      (t'.view mem).root.edges.filter (fun e => decide (e.label ≠ k0)) =
        (t.view mem).root.edges.filter (fun e => decide (e.label ≠ k0)) ∧
      ((t.view mem).root.edges.filter (fun e => decide (e.label ≠ k0))).Sublist
        (t'.view mem).root.edges := by
  obtain ⟨hsh, hroot, hleaf, -⟩ := run_shaped mem t h
  have hv := insertC_ok_view mem t t' key val hins
  rw [hkey] at hv
  obtain ⟨-, h2, h3⟩ := Insert_shaped _ _ val _ hsh hroot hv
  have hf := Insert_frame _ k0 rest val _ hroot hv
  refine ⟨h2, by rw [h3]; exact hleaf, hf, ?_⟩
  rw [← hf]
  exact List.filter_sublist _

end holddb
